import Mathlib

/-!
Shallow embedding of `src/lib/libcrypto/bn/bn_convert.c` (LibreSSL BIGNUM
conversion codecs) together with proofs about the codecs.

Modelling conventions:
* A `BIGNUM` is a sign flag `neg`, a limb array `d` (least-significant limb
  first, each limb a machine word below `2 ^ BN_BITS2`), and a significant-limb
  count `top`.  The allocated capacity `dmax` of the C struct is `d.length`.
  The word width is fixed at 32 bits (`BN_BYTES = 4`), one of the two widths
  the code supports.
* C byte buffers and C strings are `List Nat` with entries below 256; a C
  string is terminated by the first 0 byte (`strlen` below).
* `CBS` cursors are modelled by the remaining byte list; `CBB` builders by the
  list of bytes emitted so far.
* Machine arithmetic is `Nat` with explicit `% 2 ^ w` where the C code can
  wrap; `size_t` is 64 bits wide.
* Out-parameters of type `BIGNUM **bnp` are `Option (Option BIGNUM)`:
  the outer `Option` is nullity of `bnp`, the inner one nullity of `*bnp`.
* Fallible functions return `Option`; `none` is the `NULL`/`-1` failure.
* The arithmetic engine and allocator (`bn_lib.c`, not part of the sources
  under verification) are modelled from the spec; each such definition carries
  a doc comment starting with `Modelled from the spec:`.  Allocation is
  modelled as always succeeding.
-/

/-- Word width constants of the embedding: 32-bit limbs, as in the source's
32-bit configuration. -/
abbrev BN_BYTES : Nat := 4

/-- Bits per limb. -/
abbrev BN_BITS2 : Nat := 32

/-- Largest power of ten that fits a limb (`BN_DEC_CONV` for 32-bit words). -/
abbrev BN_DEC_CONV : Nat := 1000000000

/-- Decimal digits per `BN_DEC_CONV` chunk. -/
abbrev BN_DEC_NUM : Nat := 9

/-- C `INT_MAX` for the 32-bit `int` of the source. -/
abbrev INT_MAX : Nat := 2147483647

/-- Bit width of `size_t` in the source's environment. -/
abbrev SIZE_T_BITS : Nat := 64

/-- The BIGNUM record: limbs (least-significant first), significant length
`top`, sign flag `neg`.  Capacity `dmax` is the length of `d`. -/
structure BIGNUM where
  d : List Nat
  top : Nat
  neg : Bool
deriving DecidableEq, Repr

/-- Allocated capacity of the limb array (the C `dmax`). -/
def BIGNUM.dmax (a : BIGNUM) : Nat := a.d.length

/-- Numeric value of a limb list, least-significant limb first. -/
def limbsVal : List Nat → Nat
  | [] => 0
  | x :: xs => x + 2 ^ BN_BITS2 * limbsVal xs

/-- Magnitude of a BIGNUM: the value of its significant limbs. -/
def bnMag (a : BIGNUM) : Nat := limbsVal (a.d.take a.top)

/-- Structural well-formedness: the significant length fits the capacity and
every limb is a machine word. -/
def Wellformed (a : BIGNUM) : Prop :=
  a.top ≤ a.d.length ∧ ∀ x ∈ a.d, x < 2 ^ BN_BITS2

instance (a : BIGNUM) : Decidable (Wellformed a) := by
  unfold Wellformed; exact inferInstance

/-- Normal form: zero has significant length 0 and a clear sign flag;
otherwise the most significant limb is nonzero. -/
def Normalized (a : BIGNUM) : Prop :=
  (a.top = 0 → a.neg = false) ∧ (0 < a.top → a.d.getD (a.top - 1) 0 ≠ 0)

instance (a : BIGNUM) : Decidable (Normalized a) := by
  unfold Normalized; exact inferInstance

/-- Modelled from the spec: allocation of a fresh zero instance (`BN_new`,
external Limb Storage lifecycle); allocation failure is not modelled. -/
def BN_new : BIGNUM := ⟨[], 0, false⟩

/-- Modelled from the spec: set an instance to the value zero (`BN_zero`,
external); zero is non-negative with significant length 0. -/
def BN_zero (a : BIGNUM) : BIGNUM := { a with top := 0, neg := false }

/-- Helper for `bn_correct_top`: largest `t' ≤ t` such that limb `t' - 1` is
nonzero (0 if all scanned limbs are zero). -/
def correctTopAux (d : List Nat) : Nat → Nat
  | 0 => 0
  | t + 1 => if d.getD t 0 = 0 then correctTopAux d t else t + 1

/-- Modelled from the spec: normalization of the significant-limb count
(`bn_correct_top`, external Limb Storage): drop zero limbs from the top, and
force the sign non-negative when the magnitude is zero. -/
def bn_correct_top (a : BIGNUM) : BIGNUM :=
  let t := correctTopAux a.d a.top
  { a with top := t, neg := if t = 0 then false else a.neg }

/-- Modelled from the spec: capacity growth to at least `words` limbs
(`bn_wexpand`, external).  The source leaves fresh limbs uninitialized; the
model fills them with 0 (the codecs never read them unmasked).  Allocation is
modelled as always succeeding. -/
def bn_wexpand (a : BIGNUM) (words : Nat) : BIGNUM :=
  if a.d.length < words then
    { a with d := a.d ++ List.replicate (words - a.d.length) 0 }
  else a

/-- Modelled from the spec: capacity growth to at least `bits` bits
(`bn_expand`, external). -/
def bn_expand (a : BIGNUM) (bits : Nat) : BIGNUM :=
  bn_wexpand a ((bits + BN_BITS2 - 1) / BN_BITS2)

/-- Modelled from the spec: zero test (`BN_is_zero`, external) — significant
length 0. -/
def BN_is_zero (a : BIGNUM) : Bool := a.top == 0

/-- Modelled from the spec: sign assignment (`BN_set_negative`, external);
the sign is forced non-negative when the value is zero. -/
def BN_set_negative (a : BIGNUM) (neg : Bool) : BIGNUM :=
  { a with neg := neg && !(a.top == 0) }

/-- Modelled from the spec: bit length of the value (`BN_num_bits`,
external), computed from the significant length and the top limb. -/
def BN_num_bits (a : BIGNUM) : Nat :=
  if a.top = 0 then 0 else (a.top - 1) * BN_BITS2 + Nat.size (a.d.getD (a.top - 1) 0)

/-- Byte length derived from `BN_num_bits` (the `BN_num_bytes` macro). -/
def BN_num_bytes (a : BIGNUM) : Nat := (BN_num_bits a + 7) / 8

/-- Little-endian base-`2 ^ 32` limbs of a natural number, no trailing zero
limb. -/
def natToLimbs (n : Nat) : List Nat :=
  if n = 0 then [] else n % 2 ^ BN_BITS2 :: natToLimbs (n / 2 ^ BN_BITS2)
decreasing_by exact Nat.div_lt_self (Nat.pos_of_ne_zero (by assumption)) (by norm_num)

/-- Modelled from the spec: the net effect on the limb array of the external
single-word arithmetic (`BN_mul_word`/`BN_add_word`/`BN_div_word` chains):
store magnitude `m`, preserving capacity where it suffices. -/
def bn_set_mag (a : BIGNUM) (m : Nat) : BIGNUM :=
  let ls := natToLimbs m
  { a with d := ls ++ List.replicate (a.d.length - ls.length) 0, top := ls.length }

/-- Clear bit `j` of a machine word (the arithmetic effect of the source's
`&= ~(1 << j)`). -/
def clearBitWord (x j : Nat) : Nat := x % 2 ^ j + x / 2 ^ (j + 1) * 2 ^ (j + 1)

/-- Modelled from the spec: clear one bit of the value (`BN_clear_bit`,
external); out-of-range bit positions leave the value unchanged, and the
result is re-normalized. -/
def BN_clear_bit (a : BIGNUM) (n : Nat) : BIGNUM :=
  let i := n / BN_BITS2
  let j := n % BN_BITS2
  if a.top ≤ i then a
  else bn_correct_top { a with d := a.d.set i (clearBitWord (a.d.getD i 0) j) }

/-- Length of a modelled C string: bytes before the first 0 byte. -/
def strlen (s : List Nat) : Nat := (s.takeWhile (fun c => c != 0)).length

/-- C `isdigit` on a byte. -/
def isdigit (c : Nat) : Bool := decide (48 ≤ c ∧ c ≤ 57)

/-- C `isxdigit` on a byte. -/
def isxdigit (c : Nat) : Bool :=
  isdigit c || decide (97 ≤ c ∧ c ≤ 102) || decide (65 ≤ c ∧ c ≤ 70)

/-- The static upper-case hexadecimal digit table `hex_digits` of the source,
as bytes. -/
def hex_digits : List Nat := [48, 49, 50, 51, 52, 53, 54, 55, 56, 57, 65, 66, 67, 68, 69, 70]

/-- Endianness selector of `bn2binpad`. -/
inductive endianness_t where
  | big
  | little
deriving DecidableEq

/-- Big-endian value of a byte list. -/
def beVal : List Nat → Nat
  | [] => 0
  | b :: rest => b * 2 ^ (8 * rest.length) + beVal rest

/-- The `k` little-endian bytes of `m` (low byte first). -/
def leBytes (m k : Nat) : List Nat :=
  (List.range k).map (fun j => m / 2 ^ (8 * j) % 256)

/-- The `k` big-endian bytes of `m` (high byte first). -/
def beBytes (m k : Nat) : List Nat := (leBytes m k).reverse

/-- Emission loop of `bn2binpad` (`bn_convert.c:122-135`): produces the output
bytes in emission order.  `i` is the data index clamped to `lasti`, `j` the
output index, `rem` the remaining byte count; the running index update and the
zero mask reproduce the source's branch-free `size_t` arithmetic. -/
def bn2binpad_loop (a : BIGNUM) (lasti atop : Nat) : Nat → Nat → Nat → List Nat
  | _, _, 0 => []
  | i, j, rem + 1 =>
    let l := a.d.getD (i / BN_BYTES) 0
    let mask := (2 ^ SIZE_T_BITS - (((j + 2 ^ SIZE_T_BITS - atop) % 2 ^ SIZE_T_BITS) >>> (SIZE_T_BITS - 1))) % 2 ^ SIZE_T_BITS
    let val := ((l >>> (8 * (i % BN_BYTES))) &&& mask) % 256
    val :: bn2binpad_loop a lasti atop
      ((i + (((i + 2 ^ SIZE_T_BITS - lasti) % 2 ^ SIZE_T_BITS) >>> (SIZE_T_BITS - 1))) % 2 ^ SIZE_T_BITS)
      (j + 1) rem

/-- The static helper `bn2binpad` (`bn_convert.c:84-138`).  Returns the
written bytes; `none` is the `-1` failure.  The returned list has the length
the C function reports. -/
def bn2binpad (a : BIGNUM) (tolen : Int) (endianness : endianness_t) : Option (List Nat) :=
  let n : Int := BN_num_bytes a
  let tolen? : Option Int :=
    if tolen = -1 then some n
    else if tolen < n then
      let temp := bn_correct_top a
      if tolen < (BN_num_bytes temp : Int) then none else some tolen
    else some tolen
  match tolen? with
  | none => none
  | some tolen =>
    let atop0 := a.d.length * BN_BYTES
    if atop0 = 0 then some (List.replicate tolen.toNat 0)
    else
      let lasti := atop0 - 1
      let atop := a.top * BN_BYTES
      let bytes := bn2binpad_loop a lasti atop 0 0 tolen.toNat
      match endianness with
      | .big => some bytes.reverse
      | .little => some bytes

/-- `BN_bn2bin` (`bn_convert.c:140-144`): auto-length big-endian encoding. -/
def BN_bn2bin (a : BIGNUM) : Option (List Nat) := bn2binpad a (-1) .big

/-- `BN_bn2binpad` (`bn_convert.c:146-152`). -/
def BN_bn2binpad (a : BIGNUM) (tolen : Int) : Option (List Nat) :=
  if tolen < 0 then none else bn2binpad a tolen .big

/-- `BN_bn2lebinpad` (`bn_convert.c:196-203`). -/
def BN_bn2lebinpad (a : BIGNUM) (tolen : Int) : Option (List Nat) :=
  if tolen < 0 then none else bn2binpad a tolen .little

/-- Byte-packing loop shared by `BN_bin2bn` (`bn_convert.c:182-189`) and
`BN_lebin2bn` (`bn_convert.c:239-247`), which runs the same accumulation over
the bytes in most-significant-first order.  `l` is the limb accumulator, `m`
the countdown to the next limb store, `i` the next store slot + 1. -/
def bin2bn_loop : List Nat → Nat → Nat → Nat → List Nat → List Nat
  | [], _, _, _, d => d
  | b :: rest, l, m, i, d =>
    let l' := ((l <<< 8) % 2 ^ BN_BITS2) ||| b
    if m = 0 then bin2bn_loop rest 0 (BN_BYTES - 1) (i - 1) (d.set (i - 1) l')
    else bin2bn_loop rest l' (m - 1) i d

/-- `BN_bin2bn` (`bn_convert.c:154-194`).  `ret?` is the caller-supplied
output instance (`none` = allocate fresh); the result is `none` exactly on
the `NULL` returns of the source. -/
def BN_bin2bn (s : List Nat) (len : Int) (ret? : Option BIGNUM) : Option BIGNUM :=
  if len < 0 then none
  else
    let ret := ret?.getD BN_new
    let n := len.toNat
    if n = 0 then some { ret with top := 0 }
    else
      let i := (n - 1) / BN_BYTES + 1
      let m := (n - 1) % BN_BYTES
      let ret := bn_wexpand ret i
      let d := bin2bn_loop (s.take n) 0 m i ret.d
      some (bn_correct_top { ret with d := d, top := i, neg := false })

/-- Drop trailing zero bytes (the backward scan at `bn_convert.c:219-221`). -/
def dropTrailingZeros (l : List Nat) : List Nat :=
  (l.reverse.dropWhile (fun b => b == 0)).reverse

/-- `BN_lebin2bn` (`bn_convert.c:205-256`).  There is no negative-length
check in the source: a negative `len` is converted to `unsigned int`
(`n = len mod 2 ^ 32`) and the code proceeds; the bytes the source would then
read lie outside the supplied buffer (undefined behaviour), modelled here as
an empty byte list. -/
def BN_lebin2bn (s : List Nat) (len : Int) (ret? : Option BIGNUM) : Option BIGNUM :=
  let ret := ret?.getD BN_new
  let bytes := if 0 ≤ len then dropTrailingZeros (s.take len.toNat) else []
  let n : Nat := if 0 ≤ len then bytes.length else (len % (2 ^ 32 : Int)).toNat
  if n = 0 then some { ret with top := 0 }
  else
    let i := (n - 1) / BN_BYTES + 1
    let m := (n - 1) % BN_BYTES
    let ret := bn_wexpand ret i
    let d := bin2bn_loop bytes.reverse 0 m i ret.d
    some (bn_correct_top { ret with d := d, top := i, neg := false })

/-- Inner digit-emission loop of `BN_bn2dec` (`bn_convert.c:338-343`): the
`k` low decimal digits of a word `w`, least significant first, as ASCII. -/
def dec_chunk : Nat → Nat → List Nat
  | _, 0 => []
  | w, k + 1 => (48 + w % 10) :: dec_chunk (w / 10) k

/-- Division loop of `BN_bn2dec` (`bn_convert.c:335-344`): reversed,
zero-padded ASCII digit stream of the magnitude.  The source runs the loop on
a duplicate of the input, guarded by `BN_is_zero` and dividing by
`BN_DEC_CONV` via the external `BN_div_word`. -/
def bn2dec_digits (m : Nat) : List Nat :=
  if m = 0 then [] else dec_chunk (m % BN_DEC_CONV) BN_DEC_NUM ++ bn2dec_digits (m / BN_DEC_CONV)
decreasing_by exact Nat.div_lt_self (Nat.pos_of_ne_zero (by assumption)) (by norm_num)

/-- Reverse-and-trim pass of `BN_bn2dec` (`bn_convert.c:358-373`): read the
digit stream from the back, skip leading `'0'` bytes, emit a single `'0'` if
nothing was emitted. -/
def dec_trim (data : List Nat) : List Nat :=
  if (data.reverse.dropWhile (fun c => c == 48)).isEmpty then [48]
  else data.reverse.dropWhile (fun c => c == 48)

/-- `BN_bn2dec` (`bn_convert.c:309-385`): the returned C string including its
terminating 0 byte.  Allocation failure is not modelled. -/
def BN_bn2dec (bn : BIGNUM) : List Nat :=
  (if bn.neg then [45] else []) ++ dec_trim (bn2dec_digits (bnMag bn)) ++ [0]

/-- Accumulation loop of `bn_dec2bn_cbs` (`bn_convert.c:435-455`): consume
`nd` bytes, each checked to be a decimal digit, chunking `BN_DEC_NUM` digits
into a word `w` and folding each chunk into the accumulator `acc` (the
magnitude of the growing BIGNUM; the external `BN_mul_word`/`BN_add_word`
appear as `acc * BN_DEC_CONV + w`).  `dd` counts down to the chunk boundary.
Returns `none` on the source's error paths. -/
def dec_accum : List Nat → Nat → Nat → Nat → Nat → Option Nat
  | _, 0, _, _, acc => some acc
  | [], _ + 1, _, _, _ => none
  | v :: cs, nd + 1, w, dd, acc =>
    if v < 48 ∨ 57 < v then none
    else
      let w' := w * 10 + (v - 48)
      if dd - 1 = 0 then dec_accum cs nd 0 BN_DEC_NUM (acc * BN_DEC_CONV + w')
      else dec_accum cs nd w' (dd - 1) acc

/-- `bn_dec2bn_cbs` (`bn_convert.c:387-470`).  Returns the `int` result and
the final state of `*bnp`; the consumed cursor is not returned (no caller
reads it). -/
def bn_dec2bn_cbs (bnp : Option (Option BIGNUM)) (cbs : List Nat) : Nat × Option (Option BIGNUM) :=
  match cbs.head? with
  | none => (0, bnp)
  | some v =>
    let neg := v == 45
    let cbs1 := if neg then cbs.drop 1 else cbs
    let digits := (cbs1.takeWhile isdigit).length
    if INT_MAX / 4 < digits then (0, bnp)
    else
      let num := digits + (if neg then 1 else 0)
      match bnp with
      | none => (num, none)
      | some bn? =>
        let bn := bn_expand (bn?.getD BN_new) (digits * 4)
        let d0 := if digits % BN_DEC_NUM = 0 then BN_DEC_NUM else digits % BN_DEC_NUM
        match dec_accum cbs1 digits 0 d0 (bnMag bn) with
        | none => (0, bnp)
        | some acc =>
          (num, some (some (BN_set_negative (bn_correct_top (bn_set_mag bn acc)) neg)))

/-- `BN_dec2bn` (`bn_convert.c:472-489`): zero any caller-supplied instance,
then parse the C string. -/
def BN_dec2bn (bnp : Option (Option BIGNUM)) (s : Option (List Nat)) : Nat × Option (Option BIGNUM) :=
  let bnp := match bnp with
    | some (some b) => some (some (BN_zero b))
    | x => x
  match s with
  | none => (0, bnp)
  | some s =>
    if strlen s = 0 then (0, bnp)
    else bn_dec2bn_cbs bnp (s.take (strlen s))

/-- Big-endian bytes of one limb, high byte first (`(w >> j) & 0xff` for
`j = 8 * (k - 1), ..., 0` at `bn_convert.c:513-515`). -/
def limb_bytes_be (w : Nat) : Nat → List Nat
  | 0 => []
  | k + 1 => ((w >>> (8 * k)) &&& 255) :: limb_bytes_be w k

/-- Big-endian byte walk of the significant limbs, most significant limb
first (`bn_convert.c:512-524`). -/
def mag_bytes_be (d : List Nat) : Nat → List Nat
  | 0 => []
  | i + 1 => limb_bytes_be (d.getD i 0) BN_BYTES ++ mag_bytes_be d i

/-- `BN_bn2hex` (`bn_convert.c:491-534`): sign marker, `'0'` for zero, then
two upper-case hex characters per byte after suppressing leading zero bytes
(the `started` flag), and the terminating 0 byte. -/
def BN_bn2hex (bn : BIGNUM) : List Nat :=
  (if bn.neg then [45] else []) ++
  (if bn.top = 0 then [48] else []) ++
  (((mag_bytes_be bn.d bn.top).dropWhile (fun v => v == 0)).map
    (fun v => [hex_digits.getD (v >>> 4) 0, hex_digits.getD (v &&& 15) 0])).flatten ++ [0]

/-- Hex digit classification and value of `bn_convert.c:590-597`. -/
def hexDigitVal (v : Nat) : Option Nat :=
  if 48 ≤ v ∧ v ≤ 57 then some (v - 48)
  else if 97 ≤ v ∧ v ≤ 102 then some (v - 87)
  else if 65 ≤ v ∧ v ≤ 70 then some (v - 55)
  else none

/-- Accumulation loop of `bn_hex2bn_cbs` (`bn_convert.c:586-607`): consume
`k` digit bytes from the back of the run, 4 bits per digit packed upward into
the current limb `w` (`b` = bits still free in `w`), storing a limb into slot
`i` when full or when the run ends. -/
def hex_accum : Nat → List Nat → Nat → Nat → Nat → List Nat → Option (Nat × List Nat)
  | 0, _, _, i, _, d => some (i, d)
  | k + 1, cs, b, i, w, d =>
    match cs.getLast? with
    | none => none
    | some v =>
      match hexDigitVal v with
      | none => none
      | some v' =>
        let w' := w ||| (v' <<< (BN_BITS2 - b))
        if b - 4 = 0 ∨ k = 0 then hex_accum k cs.dropLast BN_BITS2 (i + 1) 0 (d.set i w')
        else hex_accum k cs.dropLast (b - 4) i w' d

/-- `bn_hex2bn_cbs` (`bn_convert.c:536-623`).  Returns the `int` result and
the final state of `*bnp`. -/
def bn_hex2bn_cbs (bnp : Option (Option BIGNUM)) (cbs : List Nat) : Nat × Option (Option BIGNUM) :=
  match cbs.head? with
  | none => (0, bnp)
  | some v =>
    let neg := v == 45
    let cbs1 := if neg then cbs.drop 1 else cbs
    let digits := (cbs1.takeWhile isxdigit).length
    if INT_MAX / 4 < digits then (0, bnp)
    else
      let num := digits + (if neg then 1 else 0)
      match bnp with
      | none => (num, none)
      | some bn? =>
        let bn := bn_expand (bn?.getD BN_new) (digits * 4)
        match hex_accum digits (cbs1.take digits) BN_BITS2 0 0 bn.d with
        | none => (0, bnp)
        | some (i, d) =>
          (num, some (some (BN_set_negative (bn_correct_top { bn with d := d, top := i }) neg)))

/-- `BN_hex2bn` (`bn_convert.c:625-642`). -/
def BN_hex2bn (bnp : Option (Option BIGNUM)) (s : Option (List Nat)) : Nat × Option (Option BIGNUM) :=
  let bnp := match bnp with
    | some (some b) => some (some (BN_zero b))
    | x => x
  match s with
  | none => (0, bnp)
  | some s =>
    if strlen s = 0 then (0, bnp)
    else bn_hex2bn_cbs bnp (s.take (strlen s))

/-- `BN_asc2bn` (`bn_convert.c:258-307`).  The outer `Option` of the result
is the modelled crash: `none` when the final `BN_set_negative(*bnp, neg)`
dereferences a `NULL` `bnp` or `*bnp`; otherwise `some (ret, final bnp)`. -/
def BN_asc2bn (bnp : Option (Option BIGNUM)) (s : Option (List Nat)) : Option (Nat × Option (Option BIGNUM)) :=
  let bnp := match bnp with
    | some (some b) => some (some (BN_zero b))
    | x => x
  match s with
  | none => some (0, bnp)
  | some s =>
    if strlen s = 0 then some (0, bnp)
    else
      let cbs := s.take (strlen s)
      match cbs.head? with
      | none => some (0, bnp)
      | some v =>
        let neg := v == 45
        let cbs := if neg then cbs.drop 1 else cbs
        let hexrest? : Option (List Nat) :=
          match cbs with
          | v0 :: v1 :: rest => if v0 = 48 ∧ (v1 = 88 ∨ v1 = 120) then some rest else none
          | _ => none
        let step : Nat × Option (Option BIGNUM) :=
          match hexrest? with
          | some cbs_hex => bn_hex2bn_cbs bnp cbs_hex
          | none => bn_dec2bn_cbs bnp cbs
        if step.1 = 0 then some (0, step.2)
        else
          match step.2 with
          | some (some bn) => some (1, some (some (BN_set_negative bn neg)))
          | _ => none

/-- `BN_bn2mpi` (`bn_convert.c:644-671`): the `int` result together with the
written buffer (`none` models the size-only query with `d == NULL`).  When the
value is zero and negative (non-normalized input) the source's `d[4] |= 0x80`
writes past the payload; the model's `List.set` is a no-op there. -/
def BN_bn2mpi (a : BIGNUM) (wantBuf : Bool) : Nat × Option (List Nat) :=
  let bits := BN_num_bits a
  let num := (bits + 7) / 8
  let ext := if 0 < bits ∧ bits % 8 = 0 then 1 else 0
  if !wantBuf then (num + 4 + ext, none)
  else
    let l := num + ext
    let header := [(l >>> 24) % 256, (l >>> 16) % 256, (l >>> 8) % 256, l % 256]
    let out := header ++ (if ext = 1 then [0] else []) ++ (BN_bn2bin a).getD []
    let out := if a.neg then out.set 4 (out.getD 4 0 ||| 128) else out
    (num + 4 + ext, some out)

/-- `BN_mpi2bn` (`bn_convert.c:673-714`). -/
def BN_mpi2bn (d : List Nat) (n : Int) (ain : Option BIGNUM) : Option BIGNUM :=
  if n < 4 then none
  else
    let len : Nat := d.getD 0 0 * 2 ^ 24 + d.getD 1 0 * 2 ^ 16 + d.getD 2 0 * 2 ^ 8 + d.getD 3 0
    if (len : Int) + 4 ≠ n then none
    else
      let a := ain.getD BN_new
      if len = 0 then some { a with neg := false, top := 0 }
      else
        let payload := d.drop 4
        let neg := (payload.getD 0 0 &&& 128) != 0
        match BN_bin2bn payload (len : Int) (some a) with
        | none => none
        | some a =>
          let a := BN_set_negative a neg
          if neg then some (BN_clear_bit a (BN_num_bits a - 1)) else some a

/-- Big-endian nibbles of one limb, high nibble first (`(d[i] >> j) & 0x0f`
at `bn_convert.c:742-744`). -/
def limb_nibbles_be (w : Nat) : Nat → List Nat
  | 0 => []
  | k + 1 => ((w >>> (4 * k)) &&& 15) :: limb_nibbles_be w k

/-- Big-endian nibble walk of the significant limbs (`bn_convert.c:741-751`). -/
def mag_nibbles_be (d : List Nat) : Nat → List Nat
  | 0 => []
  | i + 1 => limb_nibbles_be (d.getD i 0) (BN_BITS2 / 4) ++ mag_nibbles_be d i

/-- `BN_print` (`bn_convert.c:731-756`): the bytes written to the sink (the
sink is external and modelled as always succeeding). -/
def BN_print (a : BIGNUM) : List Nat :=
  (if a.neg then [45] else []) ++
  (if a.top = 0 then [48] else []) ++
  ((mag_nibbles_be a.d a.top).dropWhile (fun v => v == 0)).map (fun v => hex_digits.getD v 0)

/-- Minimal byte length of a magnitude: `ceil(bitlength / 8)`. -/
def minBytes (m : Nat) : Nat := (Nat.size m + 7) / 8

/-- Value of a most-significant-first decimal digit list. -/
def decVal (ds : List Nat) : Nat := ds.foldl (fun a v => a * 10 + v) 0

/-- Value of a most-significant-first hexadecimal digit list. -/
def hexVal (vs : List Nat) : Nat := vs.foldl (fun a v => a * 16 + v) 0

/-- Upper-case a lower-case hex letter byte, leaving all other bytes alone. -/
def hexUpcase (c : Nat) : Nat := if 97 ≤ c ∧ c ≤ 102 then c - 32 else c

/-- Skip one leading `'-'` byte, as the sub-codecs of `BN_asc2bn` do. -/
def sign_skip (l : List Nat) : List Nat := if l.head? = some 45 then l.drop 1 else l

/-- Length of the digit run the sub-codec chosen by `BN_asc2bn` will scan:
after the dispatcher's own sign skip and base detection, and after the chosen
sub-codec's embedded sign skip. -/
def ascDigitRun (s : List Nat) : Nat :=
  let cbs := s.take (strlen s)
  let cbs := if cbs.head? = some 45 then cbs.drop 1 else cbs
  match cbs with
  | 48 :: v1 :: rest =>
    if v1 = 88 ∨ v1 = 120 then ((sign_skip rest).takeWhile isxdigit).length
    else ((sign_skip cbs).takeWhile isdigit).length
  | _ => ((sign_skip cbs).takeWhile isdigit).length

/-- Value of a least-significant-first list of ASCII decimal digits. -/
def leDecVal : List Nat → Nat
  | [] => 0
  | c :: cs => (c - 48) + 10 * leDecVal cs

/-- The BIGNUM assembled by the shared packing path of `BN_bin2bn` and
`BN_lebin2bn` from a nonempty big-endian byte list `B` and the output
instance `ret`. -/
def bin2bn_result (B : List Nat) (ret : BIGNUM) : BIGNUM :=
  let i := (B.length - 1) / BN_BYTES + 1
  let m := (B.length - 1) % BN_BYTES
  let ret' := bn_wexpand ret i
  bn_correct_top { ret' with d := bin2bn_loop B 0 m i ret'.d, top := i, neg := false }

theorem borrow_shift_eq {x y : Nat} (hx : x < 2 ^ (SIZE_T_BITS - 1))
    (hy : y ≤ 2 ^ (SIZE_T_BITS - 1)) :
    ((x + 2 ^ SIZE_T_BITS - y) % 2 ^ SIZE_T_BITS) >>> (SIZE_T_BITS - 1) =
      if x < y then 1 else 0 := by
  rw [Nat.shiftRight_eq_div_pow]
  have e1 : SIZE_T_BITS = 64 := rfl
  rw [e1] at hx hy ⊢
  split <;> omega

theorem mask_eq {j atop : Nat} (hj : j < 2 ^ (SIZE_T_BITS - 1))
    (ha : atop ≤ 2 ^ (SIZE_T_BITS - 1)) :
    (2 ^ SIZE_T_BITS - (((j + 2 ^ SIZE_T_BITS - atop) % 2 ^ SIZE_T_BITS) >>> (SIZE_T_BITS - 1))) % 2 ^ SIZE_T_BITS =
      if j < atop then 2 ^ SIZE_T_BITS - 1 else 0 := by
  rw [borrow_shift_eq hj ha]
  have e1 : SIZE_T_BITS = 64 := rfl
  rw [e1]
  split <;> omega

theorem and_all_ones {x : Nat} (h : x < 2 ^ SIZE_T_BITS) :
    x &&& (2 ^ SIZE_T_BITS - 1) = x := by
  rw [Nat.and_pow_two_sub_one_eq_mod, Nat.mod_eq_of_lt h]

theorem lor_shiftLeft_eq_add (a b s : Nat) (h : a < 2 ^ s) :
    a ||| (b <<< s) = a + b * 2 ^ s := by
  apply Nat.eq_of_testBit_eq
  intro i
  rw [Nat.testBit_lor, Nat.testBit_shiftLeft]
  rcases lt_or_ge i s with hi | hi
  · have hd : decide (i ≥ s) = false := by simp [Nat.not_le.mpr hi]
    rw [hd, Bool.false_and, Bool.or_false]
    rw [Nat.testBit_to_div_mod, Nat.testBit_to_div_mod]
    have hmul : b * 2 ^ s = b * 2 ^ (s - 1 - i) * 2 * 2 ^ i := by
      rw [Nat.mul_assoc, Nat.mul_assoc, ← Nat.pow_succ']
      rw [← pow_add]
      congr 2
      omega
    rw [hmul, Nat.add_mul_div_right _ _ (Nat.pos_pow_of_pos i (by norm_num)),
      Nat.add_mul_mod_self_right]
  · have ha : a.testBit i = false :=
      Nat.testBit_lt_two_pow (lt_of_lt_of_le h (Nat.pow_le_pow_right (by norm_num) hi))
    have hd : decide (i ≥ s) = true := by simp [hi]
    rw [ha, hd, Bool.true_and, Bool.false_or]
    rw [Nat.testBit_to_div_mod, Nat.testBit_to_div_mod]
    have hsplit : (2 : Nat) ^ i = 2 ^ s * 2 ^ (i - s) := by
      rw [← pow_add]
      congr 1
      omega
    rw [hsplit, ← Nat.div_div_eq_div_mul]
    have : (a + b * 2 ^ s) / 2 ^ s = b := by
      rw [Nat.add_mul_div_right _ _ (Nat.pos_pow_of_pos s (by norm_num)),
        Nat.div_eq_of_lt h, Nat.zero_add]
    rw [this]

theorem bin2bn_step_eq (l b : Nat) (hl : l < 2 ^ 24) (hb : b < 256) :
    ((l <<< 8) % 2 ^ BN_BITS2) ||| b = b + l * 2 ^ 8 := by
  have h := lor_shiftLeft_eq_add b l 8 hb
  rw [Nat.shiftLeft_eq] at h
  rw [Nat.shiftLeft_eq, Nat.mod_eq_of_lt (by show l * 2 ^ 8 < 2 ^ 32; nlinarith),
    Nat.lor_comm]
  exact h

theorem limbsVal_lt {l : List Nat} (h : ∀ x ∈ l, x < 2 ^ BN_BITS2) :
    limbsVal l < 2 ^ (BN_BITS2 * l.length) := by
  induction l with
  | nil => simp [limbsVal]
  | cons x xs ih =>
    have hx := h x (List.mem_cons_self _ _)
    have hxs := ih (fun y hy => h y (List.mem_cons_of_mem _ hy))
    simp only [limbsVal, List.length_cons]
    calc x + 2 ^ BN_BITS2 * limbsVal xs
        < 2 ^ BN_BITS2 + 2 ^ BN_BITS2 * limbsVal xs := by omega
      _ = 2 ^ BN_BITS2 * (1 + limbsVal xs) := by ring
      _ ≤ 2 ^ BN_BITS2 * 2 ^ (BN_BITS2 * xs.length) := by
          exact Nat.mul_le_mul_left _ (by omega)
      _ = 2 ^ (BN_BITS2 * (xs.length + 1)) := by
          rw [← pow_add]
          congr 1
          ring

theorem limbsVal_extract {l : List Nat} (h : ∀ x ∈ l, x < 2 ^ BN_BITS2) (k : Nat) :
    limbsVal l / 2 ^ (BN_BITS2 * k) % 2 ^ BN_BITS2 = l.getD k 0 := by
  induction l generalizing k with
  | nil => simp [limbsVal, Nat.zero_div]
  | cons x xs ih =>
    have hx := h x (List.mem_cons_self _ _)
    have hxs : ∀ y ∈ xs, y < 2 ^ BN_BITS2 := fun y hy => h y (List.mem_cons_of_mem _ hy)
    match k with
    | 0 =>
      simp only [limbsVal, Nat.mul_zero, pow_zero, Nat.div_one, List.getD_cons_zero]
      rw [Nat.add_mul_mod_self_left, Nat.mod_eq_of_lt hx]
    | k + 1 =>
      have hstep : (x + 2 ^ BN_BITS2 * limbsVal xs) / 2 ^ BN_BITS2 = limbsVal xs := by
        rw [Nat.mul_comm (2 ^ BN_BITS2), Nat.add_mul_div_right _ _ (by positivity),
          Nat.div_eq_of_lt hx, Nat.zero_add]
      simp only [limbsVal, List.getD_cons_succ]
      rw [show BN_BITS2 * (k + 1) = BN_BITS2 + BN_BITS2 * k by ring, pow_add,
        ← Nat.div_div_eq_div_mul, hstep]
      exact ih hxs k

theorem limbsVal_append (l1 l2 : List Nat) :
    limbsVal (l1 ++ l2) = limbsVal l1 + 2 ^ (BN_BITS2 * l1.length) * limbsVal l2 := by
  induction l1 with
  | nil => simp [limbsVal]
  | cons x xs ih =>
    rw [List.cons_append]
    show x + 2 ^ BN_BITS2 * limbsVal (xs ++ l2) = _
    rw [ih]
    show _ = x + 2 ^ BN_BITS2 * limbsVal xs + 2 ^ (BN_BITS2 * (xs.length + 1)) * limbsVal l2
    rw [show BN_BITS2 * (xs.length + 1) = BN_BITS2 + BN_BITS2 * xs.length by ring, pow_add]
    ring

theorem getD_lt_of_wf {a : BIGNUM} (ha : Wellformed a) (t : Nat) :
    a.d.getD t 0 < 2 ^ BN_BITS2 := by
  rcases lt_or_ge t a.d.length with h | h
  · have he : a.d.getD t 0 = a.d[t] := by
      rw [List.getD_eq_getElem?_getD, List.getElem?_eq_getElem h]
      rfl
    rw [he]
    exact ha.2 _ (List.getElem_mem h)
  · rw [List.getD_eq_getElem?_getD, List.getElem?_eq_none (by omega)]
    norm_num

theorem wf_take_lt {a : BIGNUM} (ha : Wellformed a) :
    ∀ x ∈ a.d.take a.top, x < 2 ^ BN_BITS2 :=
  fun x hx => ha.2 x ((List.take_sublist _ _).mem hx)

theorem bnMag_lt {a : BIGNUM} (ha : Wellformed a) :
    bnMag a < 2 ^ (BN_BITS2 * a.top) := by
  have h := limbsVal_lt (wf_take_lt ha)
  rwa [List.length_take, min_eq_left ha.1] at h

theorem getD_take_of_lt (l : List Nat) {n k : Nat} (h : k < n) :
    (l.take n).getD k 0 = l.getD k 0 := by
  rw [List.getD_eq_getElem?_getD, List.getD_eq_getElem?_getD, List.getElem?_take, if_pos h]

theorem take_succ_of_lt (l : List Nat) {t : Nat} (h : t < l.length) :
    l.take (t + 1) = l.take t ++ [l.getD t 0] := by
  rw [List.take_succ, List.getD_eq_getElem?_getD, List.getElem?_eq_getElem h]
  rfl

theorem limbsVal_take_succ (l : List Nat) (t : Nat) (ht : t < l.length) :
    limbsVal (l.take (t + 1)) = limbsVal (l.take t) + 2 ^ (BN_BITS2 * t) * l.getD t 0 := by
  rw [take_succ_of_lt l ht, limbsVal_append, List.length_take, min_eq_left (by omega)]
  simp [limbsVal]

theorem correctTopAux_le (d : List Nat) (t : Nat) : correctTopAux d t ≤ t := by
  induction t with
  | zero => simp [correctTopAux]
  | succ t ih =>
    rw [correctTopAux]
    split
    · omega
    · omega

theorem correctTopAux_top_ne (d : List Nat) (t : Nat) (h : 0 < correctTopAux d t) :
    d.getD (correctTopAux d t - 1) 0 ≠ 0 := by
  induction t with
  | zero => simp [correctTopAux] at h
  | succ t ih =>
    by_cases hd : d.getD t 0 = 0
    · rw [correctTopAux, if_pos hd] at h ⊢
      exact ih h
    · rw [correctTopAux, if_neg hd]
      simpa using hd

theorem limbsVal_concat_zero (l : List Nat) : limbsVal (l ++ [0]) = limbsVal l := by
  rw [limbsVal_append]
  simp [limbsVal]

theorem correctTopAux_val (d : List Nat) (t : Nat) :
    limbsVal (d.take (correctTopAux d t)) = limbsVal (d.take t) := by
  induction t with
  | zero => simp [correctTopAux]
  | succ t ih =>
    rw [correctTopAux]
    split
    · rcases lt_or_ge t d.length with hlt | hge
      · rw [ih, take_succ_of_lt d hlt, (by assumption : d.getD t 0 = 0), limbsVal_concat_zero]
      · rw [ih, List.take_of_length_le hge, List.take_of_length_le (by omega)]
    · rfl

theorem correctTopAux_eq_of_ne (d : List Nat) (t : Nat) (h : 0 < t → d.getD (t - 1) 0 ≠ 0) :
    correctTopAux d t = t := by
  cases t with
  | zero => simp [correctTopAux]
  | succ t =>
    rw [correctTopAux, if_neg]
    exact h (by omega)

theorem bn_correct_top_d (a : BIGNUM) : (bn_correct_top a).d = a.d := rfl

theorem bn_correct_top_mag (a : BIGNUM) : bnMag (bn_correct_top a) = bnMag a :=
  correctTopAux_val a.d a.top

theorem bn_correct_top_wf {a : BIGNUM} (ha : Wellformed a) : Wellformed (bn_correct_top a) :=
  ⟨le_trans (correctTopAux_le a.d a.top) ha.1, ha.2⟩

theorem bn_correct_top_normalized (a : BIGNUM) : Normalized (bn_correct_top a) := by
  constructor
  · intro h
    have h' : correctTopAux a.d a.top = 0 := h
    show (if correctTopAux a.d a.top = 0 then false else a.neg) = false
    rw [if_pos h']
  · intro h
    exact correctTopAux_top_ne a.d a.top h

theorem num_bits_le {a : BIGNUM} (ha : Wellformed a) :
    Nat.size (bnMag a) ≤ BN_num_bits a := by
  cases htop : a.top with
  | zero => simp [BN_num_bits, bnMag, htop, limbsVal]
  | succ t =>
    have ht : t < a.d.length := by have := ha.1; omega
    have he : BN_num_bits a = t * BN_BITS2 + Nat.size (a.d.getD t 0) := by
      rw [BN_num_bits, htop]
      norm_num
    have hlow : limbsVal (a.d.take t) < 2 ^ (BN_BITS2 * t) := by
      have hb : ∀ x ∈ a.d.take t, x < 2 ^ BN_BITS2 :=
        fun x hx => ha.2 x ((List.take_sublist _ _).mem hx)
      have := limbsVal_lt hb
      rwa [List.length_take, min_eq_left (by omega)] at this
    rw [he, Nat.size_le, bnMag, htop, limbsVal_take_succ a.d t ht]
    calc limbsVal (a.d.take t) + 2 ^ (BN_BITS2 * t) * a.d.getD t 0
        < 2 ^ (BN_BITS2 * t) + 2 ^ (BN_BITS2 * t) * a.d.getD t 0 := by omega
      _ = 2 ^ (BN_BITS2 * t) * (a.d.getD t 0 + 1) := by ring
      _ ≤ 2 ^ (BN_BITS2 * t) * 2 ^ Nat.size (a.d.getD t 0) :=
          Nat.mul_le_mul_left _ (Nat.lt_size_self _)
      _ = 2 ^ (t * BN_BITS2 + Nat.size (a.d.getD t 0)) := by
          rw [← pow_add]
          congr 1
          ring

theorem num_bits_normalized {a : BIGNUM} (ha : Wellformed a)
    (hn : 0 < a.top → a.d.getD (a.top - 1) 0 ≠ 0) :
    BN_num_bits a = Nat.size (bnMag a) := by
  cases htop : a.top with
  | zero => simp [BN_num_bits, bnMag, htop, limbsVal]
  | succ t =>
    have hw0 : a.d.getD t 0 ≠ 0 := by
      have := hn (by omega)
      rwa [htop, Nat.succ_sub_one] at this
    have ht : t < a.d.length := by have := ha.1; omega
    have hsz : 0 < Nat.size (a.d.getD t 0) := Nat.size_pos.mpr (Nat.pos_of_ne_zero hw0)
    have he : BN_num_bits a = t * BN_BITS2 + Nat.size (a.d.getD t 0) := by
      rw [BN_num_bits, htop]
      norm_num
    have hge : 2 ^ (t * BN_BITS2 + (Nat.size (a.d.getD t 0) - 1)) ≤ bnMag a := by
      rw [bnMag, htop, limbsVal_take_succ a.d t ht, pow_add]
      have hb : 2 ^ (Nat.size (a.d.getD t 0) - 1) ≤ a.d.getD t 0 := by
        rw [← Nat.lt_size]
        omega
      calc 2 ^ (t * BN_BITS2) * 2 ^ (Nat.size (a.d.getD t 0) - 1)
          ≤ 2 ^ (t * BN_BITS2) * a.d.getD t 0 := Nat.mul_le_mul_left _ hb
        _ = 2 ^ (BN_BITS2 * t) * a.d.getD t 0 := by rw [Nat.mul_comm t BN_BITS2]
        _ ≤ limbsVal (a.d.take t) + 2 ^ (BN_BITS2 * t) * a.d.getD t 0 := by omega
    have hup := num_bits_le ha
    rw [he] at hup
    have hdn : t * BN_BITS2 + (Nat.size (a.d.getD t 0) - 1) < Nat.size (bnMag a) :=
      Nat.lt_size.mpr hge
    rw [he]
    omega

theorem minBytes_le_num_bytes {a : BIGNUM} (ha : Wellformed a) :
    minBytes (bnMag a) ≤ BN_num_bytes a :=
  Nat.div_le_div_right (Nat.add_le_add_right (num_bits_le ha) 7)

theorem num_bytes_normalized {a : BIGNUM} (ha : Wellformed a)
    (hn : 0 < a.top → a.d.getD (a.top - 1) 0 ≠ 0) :
    BN_num_bytes a = minBytes (bnMag a) := by
  rw [BN_num_bytes, num_bits_normalized ha hn, minBytes]

theorem lt_two_pow_mul_minBytes (m : Nat) : m < 2 ^ (8 * minBytes m) := by
  have h : Nat.size m ≤ 8 * minBytes m := by
    rw [minBytes]
    omega
  exact lt_of_lt_of_le (Nat.lt_size_self m) (Nat.pow_le_pow_right (by norm_num) h)

theorem minBytes_le_of_lt {m k : Nat} (h : m < 2 ^ (8 * k)) : minBytes m ≤ k := by
  have := Nat.size_le.mpr h
  rw [minBytes]
  omega

theorem minBytes_eq_zero_iff {m : Nat} : minBytes m = 0 ↔ m = 0 := by
  rw [minBytes]
  constructor
  · intro h
    have : Nat.size m = 0 := by omega
    exact Nat.size_eq_zero.mp this
  · intro h
    subst h
    simp [Nat.size_zero]

theorem top_byte_ne_zero {m : Nat} (hm : m ≠ 0) :
    m / 2 ^ (8 * (minBytes m - 1)) % 256 ≠ 0 := by
  have hszpos : 0 < Nat.size m := Nat.size_pos.mpr (Nat.pos_of_ne_zero hm)
  have hBpos : 0 < minBytes m := by
    rw [minBytes]
    omega
  have hlo : 2 ^ (8 * (minBytes m - 1)) ≤ m := by
    calc 2 ^ (8 * (minBytes m - 1)) ≤ 2 ^ (Nat.size m - 1) := by
          apply Nat.pow_le_pow_right (by norm_num)
          rw [minBytes] at hBpos ⊢
          omega
      _ ≤ m := by
          rw [← Nat.lt_size]
          omega
  have hhi : m < 2 ^ (8 * (minBytes m - 1)) * 256 := by
    calc m < 2 ^ Nat.size m := Nat.lt_size_self m
      _ ≤ 2 ^ (8 * (minBytes m - 1) + 8) := by
          apply Nat.pow_le_pow_right (by norm_num)
          rw [minBytes]
          omega
      _ = 2 ^ (8 * (minBytes m - 1)) * 256 := by rw [pow_add]; norm_num
  have h1 : 1 ≤ m / 2 ^ (8 * (minBytes m - 1)) := by
    rw [Nat.le_div_iff_mul_le (by positivity)]
    omega
  have h2 : m / 2 ^ (8 * (minBytes m - 1)) < 256 := by
    rw [Nat.div_lt_iff_lt_mul (by positivity)]
    omega
  rw [Nat.mod_eq_of_lt h2]
  omega

theorem mag_byte {a : BIGNUM} (ha : Wellformed a) (k : Nat) :
    (if k < a.top * BN_BYTES then (a.d.getD (k / BN_BYTES) 0 >>> (8 * (k % BN_BYTES))) % 256 else 0)
      = bnMag a / 2 ^ (8 * k) % 256 := by
  split
  · rename_i hk
    have hq : k / BN_BYTES < a.top := by
      apply Nat.div_lt_of_lt_mul
      rw [Nat.mul_comm]
      exact hk
    have hr : k % BN_BYTES < 4 := Nat.mod_lt k (by norm_num)
    have hqd : (a.d.take a.top).getD (k / BN_BYTES) 0 = a.d.getD (k / BN_BYTES) 0 :=
      getD_take_of_lt a.d hq
    have hx : a.d.getD (k / BN_BYTES) 0 = bnMag a / 2 ^ (BN_BITS2 * (k / BN_BYTES)) % 2 ^ BN_BITS2 := by
      rw [← hqd, bnMag, limbsVal_extract (wf_take_lt ha)]
    rw [hx, Nat.shiftRight_eq_div_pow]
    have hsplit : (2 : Nat) ^ BN_BITS2 = 2 ^ (8 * (k % BN_BYTES)) * 2 ^ (BN_BITS2 - 8 * (k % BN_BYTES)) := by
      rw [← pow_add]
      congr 1
      show (32 : Nat) = 8 * (k % BN_BYTES) + (32 - 8 * (k % BN_BYTES))
      omega
    rw [hsplit, Nat.mod_mul_right_div_self, Nat.div_div_eq_div_mul, ← pow_add]
    have hk8 : BN_BITS2 * (k / BN_BYTES) + 8 * (k % BN_BYTES) = 8 * k := by
      show 32 * (k / BN_BYTES) + 8 * (k % BN_BYTES) = 8 * k
      have hd4 : k / BN_BYTES = k / 4 := rfl
      have hm4 : k % BN_BYTES = k % 4 := rfl
      rw [hd4, hm4]
      omega
    rw [hk8]
    refine Nat.mod_mod_of_dvd _ ⟨2 ^ (BN_BITS2 - 8 * (k % BN_BYTES) - 8), ?_⟩
    rw [show (256 : Nat) = 2 ^ 8 by norm_num, ← pow_add]
    congr 1
    show (32 : Nat) - 8 * (k % BN_BYTES) = 8 + (32 - 8 * (k % BN_BYTES) - 8)
    omega
  · rename_i hk
    have hk' : a.top * 4 ≤ k := Nat.le_of_not_lt hk
    have hlt : bnMag a < 2 ^ (8 * k) := by
      calc bnMag a < 2 ^ (BN_BITS2 * a.top) := bnMag_lt ha
        _ ≤ 2 ^ (8 * k) := by
            apply Nat.pow_le_pow_right (by norm_num)
            show 32 * a.top ≤ 8 * k
            omega
    rw [Nat.div_eq_of_lt hlt]

theorem bn2binpad_loop_eq (a : BIGNUM) (ha : Wellformed a)
    (hcap : a.d.length * BN_BYTES ≤ 2 ^ 62) :
    ∀ rem j, j + rem ≤ 2 ^ 62 →
      bn2binpad_loop a (a.d.length * BN_BYTES - 1) (a.top * BN_BYTES)
          (min j (a.d.length * BN_BYTES - 1)) j rem =
        (List.range rem).map (fun k => bnMag a / 2 ^ (8 * (j + k)) % 256) := by
  intro rem
  induction rem with
  | zero => intro j hj; rfl
  | succ rem ih =>
    intro j hj
    have hlasti_lt : a.d.length * BN_BYTES - 1 < 2 ^ (SIZE_T_BITS - 1) := by
      show a.d.length * BN_BYTES - 1 < 2 ^ 63
      have h4 : a.d.length * BN_BYTES = a.d.length * 4 := rfl
      have h62 : (2 : Nat) ^ 62 ≤ 2 ^ 63 := by norm_num
      omega
    have hj_lt : j < 2 ^ (SIZE_T_BITS - 1) := by
      show j < 2 ^ 63
      have : (2 : Nat) ^ 62 < 2 ^ 63 := by norm_num
      omega
    have hatop_le : a.top * BN_BYTES ≤ 2 ^ (SIZE_T_BITS - 1) := by
      show a.top * BN_BYTES ≤ 2 ^ 63
      have hle : a.top * BN_BYTES ≤ a.d.length * BN_BYTES := Nat.mul_le_mul_right _ ha.1
      have : (2 : Nat) ^ 62 ≤ 2 ^ 63 := by norm_num
      omega
    have hmin_lt : min j (a.d.length * BN_BYTES - 1) < 2 ^ (SIZE_T_BITS - 1) := by
      rcases min_le_left j (a.d.length * BN_BYTES - 1) with _
      exact lt_of_le_of_lt (min_le_left _ _) hj_lt
    have hlasti_le : a.d.length * BN_BYTES - 1 ≤ 2 ^ (SIZE_T_BITS - 1) :=
      le_of_lt hlasti_lt
    show (((a.d.getD (min j (a.d.length * BN_BYTES - 1) / BN_BYTES) 0 >>>
          (8 * (min j (a.d.length * BN_BYTES - 1) % BN_BYTES))) &&&
          ((2 ^ SIZE_T_BITS -
            (((j + 2 ^ SIZE_T_BITS - a.top * BN_BYTES) % 2 ^ SIZE_T_BITS) >>> (SIZE_T_BITS - 1))) %
              2 ^ SIZE_T_BITS)) % 256) ::
        bn2binpad_loop a (a.d.length * BN_BYTES - 1) (a.top * BN_BYTES)
          ((min j (a.d.length * BN_BYTES - 1) +
            (((min j (a.d.length * BN_BYTES - 1) + 2 ^ SIZE_T_BITS - (a.d.length * BN_BYTES - 1)) %
              2 ^ SIZE_T_BITS) >>> (SIZE_T_BITS - 1))) % 2 ^ SIZE_T_BITS)
          (j + 1) rem = _
    have hmask := mask_eq hj_lt hatop_le
    have hstep : (min j (a.d.length * BN_BYTES - 1) +
        (((min j (a.d.length * BN_BYTES - 1) + 2 ^ SIZE_T_BITS - (a.d.length * BN_BYTES - 1)) %
          2 ^ SIZE_T_BITS) >>> (SIZE_T_BITS - 1))) % 2 ^ SIZE_T_BITS =
        min (j + 1) (a.d.length * BN_BYTES - 1) := by
      rw [borrow_shift_eq hmin_lt hlasti_le]
      rcases lt_or_ge j (a.d.length * BN_BYTES - 1) with hlt | hge
      · rw [min_eq_left (le_of_lt hlt), if_pos hlt, min_eq_left (by omega),
          Nat.mod_eq_of_lt (show j + 1 < 2 ^ 64 by omega)]
      · rw [min_eq_right hge, if_neg (by omega), min_eq_right (by omega), Nat.add_zero,
          Nat.mod_eq_of_lt (show a.d.length * BN_BYTES - 1 < 2 ^ 64 by
            have h4 : a.d.length * BN_BYTES = a.d.length * 4 := rfl
            omega)]
    rw [hstep, hmask]
    have hhead : ((a.d.getD (min j (a.d.length * BN_BYTES - 1) / BN_BYTES) 0 >>>
        (8 * (min j (a.d.length * BN_BYTES - 1) % BN_BYTES))) &&&
        (if j < a.top * BN_BYTES then 2 ^ SIZE_T_BITS - 1 else 0)) % 256 =
        bnMag a / 2 ^ (8 * j) % 256 := by
      rw [← mag_byte ha j]
      rcases lt_or_ge j (a.top * BN_BYTES) with hlt | hge
      · have hjle : j ≤ a.d.length * BN_BYTES - 1 := by
          have hle : a.top * BN_BYTES ≤ a.d.length * BN_BYTES := Nat.mul_le_mul_right _ ha.1
          omega
        rw [min_eq_left hjle, if_pos hlt, if_pos hlt, and_all_ones]
        calc a.d.getD (j / BN_BYTES) 0 >>> (8 * (j % BN_BYTES))
            ≤ a.d.getD (j / BN_BYTES) 0 := by
              rw [Nat.shiftRight_eq_div_pow]
              exact Nat.div_le_self _ _
          _ < 2 ^ BN_BITS2 := getD_lt_of_wf ha _
          _ < 2 ^ SIZE_T_BITS := by norm_num
      · rw [if_neg (by omega), if_neg (by omega), Nat.and_zero, Nat.zero_mod]
    rw [hhead]
    rw [ih (j + 1) (by omega), List.range_succ_eq_map, List.map_cons, List.map_map]
    congr 1
    apply List.map_congr_left
    intro x hx
    have he : j + 1 + x = j + (x + 1) := by omega
    show bnMag a / 2 ^ (8 * (j + 1 + x)) % 256 = bnMag a / 2 ^ (8 * (j + (x + 1))) % 256
    rw [he]

theorem leBytes_zero_eq (k : Nat) : leBytes 0 k = List.replicate k 0 := by
  unfold leBytes
  rw [show (fun j : Nat => 0 / 2 ^ (8 * j) % 256) = (fun _ : Nat => (0 : Nat)) from
    funext (fun j => by simp)]
  rw [List.map_const', List.length_range]

theorem beBytes_zero_eq (k : Nat) : beBytes 0 k = List.replicate k 0 := by
  rw [beBytes, leBytes_zero_eq, List.reverse_replicate]

theorem bn2binpad_loop_le (a : BIGNUM) (ha : Wellformed a)
    (hcap : a.d.length * BN_BYTES ≤ 2 ^ 62) (rem : Nat) (hrem : rem ≤ 2 ^ 62) :
    bn2binpad_loop a (a.d.length * BN_BYTES - 1) (a.top * BN_BYTES) 0 0 rem =
      leBytes (bnMag a) rem := by
  have h := bn2binpad_loop_eq a ha hcap rem 0 (by omega)
  rw [min_eq_left (Nat.zero_le _)] at h
  rw [h, leBytes]
  apply List.map_congr_left
  intro x hx
  rw [Nat.zero_add]

theorem bn2binpad_emit_eq {a : BIGNUM} (ha : Wellformed a)
    (hcap : a.d.length * BN_BYTES ≤ 2 ^ 62) (k : Nat) (hk : k ≤ 2 ^ 62)
    (e : endianness_t) :
    (let atop0 := a.d.length * BN_BYTES
     if atop0 = 0 then some (List.replicate k 0)
     else
       let lasti := atop0 - 1
       let atop := a.top * BN_BYTES
       let bytes := bn2binpad_loop a lasti atop 0 0 k
       match e with
       | .big => some bytes.reverse
       | .little => some bytes) =
      some (if e = endianness_t.little then leBytes (bnMag a) k
        else beBytes (bnMag a) k) := by
  by_cases hz : a.d.length * BN_BYTES = 0
  · have hm : bnMag a = 0 := by
      have hl : a.d.length = 0 := by
        have h4 : a.d.length * BN_BYTES = a.d.length * 4 := rfl
        omega
      have ht : a.top = 0 := by have := ha.1; omega
      rw [bnMag, ht]
      rfl
    simp only [hz, if_pos, hm]
    cases e with
    | little => rw [if_pos rfl, leBytes_zero_eq]
    | big => rw [if_neg (by simp), beBytes_zero_eq]
  · simp only [if_neg hz, bn2binpad_loop_le a ha hcap k hk]
    cases e with
    | little => rw [if_pos rfl]
    | big => rw [if_neg (by simp), beBytes]

theorem bn2binpad_eq {a : BIGNUM} (ha : Wellformed a)
    (hcap : a.d.length * BN_BYTES ≤ 2 ^ 62) {tolen : Int} (h0 : 0 ≤ tolen)
    (hbound : tolen ≤ 2 ^ 62) (e : endianness_t) :
    bn2binpad a tolen e =
      if tolen < (minBytes (bnMag a) : Int) then none
      else some (if e = endianness_t.little then leBytes (bnMag a) tolen.toNat
        else beBytes (bnMag a) tolen.toNat) := by
  have hminle : minBytes (bnMag a) ≤ BN_num_bytes a := minBytes_le_num_bytes ha
  have htempbytes : BN_num_bytes (bn_correct_top a) = minBytes (bnMag a) := by
    rw [num_bytes_normalized (bn_correct_top_wf ha) (bn_correct_top_normalized a).2,
      bn_correct_top_mag]
  have hemit := bn2binpad_emit_eq ha hcap tolen.toNat (by omega) e
  unfold bn2binpad
  simp only [if_neg (show ¬tolen = -1 by omega)]
  by_cases h2 : tolen < (BN_num_bytes a : Int)
  · simp only [if_pos h2, htempbytes]
    by_cases hlt : tolen < (minBytes (bnMag a) : Int)
    · simp only [if_pos hlt]
    · simp only [if_neg hlt]
      exact hemit
  · have hlt : ¬tolen < (minBytes (bnMag a) : Int) := by omega
    simp only [if_neg h2, if_neg hlt]
    exact hemit

theorem set_drop_of_lt (l : List Nat) (k n v : Nat) (h : k < n) :
    (l.set k v).drop n = l.drop n := by
  apply List.ext_getElem?
  intro m
  rw [List.getElem?_drop, List.getElem?_drop, List.getElem?_set]
  split
  · omega
  · rfl

theorem getD_of_drop_eq {r d : List Nat} {k : Nat} (h : r.drop k = d.drop k) :
    r.getD k 0 = d.getD k 0 := by
  rw [List.getD_eq_getElem?_getD, List.getD_eq_getElem?_getD]
  have h0 : (r.drop k)[0]? = (d.drop k)[0]? := by rw [h]
  rw [List.getElem?_drop, List.getElem?_drop, Nat.add_zero] at h0
  rw [h0]

theorem getD_set_self (l : List Nat) (k v : Nat) (h : k < l.length) :
    (l.set k v).getD k 0 = v := by
  rw [List.getD_eq_getElem?_getD, List.getElem?_set_self h]
  rfl

theorem beVal_lt {s : List Nat} (h : ∀ b ∈ s, b < 256) : beVal s < 2 ^ (8 * s.length) := by
  induction s with
  | nil => simp [beVal]
  | cons b rest ih =>
    have hb := h b (List.mem_cons_self _ _)
    have hr := ih (fun y hy => h y (List.mem_cons_of_mem _ hy))
    simp only [beVal, List.length_cons]
    calc b * 2 ^ (8 * rest.length) + beVal rest
        < b * 2 ^ (8 * rest.length) + 2 ^ (8 * rest.length) := by omega
      _ = (b + 1) * 2 ^ (8 * rest.length) := by ring
      _ ≤ 256 * 2 ^ (8 * rest.length) := Nat.mul_le_mul_right _ (by omega)
      _ = 2 ^ (8 * (rest.length + 1)) := by
          rw [show (256 : Nat) = 2 ^ 8 by norm_num, ← pow_add]
          congr 1
          ring

theorem beVal_cons (b : Nat) (rest : List Nat) :
    beVal (b :: rest) = b * 2 ^ (8 * rest.length) + beVal rest := rfl

theorem bin2bn_loop_spec :
    ∀ (s : List Nat) (l m i : Nat) (d : List Nat),
    (∀ b ∈ s, b < 256) → m ≤ BN_BYTES - 1 → l < 2 ^ (8 * (BN_BYTES - 1 - m)) →
    s.length = BN_BYTES * (i - 1) + (m + 1) → 1 ≤ i → i ≤ d.length →
    (bin2bn_loop s l m i d).length = d.length ∧
    (bin2bn_loop s l m i d).drop i = d.drop i ∧
    limbsVal ((bin2bn_loop s l m i d).take i) = beVal s + l * 2 ^ (8 * s.length) ∧
    ((∀ x ∈ d, x < 2 ^ BN_BITS2) → ∀ x ∈ bin2bn_loop s l m i d, x < 2 ^ BN_BITS2) := by
  intro s
  induction s with
  | nil =>
    intro l m i d _ _ _ hlen _ _
    simp only [List.length_nil] at hlen
    omega
  | cons b rest ih =>
    intro l m i d hbytes hm hl hlen hi hid
    have hb : b < 256 := hbytes b (List.mem_cons_self _ _)
    have hrest : ∀ x ∈ rest, x < 256 := fun y hy => hbytes y (List.mem_cons_of_mem _ hy)
    have hb4 : BN_BYTES = 4 := rfl
    have hlen4 : rest.length + 1 = 4 * (i - 1) + (m + 1) := by
      rw [hb4] at hlen
      simpa using hlen
    have hm4 : m ≤ 3 := by rw [hb4] at hm; omega
    by_cases hm0 : m = 0
    · subst hm0
      have hl24 : l < 2 ^ 24 := hl
      have hstep : ((l <<< 8) % 2 ^ BN_BITS2) ||| b = b + l * 2 ^ 8 :=
        bin2bn_step_eq l b hl24 hb
      have hlw : b + l * 2 ^ 8 < 2 ^ BN_BITS2 := by
        show b + l * 2 ^ 8 < 2 ^ 32
        have hmul : l * 2 ^ 8 ≤ (2 ^ 24 - 1) * 2 ^ 8 := Nat.mul_le_mul_right _ (by omega)
        omega
      rw [show bin2bn_loop (b :: rest) l 0 i d =
          bin2bn_loop rest 0 (BN_BYTES - 1) (i - 1) (d.set (i - 1) (((l <<< 8) % 2 ^ BN_BITS2) ||| b))
          from rfl, hstep]
      by_cases hre : rest = []
      · subst hre
        have hi1 : i = 1 := by
          simp only [List.length_nil] at hlen4
          omega
        subst hi1
        simp only [Nat.sub_self]
        refine ⟨by simp [bin2bn_loop], ?_, ?_, ?_⟩
        · show (d.set 0 (b + l * 2 ^ 8)).drop 1 = d.drop 1
          exact set_drop_of_lt d 0 1 _ (by omega)
        · show limbsVal ((d.set 0 (b + l * 2 ^ 8)).take 1) = beVal [b] + l * 2 ^ (8 * [b].length)
          have h0 : (d.set 0 (b + l * 2 ^ 8)).getD 0 0 = b + l * 2 ^ 8 :=
            getD_set_self d 0 _ (by omega)
          rw [show (1 : Nat) = 0 + 1 from rfl,
            take_succ_of_lt _ (show 0 < (d.set 0 (b + l * 2 ^ 8)).length by
              rw [List.length_set]; omega), List.take_zero, h0]
          show limbsVal [b + l * 2 ^ 8] = beVal [b] + l * 2 ^ (8 * 1)
          show b + l * 2 ^ 8 + 2 ^ BN_BITS2 * 0 = b * 2 ^ (8 * 0) + 0 + l * 2 ^ (8 * 1)
          norm_num
        · intro hd x hx
          show x < 2 ^ BN_BITS2
          rcases List.mem_or_eq_of_mem_set hx with h | h
          · exact hd x h
          · rw [h]; exact hlw
      · have hrpos : 1 ≤ rest.length := by
          cases rest with
          | nil => exact absurd rfl hre
          | cons c cs => simp
        have hi2 : 2 ≤ i := by omega
        have hrlen : rest.length = BN_BYTES * (i - 1 - 1) + (BN_BYTES - 1 + 1) := by
          rw [hb4]
          omega
        obtain ⟨ihlen, ihdrop, ihval, ihbound⟩ :=
          ih 0 (BN_BYTES - 1) (i - 1) (d.set (i - 1) (b + l * 2 ^ 8)) hrest (le_refl _)
            (by rw [hb4]; norm_num) hrlen (by omega) (by rw [List.length_set]; omega)
        have hd'len : (d.set (i - 1) (b + l * 2 ^ 8)).length = d.length := List.length_set _ _ _
        set r := bin2bn_loop rest 0 (BN_BYTES - 1) (i - 1) (d.set (i - 1) (b + l * 2 ^ 8)) with hr
        have hrlen2 : r.length = d.length := by rw [ihlen, hd'len]
        refine ⟨hrlen2, ?_, ?_, ?_⟩
        · have h2 := congrArg (List.drop 1) ihdrop
          rw [List.drop_drop, List.drop_drop] at h2
          rw [show i - 1 + 1 = i from by omega] at h2
          rw [h2]
          exact set_drop_of_lt d (i - 1) i _ (by omega)
        · have hslot : r.getD (i - 1) 0 = b + l * 2 ^ 8 := by
            rw [getD_of_drop_eq ihdrop]
            exact getD_set_self d (i - 1) _ (by omega)
          have htake : r.take i = r.take (i - 1) ++ [b + l * 2 ^ 8] := by
            have h3 := take_succ_of_lt r (show i - 1 < r.length by omega)
            rw [hslot] at h3
            rw [show i - 1 + 1 = i from by omega] at h3
            exact h3
          rw [htake, limbsVal_append, ihval, List.length_take,
            min_eq_left (show i - 1 ≤ r.length by omega)]
          rw [show limbsVal [b + l * 2 ^ 8] = b + l * 2 ^ 8 from by
            show b + l * 2 ^ 8 + 2 ^ BN_BITS2 * 0 = b + l * 2 ^ 8
            ring]
          rw [beVal_cons]
          have hexp2 : BN_BITS2 * (i - 1) = 8 * rest.length := by
            show 32 * (i - 1) = 8 * rest.length
            omega
          rw [hexp2]
          rw [show 8 * (b :: rest).length = 8 * rest.length + 8 from by
            simp only [List.length_cons]
            ring]
          rw [pow_add]
          ring
        · intro hd
          apply ihbound
          intro x hx
          rcases List.mem_or_eq_of_mem_set hx with h | h
          · exact hd x h
          · rw [h]; exact hlw
    · have hlnext : b + l * 2 ^ 8 < 2 ^ (8 * (BN_BYTES - 1 - (m - 1))) := by
        have hl3 : l < 2 ^ (8 * (3 - m)) := by
          have h31 : 8 * (BN_BYTES - 1 - m) = 8 * (3 - m) := by rw [hb4]
          rwa [h31] at hl
        have h32 : 8 * (BN_BYTES - 1 - (m - 1)) = 8 * (3 - m) + 8 := by rw [hb4]; omega
        rw [h32, pow_add]
        have hmul : l * 2 ^ 8 ≤ (2 ^ (8 * (3 - m)) - 1) * 2 ^ 8 :=
          Nat.mul_le_mul_right _ (by omega)
        have hpow : 1 ≤ (2 : Nat) ^ (8 * (3 - m)) := Nat.one_le_two_pow
        nlinarith
      have hl24 : l < 2 ^ 24 := by
        calc l < 2 ^ (8 * (BN_BYTES - 1 - m)) := hl
          _ ≤ 2 ^ 24 := by
              apply Nat.pow_le_pow_right (by norm_num)
              rw [hb4]
              omega
      have hstep : ((l <<< 8) % 2 ^ BN_BITS2) ||| b = b + l * 2 ^ 8 :=
        bin2bn_step_eq l b hl24 hb
      rw [show bin2bn_loop (b :: rest) l m i d =
          bin2bn_loop rest (((l <<< 8) % 2 ^ BN_BITS2) ||| b) (m - 1) i d from by
            rw [bin2bn_loop, if_neg hm0], hstep]
      have hrlen : rest.length = BN_BYTES * (i - 1) + (m - 1 + 1) := by
        rw [hb4]
        omega
      obtain ⟨ihlen, ihdrop, ihval, ihbound⟩ :=
        ih (b + l * 2 ^ 8) (m - 1) i d hrest (by rw [hb4]; omega) hlnext hrlen hi hid
      refine ⟨ihlen, ihdrop, ?_, ihbound⟩
      rw [ihval, beVal_cons]
      rw [show 8 * (b :: rest).length = 8 * rest.length + 8 from by
        simp only [List.length_cons]
        ring]
      rw [pow_add]
      ring

theorem leBytes_length (m k : Nat) : (leBytes m k).length = k := by
  rw [leBytes, List.length_map, List.length_range]

theorem beBytes_length (m k : Nat) : (beBytes m k).length = k := by
  rw [beBytes, List.length_reverse, leBytes_length]

theorem leBytes_succ (m k : Nat) :
    leBytes m (k + 1) = leBytes m k ++ [m / 2 ^ (8 * k) % 256] := by
  rw [leBytes, leBytes, List.range_succ, List.map_append]
  rfl

theorem beVal_beBytes (m k : Nat) : beVal (beBytes m k) = m % 2 ^ (8 * k) := by
  induction k with
  | zero => simp [beBytes, leBytes, beVal, Nat.mod_one]
  | succ k ih =>
    rw [beBytes, leBytes_succ, List.reverse_append]
    show beVal (m / 2 ^ (8 * k) % 256 :: (leBytes m k).reverse) = _
    rw [beVal_cons, ← beBytes, ih, beBytes_length]
    have e1 : (2 : Nat) ^ (8 * k) = 256 ^ k := by
      rw [pow_mul]
      norm_num
    have e2 : (2 : Nat) ^ (8 * (k + 1)) = 256 ^ (k + 1) := by
      rw [pow_mul]
      norm_num
    rw [e1, e2, Nat.mod_pow_succ]
    ring

theorem beVal_beBytes_of_lt {m k : Nat} (h : m < 2 ^ (8 * k)) :
    beVal (beBytes m k) = m := by
  rw [beVal_beBytes, Nat.mod_eq_of_lt h]

theorem leBytes_bytes_lt (m k : Nat) : ∀ x ∈ leBytes m k, x < 256 := by
  intro x hx
  rw [leBytes] at hx
  obtain ⟨j, _, hj⟩ := List.mem_map.mp hx
  omega

theorem beBytes_bytes_lt (m k : Nat) : ∀ x ∈ beBytes m k, x < 256 := by
  intro x hx
  rw [beBytes, List.mem_reverse] at hx
  exact leBytes_bytes_lt m k x hx

theorem leBytes_split {m c k : Nat} (hc : minBytes m ≤ c) (hk : c ≤ k) :
    leBytes m k = leBytes m c ++ List.replicate (k - c) 0 := by
  rw [leBytes, leBytes, show k = c + (k - c) by omega, List.range_add, List.map_append]
  congr 1
  rw [show c + (k - c) - c = k - c by omega, List.map_map]
  have hz : ∀ j ∈ List.range (k - c), ((fun j => m / 2 ^ (8 * j) % 256) ∘ (fun x => c + x)) j = 0 := by
    intro j _
    show m / 2 ^ (8 * (c + j)) % 256 = 0
    have hlt : m < 2 ^ (8 * (c + j)) := by
      calc m < 2 ^ (8 * minBytes m) := lt_two_pow_mul_minBytes m
        _ ≤ 2 ^ (8 * (c + j)) := Nat.pow_le_pow_right (by norm_num) (by omega)
    rw [Nat.div_eq_of_lt hlt]
  rw [List.map_congr_left hz, List.map_const', List.length_range]

theorem beBytes_split {m c k : Nat} (hc : minBytes m ≤ c) (hk : c ≤ k) :
    beBytes m k = List.replicate (k - c) 0 ++ beBytes m c := by
  rw [beBytes, leBytes_split hc hk, List.reverse_append, List.reverse_replicate, beBytes]

theorem beBytes_head_ne {m : Nat} (hm : m ≠ 0) :
    beBytes m (minBytes m) = m / 2 ^ (8 * (minBytes m - 1)) % 256 :: beBytes m (minBytes m - 1) := by
  have hB : 0 < minBytes m := by
    rw [minBytes]
    have := Nat.size_pos.mpr (Nat.pos_of_ne_zero hm)
    omega
  rw [show minBytes m = (minBytes m - 1) + 1 by omega, beBytes, leBytes_succ, List.reverse_append]
  show m / 2 ^ (8 * (minBytes m - 1)) % 256 :: (leBytes m (minBytes m - 1)).reverse = _
  rw [← beBytes, show minBytes m - 1 + 1 - 1 = minBytes m - 1 from by omega]

theorem dropTrailingZeros_leBytes {m k : Nat} (hk : minBytes m ≤ k) :
    dropTrailingZeros (leBytes m k) = leBytes m (minBytes m) := by
  rcases Nat.eq_zero_or_pos m with hm | hm
  · subst hm
    rw [show minBytes 0 = 0 from by rw [minBytes, Nat.size_zero],
      leBytes_zero_eq, dropTrailingZeros, List.reverse_replicate, List.dropWhile_replicate]
    simp [leBytes]
  · have hm0 : m ≠ 0 := by omega
    rw [dropTrailingZeros, leBytes_split (le_refl _) hk, List.reverse_append,
      List.reverse_replicate, List.dropWhile_append, List.dropWhile_replicate]
    rw [if_pos (show (((0 : Nat) == 0) = true) from rfl)]
    rw [if_pos (show (List.nil : List Nat).isEmpty = true from rfl)]
    have hrev : (leBytes m (minBytes m)).reverse = beBytes m (minBytes m) := rfl
    rw [hrev, beBytes_head_ne hm0, List.dropWhile_cons,
      if_neg (by simpa using top_byte_ne_zero hm0), ← beBytes_head_ne hm0]
    rw [beBytes, List.reverse_reverse]

theorem bn_wexpand_len_ge (a : BIGNUM) (w : Nat) : w ≤ (bn_wexpand a w).d.length := by
  unfold bn_wexpand
  split
  · simp only [List.length_append, List.length_replicate]
    omega
  · omega

theorem bn_wexpand_bytes_lt {a : BIGNUM} (h : ∀ x ∈ a.d, x < 2 ^ BN_BITS2) (w : Nat) :
    ∀ x ∈ (bn_wexpand a w).d, x < 2 ^ BN_BITS2 := by
  intro x hx
  unfold bn_wexpand at hx
  split at hx
  · simp only [List.mem_append] at hx
    rcases hx with hx | hx
    · exact h x hx
    · rw [List.eq_of_mem_replicate hx]
      norm_num
  · exact h x hx

theorem bn_correct_top_neg_false {a : BIGNUM} (h : a.neg = false) :
    (bn_correct_top a).neg = false := by
  show (if correctTopAux a.d a.top = 0 then false else a.neg) = false
  rw [h]
  split <;> rfl

theorem mem_dropTrailingZeros {x : Nat} {s : List Nat} (h : x ∈ dropTrailingZeros s) : x ∈ s := by
  rw [dropTrailingZeros, List.mem_reverse] at h
  have h2 : x ∈ s.reverse := (List.dropWhile_sublist _).mem h
  rwa [List.mem_reverse] at h2

theorem bin2bn_result_spec {B : List Nat} (ret : BIGNUM) (hb : ∀ x ∈ B, x < 256)
    (hne : B ≠ []) (hel : ∀ x ∈ ret.d, x < 2 ^ BN_BITS2) :
    Wellformed (bin2bn_result B ret) ∧ Normalized (bin2bn_result B ret) ∧
    (bin2bn_result B ret).neg = false ∧ bnMag (bin2bn_result B ret) = beVal B := by
  have hn : 1 ≤ B.length := by
    cases B with
    | nil => exact absurd rfl hne
    | cons c cs => simp
  have hlen : B.length = BN_BYTES * ((B.length - 1) / BN_BYTES + 1 - 1) +
      ((B.length - 1) % BN_BYTES + 1) := by
    show B.length = 4 * ((B.length - 1) / BN_BYTES + 1 - 1) + ((B.length - 1) % BN_BYTES + 1)
    have e1 : (B.length - 1) / BN_BYTES = (B.length - 1) / 4 := rfl
    have e2 : (B.length - 1) % BN_BYTES = (B.length - 1) % 4 := rfl
    rw [e1, e2]
    omega
  have hwexl : (B.length - 1) / BN_BYTES + 1 ≤
      (bn_wexpand ret ((B.length - 1) / BN_BYTES + 1)).d.length :=
    bn_wexpand_len_ge ret _
  have hwexel := bn_wexpand_bytes_lt hel ((B.length - 1) / BN_BYTES + 1)
  have hm3 : (B.length - 1) % BN_BYTES ≤ BN_BYTES - 1 := by
    have : (B.length - 1) % BN_BYTES < 4 := Nat.mod_lt _ (by norm_num)
    show (B.length - 1) % BN_BYTES ≤ 3
    omega
  obtain ⟨hlen', hdrop', hval', hbound'⟩ :=
    bin2bn_loop_spec B 0 ((B.length - 1) % BN_BYTES) ((B.length - 1) / BN_BYTES + 1)
      (bn_wexpand ret ((B.length - 1) / BN_BYTES + 1)).d hb hm3
      (Nat.pos_pow_of_pos _ (by norm_num)) hlen (Nat.le_add_left 1 _) hwexl
  have hwf0 : Wellformed { bn_wexpand ret ((B.length - 1) / BN_BYTES + 1) with
      d := bin2bn_loop B 0 ((B.length - 1) % BN_BYTES) ((B.length - 1) / BN_BYTES + 1)
        (bn_wexpand ret ((B.length - 1) / BN_BYTES + 1)).d,
      top := (B.length - 1) / BN_BYTES + 1, neg := false } := by
    constructor
    · show (B.length - 1) / BN_BYTES + 1 ≤ _
      rw [hlen']
      exact hwexl
    · exact hbound' hwexel
  refine ⟨bn_correct_top_wf hwf0, bn_correct_top_normalized _,
    bn_correct_top_neg_false rfl, ?_⟩
  show bnMag (bn_correct_top _) = beVal B
  rw [bn_correct_top_mag]
  show limbsVal (List.take ((B.length - 1) / BN_BYTES + 1) _) = beVal B
  rw [hval']
  simp

theorem BN_bin2bn_eq_result (s : List Nat) (ret? : Option BIGNUM) (hne : s ≠ []) :
    BN_bin2bn s (s.length : Int) ret? = some (bin2bn_result s (ret?.getD BN_new)) := by
  have hp : ¬(s.length : Int) < 0 := not_lt.mpr (Int.natCast_nonneg _)
  have hn : (s.length : Int).toNat = s.length := Int.toNat_natCast _
  have hn0 : s.length ≠ 0 := by
    cases s with
    | nil => exact absurd rfl hne
    | cons c cs => simp
  unfold BN_bin2bn bin2bn_result
  rw [if_neg hp, hn, if_neg hn0, List.take_length]

theorem BN_bin2bn_zero_len (s : List Nat) (ret? : Option BIGNUM) :
    BN_bin2bn s 0 ret? = some { ret?.getD BN_new with top := 0 } := by
  unfold BN_bin2bn
  rw [if_neg (by omega)]
  rfl

theorem BN_lebin2bn_eq_result (s : List Nat) (ret? : Option BIGNUM)
    (hne : dropTrailingZeros s ≠ []) :
    BN_lebin2bn s (s.length : Int) ret? =
      some (bin2bn_result (dropTrailingZeros s).reverse (ret?.getD BN_new)) := by
  have hp : (0 : Int) ≤ (s.length : Int) := Int.natCast_nonneg _
  have hn : (s.length : Int).toNat = s.length := Int.toNat_natCast _
  have hn0 : (dropTrailingZeros s).length ≠ 0 := by
    cases hdt : dropTrailingZeros s with
    | nil => exact absurd hdt hne
    | cons c cs => simp
  unfold BN_lebin2bn bin2bn_result
  simp only [if_pos hp, hn, List.take_length, if_neg hn0, List.length_reverse]

theorem BN_lebin2bn_zero_trim (s : List Nat) (ret? : Option BIGNUM)
    (hz : dropTrailingZeros s = []) :
    BN_lebin2bn s (s.length : Int) ret? = some { ret?.getD BN_new with top := 0 } := by
  have hp : (0 : Int) ≤ (s.length : Int) := Int.natCast_nonneg _
  have hn : (s.length : Int).toNat = s.length := Int.toNat_natCast _
  unfold BN_lebin2bn
  simp only [if_pos hp, hn, List.take_length, hz, List.length_nil]
  rw [if_pos trivial]

theorem minBytes_le_top (a : BIGNUM) (ha : Wellformed a) :
    minBytes (bnMag a) ≤ BN_BYTES * a.top := by
  apply minBytes_le_of_lt
  have h := bnMag_lt ha
  have he : 8 * (BN_BYTES * a.top) = BN_BITS2 * a.top := by
    show 8 * (4 * a.top) = 32 * a.top
    ring
  rw [he]
  exact h

theorem BN_bn2bin_eq {a : BIGNUM} (ha : Wellformed a) (hn : Normalized a)
    (hcap : a.d.length * BN_BYTES ≤ 2 ^ 62) :
    BN_bn2bin a = some (beBytes (bnMag a) (minBytes (bnMag a))) := by
  have hnb : BN_num_bytes a = minBytes (bnMag a) := num_bytes_normalized ha hn.2
  have hmb : minBytes (bnMag a) ≤ 2 ^ 62 := by
    have h1 := minBytes_le_top a ha
    have h2 : BN_BYTES * a.top ≤ a.d.length * BN_BYTES := by
      rw [Nat.mul_comm]
      exact Nat.mul_le_mul_right _ ha.1
    omega
  have hemit := bn2binpad_emit_eq ha hcap ((BN_num_bytes a : Int)).toNat
    (by rw [Int.toNat_natCast, hnb]; exact hmb) endianness_t.big
  unfold BN_bn2bin bn2binpad
  show (let atop0 := a.d.length * BN_BYTES
    if atop0 = 0 then some (List.replicate ((BN_num_bytes a : Int)).toNat 0)
    else
      let lasti := atop0 - 1
      let atop := a.top * BN_BYTES
      let bytes := bn2binpad_loop a lasti atop 0 0 ((BN_num_bytes a : Int)).toNat
      match endianness_t.big with
      | .big => some bytes.reverse
      | .little => some bytes) = _
  rw [hemit, if_neg (by simp), Int.toNat_natCast, hnb]

theorem BN_bn2binpad_eq {a : BIGNUM} (ha : Wellformed a)
    (hcap : a.d.length * BN_BYTES ≤ 2 ^ 62) {tolen : Int} (h0 : 0 ≤ tolen)
    (hbound : tolen ≤ 2 ^ 62) :
    BN_bn2binpad a tolen =
      if tolen < (minBytes (bnMag a) : Int) then none
      else some (beBytes (bnMag a) tolen.toNat) := by
  unfold BN_bn2binpad
  rw [if_neg (by omega), bn2binpad_eq ha hcap h0 hbound endianness_t.big]
  by_cases hc : tolen < (minBytes (bnMag a) : Int)
  · rw [if_pos hc, if_pos hc]
  · rw [if_neg hc, if_neg hc,
      if_neg (show ¬endianness_t.big = endianness_t.little by simp)]

theorem BN_bn2lebinpad_eq {a : BIGNUM} (ha : Wellformed a)
    (hcap : a.d.length * BN_BYTES ≤ 2 ^ 62) {tolen : Int} (h0 : 0 ≤ tolen)
    (hbound : tolen ≤ 2 ^ 62) :
    BN_bn2lebinpad a tolen =
      if tolen < (minBytes (bnMag a) : Int) then none
      else some (leBytes (bnMag a) tolen.toNat) := by
  unfold BN_bn2lebinpad
  rw [if_neg (by omega), bn2binpad_eq ha hcap h0 hbound endianness_t.little]
  by_cases hc : tolen < (minBytes (bnMag a) : Int)
  · rw [if_pos hc, if_pos hc]
  · rw [if_neg hc, if_neg hc, if_pos rfl]

theorem nat_size_eq {m n : Nat} (h2 : m < 2 ^ n) (h1 : n = 0 ∨ 2 ^ (n - 1) ≤ m) :
    Nat.size m = n := by
  have hub : Nat.size m ≤ n := Nat.size_le.mpr h2
  rcases h1 with h0 | h1
  · omega
  · have hdn : n - 1 < Nat.size m := Nat.lt_size.mpr h1
    omega

theorem minBytes_eq_of {m k : Nat} (h2 : m < 2 ^ (8 * k))
    (h1 : k = 0 ∨ 2 ^ (8 * (k - 1)) ≤ m) : minBytes m = k := by
  have hub : Nat.size m ≤ 8 * k := Nat.size_le.mpr h2
  rcases h1 with h0 | h1
  · subst h0
    have : m = 0 := by
      simpa using h2
    subst this
    rw [minBytes, Nat.size_zero]
  · have hdn : 8 * (k - 1) < Nat.size m := Nat.lt_size.mpr h1
    rw [minBytes]
    rcases Nat.eq_zero_or_pos k with hk | hk
    · omega
    · omega

theorem neg_irrelevant_wf {a : BIGNUM} (ha : Wellformed a) (neg' : Bool) :
    Wellformed { a with neg := neg' } := ha

theorem neg_irrelevant_mag (a : BIGNUM) (neg' : Bool) :
    bnMag { a with neg := neg' } = bnMag a := rfl

/-- Claim C2: for every value `a` and requested length `tolen ≥ 0`,
`BN_bn2binpad`/`BN_bn2lebinpad` fail with the `-1` sentinel (modelled `none`)
exactly when `tolen` is below the minimal byte length of the normalized
magnitude, and otherwise emit exactly `tolen` bytes — the magnitude
right-justified under leading zeros (big-endian) or left-justified with
trailing zeros (little-endian) — with the sign flag never influencing the
output. -/
theorem claim_C2_padded_byte_encode (a : BIGNUM) (tolen : Int)
    (ha : Wellformed a) (hcap : a.d.length * BN_BYTES ≤ 2 ^ 62)
    (h0 : 0 ≤ tolen) (hbound : tolen ≤ 2 ^ 62) :
    (tolen < (minBytes (bnMag a) : Int) →
      BN_bn2binpad a tolen = none ∧ BN_bn2lebinpad a tolen = none) ∧
    ((minBytes (bnMag a) : Int) ≤ tolen →
      BN_bn2binpad a tolen =
        some (List.replicate (tolen.toNat - minBytes (bnMag a)) 0 ++
          beBytes (bnMag a) (minBytes (bnMag a))) ∧
      BN_bn2lebinpad a tolen =
        some (leBytes (bnMag a) (minBytes (bnMag a)) ++
          List.replicate (tolen.toNat - minBytes (bnMag a)) 0) ∧
      (∀ bs, BN_bn2binpad a tolen = some bs → bs.length = tolen.toNat) ∧
      (∀ bs, BN_bn2lebinpad a tolen = some bs → bs.length = tolen.toNat)) ∧
    (∀ neg', BN_bn2binpad { a with neg := neg' } tolen = BN_bn2binpad a tolen ∧
      BN_bn2lebinpad { a with neg := neg' } tolen = BN_bn2lebinpad a tolen) := by
  refine ⟨?_, ?_, ?_⟩
  · intro hlt
    rw [BN_bn2binpad_eq ha hcap h0 hbound, BN_bn2lebinpad_eq ha hcap h0 hbound,
      if_pos hlt, if_pos hlt]
    exact ⟨rfl, rfl⟩
  · intro hge
    have hmt : minBytes (bnMag a) ≤ tolen.toNat := by omega
    rw [BN_bn2binpad_eq ha hcap h0 hbound, BN_bn2lebinpad_eq ha hcap h0 hbound,
      if_neg (by omega), if_neg (by omega)]
    refine ⟨?_, ?_, ?_, ?_⟩
    · rw [beBytes_split (le_refl _) hmt]
    · rw [leBytes_split (le_refl _) hmt]
    · intro bs hbs
      have : beBytes (bnMag a) tolen.toNat = bs := by
        injection hbs
      rw [← this, beBytes_length]
    · intro bs hbs
      have : leBytes (bnMag a) tolen.toNat = bs := by
        injection hbs
      rw [← this, leBytes_length]
  · intro neg'
    constructor
    · rw [BN_bn2binpad_eq (neg_irrelevant_wf ha neg') hcap h0 hbound,
        BN_bn2binpad_eq ha hcap h0 hbound, neg_irrelevant_mag]
    · rw [BN_bn2lebinpad_eq (neg_irrelevant_wf ha neg') hcap h0 hbound,
        BN_bn2lebinpad_eq ha hcap h0 hbound, neg_irrelevant_mag]

/-- Claim C2 witness: little-endian encode of `0x0100` into 3 bytes is
`[0x00, 0x01, 0x00]`, big-endian encode into 2 bytes is `[0x01, 0x00]`, and a
1-byte target fails with the sentinel. -/
theorem claim_C2_padded_byte_encode_witness :
    BN_bn2binpad ⟨[256], 1, false⟩ 2 = some [1, 0] ∧
    BN_bn2lebinpad ⟨[256], 1, false⟩ 3 = some [0, 1, 0] ∧
    BN_bn2binpad ⟨[256], 1, false⟩ 1 = none := by
  have hm : bnMag ⟨[256], 1, false⟩ = 256 := rfl
  have hmin : minBytes 256 = 2 := minBytes_eq_of (by norm_num) (Or.inr (by norm_num))
  have h2 := claim_C2_padded_byte_encode ⟨[256], 1, false⟩ 2 (by decide) (by norm_num)
    (by norm_num) (by norm_num)
  have h3 := claim_C2_padded_byte_encode ⟨[256], 1, false⟩ 3 (by decide) (by norm_num)
    (by norm_num) (by norm_num)
  have h1 := claim_C2_padded_byte_encode ⟨[256], 1, false⟩ 1 (by decide) (by norm_num)
    (by norm_num) (by norm_num)
  rw [hm, hmin] at h1 h2 h3
  refine ⟨?_, ?_, ?_⟩
  · rw [(h2.2.1 (by norm_num)).1]
    decide
  · rw [(h3.2.1 (by norm_num)).2.1]
    decide
  · exact (h1.1 (by norm_num)).1

/-- Claim C7: padded byte emission is representation independent — any two
well-formed representations of the same magnitude with the same allocated
capacity (fixed-top representations included) produce identical `bn2binpad`
output for every requested length `tolen ≥ 0`, for both endiannesses; the
output is a function of capacity, magnitude and requested length only. -/
theorem claim_C7_bn2binpad_fixed_top (a b : BIGNUM) (tolen : Int) (e : endianness_t)
    (ha : Wellformed a) (hb : Wellformed b)
    (hdmax : a.d.length = b.d.length) (hmag : bnMag a = bnMag b)
    (hcap : a.d.length * BN_BYTES ≤ 2 ^ 62)
    (h0 : 0 ≤ tolen) (hbound : tolen ≤ 2 ^ 62) :
    bn2binpad a tolen e = bn2binpad b tolen e := by
  rw [bn2binpad_eq ha hcap h0 hbound e,
    bn2binpad_eq hb (by rw [← hdmax]; exact hcap) h0 hbound e, hmag]

/-- Claim C7 witness: a normalized and a fixed-top representation of the same
two-limb value with equal capacity give byte-identical padded output. -/
theorem claim_C7_bn2binpad_fixed_top_witness :
    bn2binpad ⟨[0x89ABCDEF, 0x01234567, 7], 2, false⟩ 10 endianness_t.big =
      bn2binpad ⟨[0x89ABCDEF, 0x01234567, 0], 3, false⟩ 10 endianness_t.big :=
  claim_C7_bn2binpad_fixed_top ⟨[0x89ABCDEF, 0x01234567, 7], 2, false⟩
    ⟨[0x89ABCDEF, 0x01234567, 0], 3, false⟩ 10 endianness_t.big
    (by decide) (by decide) (by decide) (by decide) (by norm_num) (by norm_num)
    (by norm_num)

/-- Claim C3 (code bug): `BN_bin2bn` rejects a negative length with an
explicit check, but `BN_lebin2bn` has no such check — the negative length is
converted to `unsigned int` and the function proceeds into the decode path
(in the model, with the external allocator succeeding, it returns a decoded
instance instead of `NULL`). -/
theorem claim_C3_negative_length :
    BN_bin2bn [] (-1) none = none ∧ (BN_lebin2bn [] (-1) none).isSome = true := by
  constructor
  · rfl
  · rfl

/-- Claim C4 counterexample: decoding the empty buffer into a caller-supplied
instance whose sign flag is set returns the instance with significant length
0 but with the sign flag still set — the decode result is a negative zero,
contradicting the claim that every successful decode is non-negative and
sign-cleared on zero.  `BN_lebin2bn` behaves the same on a buffer trimmed to
empty. -/
theorem claim_C4_counterexample :
    BN_bin2bn [] 0 (some ⟨[], 0, true⟩) = some ⟨[], 0, true⟩ ∧
    BN_lebin2bn [0, 0] 2 (some ⟨[], 0, true⟩) = some ⟨[], 0, true⟩ := by
  constructor
  · rfl
  · rfl

/-- Claim C4 (amended): every successful nonempty decode by `BN_bin2bn`, and
every decode of a buffer with a nonzero byte by `BN_lebin2bn`, leaves the
result well-formed, normalized and non-negative; decoding an empty buffer
(or one whose bytes are all zero, for the little-endian direction) sets the
significant length to 0 — so the value is zero — but leaves the caller
instance's prior sign flag in place rather than clearing it. -/
theorem claim_C4_decode_normalized :
    (∀ s (ret? : Option BIGNUM) r, (∀ x ∈ s, x < 256) →
      (∀ b, ret? = some b → Wellformed b) → s ≠ [] →
      BN_bin2bn s (s.length : Int) ret? = some r →
      Wellformed r ∧ Normalized r ∧ r.neg = false) ∧
    (∀ s (ret? : Option BIGNUM) r, (∀ x ∈ s, x < 256) →
      (∀ b, ret? = some b → Wellformed b) → dropTrailingZeros s ≠ [] →
      BN_lebin2bn s (s.length : Int) ret? = some r →
      Wellformed r ∧ Normalized r ∧ r.neg = false) ∧
    (∀ s (ret? : Option BIGNUM),
      BN_bin2bn s 0 ret? = some { ret?.getD BN_new with top := 0 }) ∧
    (∀ s (ret? : Option BIGNUM), dropTrailingZeros s = [] →
      BN_lebin2bn s (s.length : Int) ret? = some { ret?.getD BN_new with top := 0 }) := by
  refine ⟨?_, ?_, ?_, ?_⟩
  · intro s ret? r hb hwf hne hr
    rw [BN_bin2bn_eq_result s ret? hne] at hr
    have hel : ∀ x ∈ (ret?.getD BN_new).d, x < 2 ^ BN_BITS2 := by
      cases ret? with
      | none => intro x hx; simp [BN_new] at hx
      | some b => exact (hwf b rfl).2
    obtain ⟨h1, h2, h3, _⟩ := bin2bn_result_spec (ret?.getD BN_new) hb hne hel
    have hre : r = bin2bn_result s (ret?.getD BN_new) := (Option.some.inj hr).symm
    rw [hre]
    exact ⟨h1, h2, h3⟩
  · intro s ret? r hb hwf hne hr
    rw [BN_lebin2bn_eq_result s ret? hne] at hr
    have hel : ∀ x ∈ (ret?.getD BN_new).d, x < 2 ^ BN_BITS2 := by
      cases ret? with
      | none => intro x hx; simp [BN_new] at hx
      | some b => exact (hwf b rfl).2
    have hb' : ∀ x ∈ (dropTrailingZeros s).reverse, x < 256 := by
      intro x hx
      rw [List.mem_reverse] at hx
      exact hb x (mem_dropTrailingZeros hx)
    have hne' : (dropTrailingZeros s).reverse ≠ [] := by
      intro hcon
      apply hne
      have := congrArg List.reverse hcon
      rwa [List.reverse_reverse] at this
    obtain ⟨h1, h2, h3, _⟩ := bin2bn_result_spec (ret?.getD BN_new) hb' hne' hel
    have hre : r = bin2bn_result (dropTrailingZeros s).reverse (ret?.getD BN_new) :=
      (Option.some.inj hr).symm
    rw [hre]
    exact ⟨h1, h2, h3⟩
  · intro s ret?
    exact BN_bin2bn_zero_len s ret?
  · intro s ret? hz
    exact BN_lebin2bn_zero_trim s ret? hz

/-- Claim C4 amended-theorem witness: a two-byte decode of `[1, 2]` into a
fresh instance is normalized and non-negative. -/
theorem claim_C4_decode_normalized_witness :
    Wellformed (bin2bn_result [1, 2] BN_new) ∧ Normalized (bin2bn_result [1, 2] BN_new) ∧
    (bin2bn_result [1, 2] BN_new).neg = false :=
  claim_C4_decode_normalized.1 [1, 2] none (bin2bn_result [1, 2] BN_new)
    (by decide) (by intro b hb; cases hb) (by decide)
    (BN_bin2bn_eq_result [1, 2] none (by decide))

theorem natToLimbs_spec (m : Nat) :
    limbsVal (natToLimbs m) = m ∧ (∀ x ∈ natToLimbs m, x < 2 ^ BN_BITS2) ∧
    (0 < (natToLimbs m).length →
      (natToLimbs m).getD ((natToLimbs m).length - 1) 0 ≠ 0) := by
  induction m using Nat.strong_induction_on with
  | _ m ih =>
    by_cases hm : m = 0
    · subst hm
      rw [natToLimbs, if_pos rfl]
      refine ⟨rfl, ?_, ?_⟩
      · intro x hx
        cases hx
      · intro h
        simp at h
    · rw [natToLimbs, if_neg hm]
      have hdiv : m / 2 ^ BN_BITS2 < m :=
        Nat.div_lt_self (Nat.pos_of_ne_zero hm) (by norm_num)
      obtain ⟨ihv, ihb, iht⟩ := ih (m / 2 ^ BN_BITS2) hdiv
      refine ⟨?_, ?_, ?_⟩
      · show m % 2 ^ BN_BITS2 + 2 ^ BN_BITS2 * limbsVal (natToLimbs (m / 2 ^ BN_BITS2)) = m
        rw [ihv]
        exact Nat.mod_add_div m (2 ^ BN_BITS2)
      · intro x hx
        rcases List.mem_cons.mp hx with h | h
        · rw [h]
          exact Nat.mod_lt _ (by norm_num)
        · exact ihb x h
      · intro _
        by_cases hq : m / 2 ^ BN_BITS2 = 0
        · have hlen : natToLimbs (m / 2 ^ BN_BITS2) = [] := by
            rw [hq, natToLimbs, if_pos rfl]
          rw [hlen]
          show ([m % 2 ^ BN_BITS2]).getD 0 0 ≠ 0
          rw [List.getD_cons_zero]
          have hlt : ¬2 ^ BN_BITS2 ≤ m := by
            intro hle
            have h1 := (Nat.one_le_div_iff (show (0 : Nat) < 2 ^ BN_BITS2 by norm_num)).mpr hle
            omega
          have hmod : m % 2 ^ BN_BITS2 = m := Nat.mod_eq_of_lt (by omega)
          omega
        · have hne : natToLimbs (m / 2 ^ BN_BITS2) ≠ [] := by
            intro hcon
            apply hq
            rw [← ihv, hcon]
            rfl
          have hlpos : 1 ≤ (natToLimbs (m / 2 ^ BN_BITS2)).length := by
            cases hc : natToLimbs (m / 2 ^ BN_BITS2) with
            | nil => exact absurd hc hne
            | cons c cs => simp
          rw [List.length_cons, Nat.add_sub_cancel]
          obtain ⟨k, hk⟩ : ∃ k, (natToLimbs (m / 2 ^ BN_BITS2)).length = k + 1 :=
            ⟨(natToLimbs (m / 2 ^ BN_BITS2)).length - 1, by omega⟩
          rw [hk, List.getD_cons_succ]
          have iht' := iht hlpos
          rw [hk, Nat.add_sub_cancel] at iht'
          exact iht'

theorem BN_set_negative_d (a : BIGNUM) (n : Bool) : (BN_set_negative a n).d = a.d := rfl

theorem BN_set_negative_top (a : BIGNUM) (n : Bool) : (BN_set_negative a n).top = a.top := rfl

theorem BN_set_negative_mag (a : BIGNUM) (n : Bool) :
    bnMag (BN_set_negative a n) = bnMag a := rfl

theorem bn_set_mag_spec (a : BIGNUM) (m : Nat) :
    bnMag (bn_set_mag a m) = m ∧ Wellformed (bn_set_mag a m) ∧
    (0 < (bn_set_mag a m).top →
      (bn_set_mag a m).d.getD ((bn_set_mag a m).top - 1) 0 ≠ 0) ∧
    (bn_set_mag a m).neg = a.neg := by
  obtain ⟨hv, hb, ht⟩ := natToLimbs_spec m
  refine ⟨?_, ⟨?_, ?_⟩, ?_, rfl⟩
  · show limbsVal (List.take (natToLimbs m).length
      (natToLimbs m ++ List.replicate (a.d.length - (natToLimbs m).length) 0)) = m
    rw [List.take_left]
    exact hv
  · show (natToLimbs m).length ≤
      (natToLimbs m ++ List.replicate (a.d.length - (natToLimbs m).length) 0).length
    rw [List.length_append]
    omega
  · intro x hx
    rcases List.mem_append.mp hx with h | h
    · exact hb x h
    · rw [List.eq_of_mem_replicate h]
      norm_num
  · intro hpos
    show (natToLimbs m ++ _).getD ((natToLimbs m).length - 1) 0 ≠ 0
    rw [List.getD_eq_getElem?_getD,
      List.getElem?_append_left (show (natToLimbs m).length - 1 < (natToLimbs m).length from
        Nat.sub_lt hpos (by norm_num)),
      ← List.getD_eq_getElem?_getD]
    exact ht hpos

theorem bn_wexpand_mag {a : BIGNUM} (h : a.top ≤ a.d.length) (w : Nat) :
    bnMag (bn_wexpand a w) = bnMag a := by
  unfold bn_wexpand
  split
  · show limbsVal (List.take a.top (a.d ++ _)) = _
    rw [List.take_append_of_le_length h]
    rfl
  · rfl

theorem bn_wexpand_top (a : BIGNUM) (w : Nat) : (bn_wexpand a w).top = a.top := by
  unfold bn_wexpand
  split <;> rfl

theorem bn_wexpand_neg (a : BIGNUM) (w : Nat) : (bn_wexpand a w).neg = a.neg := by
  unfold bn_wexpand
  split <;> rfl

theorem bn_wexpand_wf {a : BIGNUM} (ha : Wellformed a) (w : Nat) :
    Wellformed (bn_wexpand a w) := by
  constructor
  · rw [bn_wexpand_top]
    calc a.top ≤ a.d.length := ha.1
      _ ≤ (bn_wexpand a w).d.length := by
          unfold bn_wexpand
          split
          · rw [List.length_append]
            omega
          · omega
  · exact bn_wexpand_bytes_lt ha.2 w

theorem mag_zero_iff {a : BIGNUM} (hwf : a.top ≤ a.d.length)
    (hn : 0 < a.top → a.d.getD (a.top - 1) 0 ≠ 0) :
    bnMag a = 0 ↔ a.top = 0 := by
  constructor
  · intro hm
    by_contra htop
    have hpos : 0 < a.top := Nat.pos_of_ne_zero htop
    have ht : a.top - 1 < a.d.length := by omega
    have := limbsVal_take_succ a.d (a.top - 1) ht
    rw [show a.top - 1 + 1 = a.top by omega] at this
    have hne := hn hpos
    have hgd : 1 ≤ a.d.getD (a.top - 1) 0 := Nat.pos_of_ne_zero hne
    have hpow : 1 ≤ 2 ^ (BN_BITS2 * (a.top - 1)) := Nat.one_le_two_pow
    rw [bnMag] at hm
    nlinarith
  · intro ht
    rw [bnMag, ht]
    rfl

theorem leDecVal_append (l1 l2 : List Nat) :
    leDecVal (l1 ++ l2) = leDecVal l1 + 10 ^ l1.length * leDecVal l2 := by
  induction l1 with
  | nil => simp [leDecVal]
  | cons c cs ih =>
    rw [List.cons_append]
    show (c - 48) + 10 * leDecVal (cs ++ l2) = _
    rw [ih]
    show _ = (c - 48) + 10 * leDecVal cs + 10 ^ (cs.length + 1) * leDecVal l2
    rw [pow_succ]
    ring

theorem dec_chunk_length (w k : Nat) : (dec_chunk w k).length = k := by
  induction k generalizing w with
  | zero => rfl
  | succ k ih =>
    show (_ :: dec_chunk (w / 10) k).length = k + 1
    rw [List.length_cons, ih]

theorem dec_chunk_digits (w k : Nat) : ∀ c ∈ dec_chunk w k, 48 ≤ c ∧ c ≤ 57 := by
  induction k generalizing w with
  | zero => intro c hc; cases hc
  | succ k ih =>
    intro c hc
    rcases List.mem_cons.mp hc with h | h
    · have : w % 10 < 10 := Nat.mod_lt _ (by norm_num)
      omega
    · exact ih (w / 10) c h

theorem leDecVal_dec_chunk (w k : Nat) : leDecVal (dec_chunk w k) = w % 10 ^ k := by
  induction k generalizing w with
  | zero => simp [dec_chunk, leDecVal, Nat.mod_one]
  | succ k ih =>
    show (48 + w % 10 - 48) + 10 * leDecVal (dec_chunk (w / 10) k) = w % 10 ^ (k + 1)
    rw [ih]
    have h1 : 48 + w % 10 - 48 = w % 10 := by omega
    rw [h1]
    have h2 : w % 10 ^ (k + 1) / 10 = w / 10 % 10 ^ k := by
      rw [pow_succ, Nat.mul_comm (10 ^ k) 10, Nat.mod_mul_right_div_self]
    have h3 : w % 10 ^ (k + 1) % 10 = w % 10 :=
      Nat.mod_mod_of_dvd w (dvd_pow_self 10 (by omega))
    have h4 := Nat.div_add_mod (w % 10 ^ (k + 1)) 10
    omega

theorem leDecVal_bn2dec_digits (m : Nat) : leDecVal (bn2dec_digits m) = m := by
  induction m using Nat.strong_induction_on with
  | _ m ih =>
    by_cases hm : m = 0
    · subst hm
      rw [bn2dec_digits, if_pos rfl]
      rfl
    · rw [bn2dec_digits, if_neg hm]
      have hdiv : m / BN_DEC_CONV < m :=
        Nat.div_lt_self (Nat.pos_of_ne_zero hm) (by norm_num)
      rw [leDecVal_append, ih (m / BN_DEC_CONV) hdiv, dec_chunk_length, leDecVal_dec_chunk]
      show m % BN_DEC_CONV % 10 ^ BN_DEC_NUM + 10 ^ BN_DEC_NUM * (m / BN_DEC_CONV) = m
      have he : (10 : Nat) ^ BN_DEC_NUM = BN_DEC_CONV := by norm_num
      rw [he, Nat.mod_mod_of_dvd m (dvd_refl _)]
      exact Nat.mod_add_div m BN_DEC_CONV

theorem bn2dec_digits_digits (m : Nat) : ∀ c ∈ bn2dec_digits m, 48 ≤ c ∧ c ≤ 57 := by
  induction m using Nat.strong_induction_on with
  | _ m ih =>
    by_cases hm : m = 0
    · subst hm
      rw [bn2dec_digits, if_pos rfl]
      intro c hc
      cases hc
    · rw [bn2dec_digits, if_neg hm]
      intro c hc
      rcases List.mem_append.mp hc with h | h
      · exact dec_chunk_digits _ _ c h
      · exact ih (m / BN_DEC_CONV)
          (Nat.div_lt_self (Nat.pos_of_ne_zero hm) (by norm_num)) c h

theorem bn2dec_digits_length_le (k : Nat) :
    ∀ m, m < BN_DEC_CONV ^ k → (bn2dec_digits m).length ≤ BN_DEC_NUM * k := by
  induction k with
  | zero =>
    intro m hm
    have : m = 0 := by
      simp only [pow_zero] at hm
      omega
    subst this
    rw [bn2dec_digits, if_pos rfl]
    simp
  | succ k ih =>
    intro m hm
    by_cases hm0 : m = 0
    · subst hm0
      rw [bn2dec_digits, if_pos rfl]
      simp
    · rw [bn2dec_digits, if_neg hm0, List.length_append, dec_chunk_length]
      have hq : m / BN_DEC_CONV < BN_DEC_CONV ^ k := by
        rw [Nat.div_lt_iff_lt_mul (by norm_num)]
        calc m < BN_DEC_CONV ^ (k + 1) := hm
          _ = BN_DEC_CONV ^ k * BN_DEC_CONV := by rw [pow_succ]
      have := ih (m / BN_DEC_CONV) hq
      show BN_DEC_NUM + (bn2dec_digits (m / BN_DEC_CONV)).length ≤ BN_DEC_NUM * (k + 1)
      have he : BN_DEC_NUM * (k + 1) = BN_DEC_NUM * k + BN_DEC_NUM := by ring
      omega

theorem decVal_init (l : List Nat) (a : Nat) :
    l.foldl (fun x v => x * 10 + v) a = a * 10 ^ l.length + decVal l := by
  induction l generalizing a with
  | nil => simp [decVal]
  | cons v vs ih =>
    rw [List.foldl_cons, ih]
    have h1 : decVal (v :: vs) = v * 10 ^ vs.length + decVal vs := by
      show List.foldl (fun x v => x * 10 + v) (0 * 10 + v) vs = _
      rw [ih]
      norm_num
    rw [h1]
    show (a * 10 + v) * 10 ^ vs.length + decVal vs =
      a * 10 ^ (vs.length + 1) + (v * 10 ^ vs.length + decVal vs)
    rw [pow_succ]
    ring

theorem decVal_cons (v : Nat) (vs : List Nat) :
    decVal (v :: vs) = v * 10 ^ vs.length + decVal vs := by
  rw [decVal, List.foldl_cons, decVal_init]
  norm_num

theorem decVal_concat (xs : List Nat) (v : Nat) :
    decVal (xs ++ [v]) = decVal xs * 10 + v := by
  rw [decVal, List.foldl_append]
  rfl

theorem decVal_map_reverse (l : List Nat) :
    decVal (l.reverse.map (fun c => c - 48)) = leDecVal l := by
  induction l with
  | nil => rfl
  | cons c cs ih =>
    rw [List.reverse_cons, List.map_append]
    show decVal (cs.reverse.map (fun c => c - 48) ++ [c - 48]) = leDecVal (c :: cs)
    rw [decVal_concat, ih]
    show leDecVal cs * 10 + (c - 48) = (c - 48) + 10 * leDecVal cs
    ring

theorem decVal_dropWhile48 (l : List Nat) :
    decVal ((l.dropWhile (fun c => c == 48)).map (fun c => c - 48)) =
      decVal (l.map (fun c => c - 48)) := by
  induction l with
  | nil => rfl
  | cons c cs ih =>
    rw [List.dropWhile_cons]
    by_cases hc : (c == 48) = true
    · rw [if_pos hc, ih]
      have hc' : c = 48 := by simpa using hc
      subst hc'
      rw [List.map_cons, decVal_cons]
      norm_num
    · rw [if_neg hc]

theorem leDecVal_all48 {l : List Nat} (h : ∀ c ∈ l, c = 48) : leDecVal l = 0 := by
  induction l with
  | nil => rfl
  | cons c cs ih =>
    show (c - 48) + 10 * leDecVal cs = 0
    rw [ih (fun x hx => h x (List.mem_cons_of_mem _ hx)), h c (List.mem_cons_self _ _)]

theorem dec_trim_spec (data : List Nat) (hd : ∀ c ∈ data, 48 ≤ c ∧ c ≤ 57) :
    (∀ c ∈ dec_trim data, 48 ≤ c ∧ c ≤ 57) ∧ dec_trim data ≠ [] ∧
    decVal ((dec_trim data).map (fun c => c - 48)) = leDecVal data := by
  unfold dec_trim
  by_cases he : (data.reverse.dropWhile (fun c => c == 48)).isEmpty = true
  · rw [if_pos he]
    refine ⟨?_, by simp, ?_⟩
    · intro c hc
      have hc48 : c = 48 := by simpa using hc
      omega
    have hall : ∀ c ∈ data, c = 48 := by
      intro c hc
      have h48 := (List.dropWhile_eq_nil_iff.mp (List.isEmpty_iff.mp he)) c
        (List.mem_reverse.mpr hc)
      simpa using h48
    rw [leDecVal_all48 hall]
    rfl
  · rw [if_neg he]
    refine ⟨?_, by simpa [List.isEmpty_iff] using he, ?_⟩
    · intro c hc
      exact hd c (List.mem_reverse.mp ((List.dropWhile_sublist _).mem hc))
    · rw [decVal_dropWhile48, decVal_map_reverse]

theorem dec_accum_zero (l : List Nat) (w d acc : Nat) :
    dec_accum l 0 w d acc = some acc := by
  cases l <;> rfl

theorem decVal_nil : decVal ([] : List Nat) = 0 := rfl

theorem dec_accum_spec :
    ∀ (cs : List Nat) (rest : List Nat) (w d acc : Nat),
    (∀ c ∈ cs, 48 ≤ c ∧ c ≤ 57) → 1 ≤ cs.length → 1 ≤ d → d ≤ BN_DEC_NUM →
    cs.length % BN_DEC_NUM = d % BN_DEC_NUM →
    dec_accum (cs ++ rest) cs.length w d acc =
      some (acc * 10 ^ (cs.length + BN_DEC_NUM - d) + w * 10 ^ cs.length +
        decVal (cs.map (fun c => c - 48))) := by
  intro cs
  induction cs with
  | nil =>
    intro rest w d acc _ hlen _ _ _
    simp at hlen
  | cons c cs' ih =>
    intro rest w d acc hdig hlen hd1 hd9 halign
    have hc := hdig c (List.mem_cons_self _ _)
    have hcs' : ∀ x ∈ cs', 48 ≤ x ∧ x ≤ 57 :=
      fun x hx => hdig x (List.mem_cons_of_mem _ hx)
    have hstep : dec_accum ((c :: cs') ++ rest) (c :: cs').length w d acc =
        (if c < 48 ∨ 57 < c then none
         else if d - 1 = 0 then
           dec_accum (cs' ++ rest) cs'.length 0 BN_DEC_NUM
             (acc * BN_DEC_CONV + (w * 10 + (c - 48)))
         else dec_accum (cs' ++ rest) cs'.length (w * 10 + (c - 48)) (d - 1) acc) := rfl
    rw [hstep, if_neg (by omega)]
    simp only [List.length_cons] at halign ⊢
    by_cases hd : d - 1 = 0
    · have hd1' : d = 1 := by omega
      subst hd1'
      rw [if_pos rfl]
      by_cases hcs : cs' = []
      · subst hcs
        rw [List.nil_append, List.length_nil, dec_accum_zero, Option.some.injEq]
        rw [List.map_cons, decVal_cons]
        simp only [List.length_nil, List.map_nil, List.length_map, decVal_nil]
        show acc * 1000000000 + (w * 10 + (c - 48)) =
          acc * 10 ^ (0 + 1 + 9 - 1) + w * 10 ^ (0 + 1) + ((c - 48) * 10 ^ 0 + 0)
        norm_num
        omega
      · have hlen' : 1 ≤ cs'.length := by
          cases cs' with
          | nil => exact absurd rfl hcs
          | cons a as => simp
        have halign' : cs'.length % BN_DEC_NUM = BN_DEC_NUM % BN_DEC_NUM := by
          show cs'.length % 9 = 9 % 9
          have h9 : (cs'.length + 1) % 9 = 1 % 9 := halign
          omega
        rw [ih rest 0 BN_DEC_NUM (acc * BN_DEC_CONV + (w * 10 + (c - 48))) hcs' hlen'
          (by norm_num) (le_refl _) halign']
        congr 1
        rw [List.map_cons, decVal_cons, List.length_map]
        have he1 : cs'.length + BN_DEC_NUM - BN_DEC_NUM = cs'.length := by omega
        have he2 : cs'.length + 1 + BN_DEC_NUM - 1 = cs'.length + BN_DEC_NUM := by omega
        rw [he1, he2]
        have hconv : (BN_DEC_CONV : Nat) = 10 ^ BN_DEC_NUM := by norm_num
        rw [hconv, pow_add, pow_succ]
        ring
    · rw [if_neg hd]
      have hd2 : 2 ≤ d := by omega
      have hd9' : d ≤ 9 := hd9
      have hlen' : 1 ≤ cs'.length := by
        have h9 : (cs'.length + 1) % 9 = d % 9 := halign
        omega
      have halign' : cs'.length % BN_DEC_NUM = (d - 1) % BN_DEC_NUM := by
        show cs'.length % 9 = (d - 1) % 9
        have h9 : (cs'.length + 1) % 9 = d % 9 := halign
        omega
      rw [ih rest (w * 10 + (c - 48)) (d - 1) acc hcs' hlen' (by omega) (by omega) halign']
      congr 1
      rw [List.map_cons, decVal_cons, List.length_map]
      have he1 : cs'.length + BN_DEC_NUM - (d - 1) = cs'.length + 1 + BN_DEC_NUM - d := by
        omega
      rw [he1, pow_succ]
      ring

theorem strlen_append_nul (l r : List Nat) (h : ∀ c ∈ l, c ≠ 0) :
    strlen (l ++ 0 :: r) = l.length := by
  induction l with
  | nil => rfl
  | cons c cs ih =>
    have hc : (c != 0) = true := by
      simpa using h c (List.mem_cons_self _ _)
    show (List.takeWhile (fun c => c != 0) (c :: (cs ++ 0 :: r))).length = cs.length + 1
    rw [List.takeWhile_cons, if_pos hc, List.length_cons]
    exact congrArg (fun n => n + 1) (ih (fun x hx => h x (List.mem_cons_of_mem _ hx)))

theorem BN_set_negative_props {a : BIGNUM} (hwf : Wellformed a) (hn : Normalized a) (n : Bool) :
    Wellformed (BN_set_negative a n) ∧ Normalized (BN_set_negative a n) := by
  refine ⟨⟨hwf.1, hwf.2⟩, ?_, ?_⟩
  · intro h
    have h0 : a.top = 0 := h
    show (n && !(a.top == 0)) = false
    rw [h0]
    simp
  · intro h
    exact hn.2 h

theorem bn_dec2bn_cbs_success (bn0 : Option BIGNUM) (T : List Nat) (neg : Bool)
    (hT : ∀ c ∈ T, 48 ≤ c ∧ c ≤ 57) (hne : T ≠ [])
    (hlen : T.length ≤ INT_MAX / 4)
    (h0 : (bn0.getD BN_new).top = 0) :
    ∃ r : BIGNUM,
      bn_dec2bn_cbs (some bn0) ((if neg then [45] else []) ++ T) =
        (T.length + (if neg then 1 else 0), some (some r)) ∧
      bnMag r = decVal (T.map (fun c => c - 48)) ∧
      Wellformed r ∧ Normalized r ∧
      (bnMag r ≠ 0 → r.neg = neg) ∧ (bnMag r = 0 → r.neg = false) := by
  cases T with
  | nil => exact absurd rfl hne
  | cons t0 T' =>
    have ht0 := hT t0 (List.mem_cons_self _ _)
    have htw : (t0 :: T').takeWhile isdigit = t0 :: T' := by
      rw [List.takeWhile_eq_self_iff]
      intro a ha
      have := hT a ha
      simp [isdigit]
      omega
    have hlen1 : 1 ≤ (t0 :: T').length := by simp
    have hmax : ¬ (INT_MAX / 4 < (t0 :: T').length) := by
      have h1 : (t0 :: T').length ≤ 536870911 := hlen
      omega
    have hneq : (t0 == 45) = false := by
      simp
      omega
    cases neg with
    | false =>
      simp only [Bool.false_eq_true, if_false, List.nil_append, Nat.add_zero]
      simp only [bn_dec2bn_cbs, List.head?_cons, hneq, htw]
      simp only [Bool.false_eq_true, if_false, htw]
      rw [if_neg hmax]
      have hmag0 : bnMag (bn_expand (bn0.getD BN_new) ((t0 :: T').length * 4)) = 0 := by
        unfold bn_expand
        rw [bn_wexpand_mag (by rw [h0]; exact Nat.zero_le _)]
        unfold bnMag
        rw [h0]
        rfl
      rw [hmag0]
      by_cases h9 : (t0 :: T').length % BN_DEC_NUM = 0
      · rw [if_pos h9]
        have hacc := dec_accum_spec (t0 :: T') [] 0 BN_DEC_NUM 0 hT hlen1 (by norm_num)
          (le_refl _) (by rw [h9]; rfl)
        rw [List.append_nil] at hacc
        simp only [zero_mul, zero_add] at hacc
        rw [hacc]
        have hw := bn_set_mag_spec (bn_expand (bn0.getD BN_new) ((t0 :: T').length * 4))
          (decVal (List.map (fun c => c - 48) (t0 :: T')))
        have hnorm := bn_correct_top_normalized (bn_set_mag
          (bn_expand (bn0.getD BN_new) ((t0 :: T').length * 4))
          (decVal (List.map (fun c => c - 48) (t0 :: T'))))
        have hprops := BN_set_negative_props (bn_correct_top_wf hw.2.1) hnorm false
        refine ⟨_, rfl, ?_, hprops.1, hprops.2, ?_, ?_⟩
        · rw [BN_set_negative_mag, bn_correct_top_mag, hw.1]
        · intro _
          rfl
        · intro _
          rfl
      · rw [if_neg h9]
        have hacc := dec_accum_spec (t0 :: T') [] 0 ((t0 :: T').length % BN_DEC_NUM) 0 hT hlen1
          (by
            have h9' : (t0 :: T').length % 9 ≠ 0 := h9
            have : 1 ≤ (t0 :: T').length % 9 := by omega
            exact this)
          (by
            have : (t0 :: T').length % 9 ≤ 9 := by omega
            exact this)
          (by
            have : (t0 :: T').length % 9 = ((t0 :: T').length % 9) % 9 := by omega
            exact this)
        rw [List.append_nil] at hacc
        simp only [zero_mul, zero_add] at hacc
        rw [hacc]
        have hw := bn_set_mag_spec (bn_expand (bn0.getD BN_new) ((t0 :: T').length * 4))
          (decVal (List.map (fun c => c - 48) (t0 :: T')))
        have hnorm := bn_correct_top_normalized (bn_set_mag
          (bn_expand (bn0.getD BN_new) ((t0 :: T').length * 4))
          (decVal (List.map (fun c => c - 48) (t0 :: T'))))
        have hprops := BN_set_negative_props (bn_correct_top_wf hw.2.1) hnorm false
        refine ⟨_, rfl, ?_, hprops.1, hprops.2, ?_, ?_⟩
        · rw [BN_set_negative_mag, bn_correct_top_mag, hw.1]
        · intro _
          rfl
        · intro _
          rfl
    | true =>
      simp only [bn_dec2bn_cbs, List.cons_append, List.nil_append, List.head?_cons,
        show ((45 : Nat) == 45) = true from rfl, eq_self_iff_true, if_true, List.drop_one,
        List.tail_cons, htw]
      rw [if_neg hmax]
      have hmag0 : bnMag (bn_expand (bn0.getD BN_new) ((t0 :: T').length * 4)) = 0 := by
        unfold bn_expand
        rw [bn_wexpand_mag (by rw [h0]; exact Nat.zero_le _)]
        unfold bnMag
        rw [h0]
        rfl
      rw [hmag0]
      have hcore : ∀ d0 : Nat, dec_accum (t0 :: T') (t0 :: T').length 0 d0 0 =
            some (decVal (List.map (fun c => c - 48) (t0 :: T'))) →
          ∃ r, (match dec_accum (t0 :: T') (t0 :: T').length 0 d0 0 with
            | none => ((0 : Nat), some bn0)
            | some acc =>
              ((t0 :: T').length + 1,
                some (some (BN_set_negative (bn_correct_top (bn_set_mag
                  (bn_expand (bn0.getD BN_new) ((t0 :: T').length * 4)) acc)) true)))) =
            ((t0 :: T').length + 1, some (some r)) ∧
          bnMag r = decVal (List.map (fun c => c - 48) (t0 :: T')) ∧
          Wellformed r ∧ Normalized r ∧
          (bnMag r ≠ 0 → r.neg = true) ∧ (bnMag r = 0 → r.neg = false) := by
        intro d0 hacc
        rw [hacc]
        have hw := bn_set_mag_spec (bn_expand (bn0.getD BN_new) ((t0 :: T').length * 4))
          (decVal (List.map (fun c => c - 48) (t0 :: T')))
        have hnorm := bn_correct_top_normalized (bn_set_mag
          (bn_expand (bn0.getD BN_new) ((t0 :: T').length * 4))
          (decVal (List.map (fun c => c - 48) (t0 :: T'))))
        have hwf := bn_correct_top_wf hw.2.1
        have hprops := BN_set_negative_props hwf hnorm true
        have hmagX : bnMag (bn_correct_top (bn_set_mag
            (bn_expand (bn0.getD BN_new) ((t0 :: T').length * 4))
            (decVal (List.map (fun c => c - 48) (t0 :: T'))))) =
            decVal (List.map (fun c => c - 48) (t0 :: T')) := by
          rw [bn_correct_top_mag, hw.1]
        have hzero := mag_zero_iff hwf.1 hnorm.2
        set X := bn_correct_top (bn_set_mag
          (bn_expand (bn0.getD BN_new) ((t0 :: T').length * 4))
          (decVal (List.map (fun c => c - 48) (t0 :: T')))) with hX
        refine ⟨_, rfl, ?_, hprops.1, hprops.2, ?_, ?_⟩
        · rw [BN_set_negative_mag, hmagX]
        · intro hm
          rw [BN_set_negative_mag] at hm
          have htop : ¬ X.top = 0 := fun h => hm (hzero.mpr h)
          show (true && !(X.top == 0)) = true
          rw [beq_eq_false_iff_ne.mpr htop]
          rfl
        · intro hm
          rw [BN_set_negative_mag] at hm
          have htop : X.top = 0 := hzero.mp hm
          show (true && !(X.top == 0)) = false
          rw [htop]
          rfl
      by_cases h9 : (t0 :: T').length % BN_DEC_NUM = 0
      · rw [if_pos h9]
        have hacc := dec_accum_spec (t0 :: T') [] 0 BN_DEC_NUM 0 hT hlen1 (by norm_num)
          (le_refl _) (by rw [h9]; rfl)
        rw [List.append_nil] at hacc
        simp only [zero_mul, zero_add] at hacc
        exact hcore BN_DEC_NUM hacc
      · rw [if_neg h9]
        have hacc := dec_accum_spec (t0 :: T') [] 0 ((t0 :: T').length % BN_DEC_NUM) 0 hT hlen1
          (by
            have h9' : (t0 :: T').length % 9 ≠ 0 := h9
            have : 1 ≤ (t0 :: T').length % 9 := by omega
            exact this)
          (by
            have : (t0 :: T').length % 9 ≤ 9 := by omega
            exact this)
          (by
            have : (t0 :: T').length % 9 = ((t0 :: T').length % 9) % 9 := by omega
            exact this)
        rw [List.append_nil] at hacc
        simp only [zero_mul, zero_add] at hacc
        exact hcore ((t0 :: T').length % BN_DEC_NUM) hacc

theorem dec_trim_length_le (data : List Nat) :
    (dec_trim data).length ≤ data.length + 1 := by
  unfold dec_trim
  by_cases he : (data.reverse.dropWhile (fun c => c == 48)).isEmpty = true
  · rw [if_pos he]
    simp
  · rw [if_neg he]
    calc (data.reverse.dropWhile (fun c => c == 48)).length
        ≤ data.reverse.length := (List.dropWhile_sublist _).length_le
      _ = data.length := List.length_reverse _
      _ ≤ data.length + 1 := Nat.le_succ _

theorem BN_dec2bn_bn2dec (a b : BIGNUM) (hwf : Wellformed a) (hn : Normalized a)
    (hsize : a.d.length ≤ 2 ^ 25) :
    ∃ n r, BN_dec2bn (some (some b)) (some (BN_bn2dec a)) = (n, some (some r)) ∧
      0 < n ∧ bnMag r = bnMag a ∧ r.neg = a.neg ∧ Wellformed r ∧ Normalized r := by
  have hdata := bn2dec_digits_digits (bnMag a)
  obtain ⟨hTdig, hTne, hTval⟩ := dec_trim_spec (bn2dec_digits (bnMag a)) hdata
  have hmaglt : bnMag a < BN_DEC_CONV ^ 37025582 := by
    refine lt_of_lt_of_le (bnMag_lt hwf) ?_
    calc 2 ^ (BN_BITS2 * a.top) ≤ 2 ^ (32 * 2 ^ 25) := by
          apply Nat.pow_le_pow_right (by norm_num)
          have h1 : a.top ≤ 2 ^ 25 := le_trans hwf.1 hsize
          have h2 : BN_BITS2 = 32 := rfl
          rw [h2]
          exact Nat.mul_le_mul_left 32 h1
      _ ≤ (2 ^ 29) ^ 37025582 := by
          rw [← pow_mul]
          exact Nat.pow_le_pow_right (by norm_num) (by norm_num)
      _ ≤ BN_DEC_CONV ^ 37025582 := Nat.pow_le_pow_left (by norm_num) _
  have hdlen : (bn2dec_digits (bnMag a)).length ≤ BN_DEC_NUM * 37025582 :=
    bn2dec_digits_length_le 37025582 (bnMag a) hmaglt
  have hTlen : (dec_trim (bn2dec_digits (bnMag a))).length ≤ INT_MAX / 4 := by
    have h1 := dec_trim_length_le (bn2dec_digits (bnMag a))
    have h2 : (bn2dec_digits (bnMag a)).length ≤ 9 * 37025582 := hdlen
    have h3 : (dec_trim (bn2dec_digits (bnMag a))).length ≤ 536870911 := by omega
    exact h3
  have hTz : ∀ c ∈ (if a.neg then [45] else []) ++ dec_trim (bn2dec_digits (bnMag a)),
      c ≠ 0 := by
    intro c hc
    rcases List.mem_append.mp hc with h | h
    · cases ha : a.neg
      · rw [ha] at h
        simp at h
      · rw [ha] at h
        simp at h
        omega
    · have := hTdig c h
      omega
  have hassoc : BN_bn2dec a =
      ((if a.neg then [45] else []) ++ dec_trim (bn2dec_digits (bnMag a))) ++ 0 :: [] := by
    rfl
  have hstr : strlen (BN_bn2dec a) =
      ((if a.neg then [45] else []) ++ dec_trim (bn2dec_digits (bnMag a))).length := by
    rw [hassoc]
    exact strlen_append_nul _ [] hTz
  have htake : (BN_bn2dec a).take (strlen (BN_bn2dec a)) =
      (if a.neg then [45] else []) ++ dec_trim (bn2dec_digits (bnMag a)) := by
    rw [hstr, hassoc, List.take_left]
  obtain ⟨r, hr, hmag, hrwf, hrn, hneg1, hneg0⟩ :=
    bn_dec2bn_cbs_success (some (BN_zero b)) (dec_trim (bn2dec_digits (bnMag a))) a.neg
      hTdig hTne hTlen rfl
  have h4 : 0 < (dec_trim (bn2dec_digits (bnMag a))).length := List.length_pos.mpr hTne
  refine ⟨(dec_trim (bn2dec_digits (bnMag a))).length + (if a.neg then 1 else 0), r,
    ?_, ?_, ?_, ?_, hrwf, hrn⟩
  · show (if strlen (BN_bn2dec a) = 0 then ((0 : Nat), some (some (BN_zero b)))
      else bn_dec2bn_cbs (some (some (BN_zero b)))
        ((BN_bn2dec a).take (strlen (BN_bn2dec a)))) = _
    have h5 : strlen (BN_bn2dec a) = (if a.neg then [45] else []).length +
        (dec_trim (bn2dec_digits (bnMag a))).length := by
      rw [hstr, List.length_append]
    rw [if_neg (by omega), htake, hr]
  · exact Nat.lt_of_lt_of_le h4 (Nat.le_add_right _ _)
  · rw [hmag, hTval, leDecVal_bn2dec_digits]
  · by_cases hz : bnMag a = 0
    · have hr0 : bnMag r = 0 := by
        rw [hmag, hTval, leDecVal_bn2dec_digits]
        exact hz
      rw [hneg0 hr0]
      exact (hn.1 ((mag_zero_iff hwf.1 hn.2).mp hz)).symm
    · have hr0 : bnMag r ≠ 0 := by
        rw [hmag, hTval, leDecVal_bn2dec_digits]
        exact hz
      exact hneg1 hr0

theorem hexVal_init (l : List Nat) (a : Nat) :
    l.foldl (fun x v => x * 16 + v) a = a * 16 ^ l.length + hexVal l := by
  induction l generalizing a with
  | nil => simp [hexVal]
  | cons v vs ih =>
    rw [List.foldl_cons, ih]
    have h1 : hexVal (v :: vs) = v * 16 ^ vs.length + hexVal vs := by
      show List.foldl (fun x v => x * 16 + v) (0 * 16 + v) vs = _
      rw [ih]
      norm_num
    rw [h1]
    show (a * 16 + v) * 16 ^ vs.length + hexVal vs =
      a * 16 ^ (vs.length + 1) + (v * 16 ^ vs.length + hexVal vs)
    rw [pow_succ]
    ring

theorem hexVal_cons (v : Nat) (vs : List Nat) :
    hexVal (v :: vs) = v * 16 ^ vs.length + hexVal vs := by
  rw [hexVal, List.foldl_cons, hexVal_init]
  norm_num

theorem hexVal_concat (xs : List Nat) (v : Nat) :
    hexVal (xs ++ [v]) = hexVal xs * 16 + v := by
  rw [hexVal, List.foldl_append]
  rfl

theorem limb_bytes_be_eq (w : Nat) : ∀ k, limb_bytes_be w k = beBytes w k := by
  intro k
  induction k with
  | zero => rfl
  | succ k ih =>
    show ((w >>> (8 * k)) &&& 255) :: limb_bytes_be w k = _
    rw [beBytes, leBytes_succ, List.reverse_append, ih, Nat.shiftRight_eq_div_pow,
      Nat.and_pow_two_sub_one_eq_mod _ 8]
    rfl

theorem leBytes_append_div (m k c : Nat) :
    leBytes m (k + c) = leBytes m k ++ leBytes (m / 2 ^ (8 * k)) c := by
  rw [leBytes, leBytes, leBytes, List.range_add, List.map_append, List.map_map]
  congr 1
  apply List.map_congr_left
  intro j _
  show m / 2 ^ (8 * (k + j)) % 256 = m / 2 ^ (8 * k) / 2 ^ (8 * j) % 256
  rw [Nat.div_div_eq_div_mul, ← pow_add, Nat.mul_add]

theorem leBytes_add_high (m x k c : Nat) (hkc : k ≤ c) :
    leBytes (m + x * 2 ^ (8 * c)) k = leBytes m k := by
  rw [leBytes, leBytes]
  apply List.map_congr_left
  intro j hj
  rw [List.mem_range] at hj
  have hjc : 8 * j + 8 ≤ 8 * c := by omega
  have h1 : (m + x * 2 ^ (8 * c)) / 2 ^ (8 * j) =
      m / 2 ^ (8 * j) + x * 2 ^ (8 * c - 8 * j) := by
    rw [show 8 * c = 8 * j + (8 * c - 8 * j) by omega, pow_add,
      Nat.mul_comm (2 ^ (8 * j)) (2 ^ (8 * c - 8 * j)), ← Nat.mul_assoc]
    rw [Nat.add_mul_div_right _ _ (Nat.pos_pow_of_pos _ (by norm_num))]
    rw [show 8 * j + (8 * c - 8 * j) - 8 * j = 8 * c - 8 * j by omega]
  have h2 : x * 2 ^ (8 * c - 8 * j) % 256 = 0 := by
    rw [show 8 * c - 8 * j = 8 + (8 * c - 8 * j - 8) by omega, pow_add]
    show x * (256 * 2 ^ (8 * c - 8 * j - 8)) % 256 = 0
    rw [← Nat.mul_assoc, Nat.mul_comm x 256, Nat.mul_assoc]
    exact Nat.mul_mod_right 256 _
  rw [h1, Nat.add_mod, h2, Nat.add_zero]
  omega

theorem beBytes_append_div (m k c : Nat) :
    beBytes m (k + c) = beBytes (m / 2 ^ (8 * k)) c ++ beBytes m k := by
  rw [beBytes, leBytes_append_div, List.reverse_append]
  rfl

theorem mag_bytes_be_eq {d : List Nat} (hwf : ∀ x ∈ d, x < 2 ^ BN_BITS2) :
    ∀ t, t ≤ d.length →
      mag_bytes_be d t = beBytes (limbsVal (d.take t)) (BN_BYTES * t) := by
  intro t
  induction t with
  | zero => intro _; rfl
  | succ t ih =>
    intro ht
    have ht' : t < d.length := by omega
    show limb_bytes_be (d.getD t 0) BN_BYTES ++ mag_bytes_be d t = _
    rw [ih (by omega), limb_bytes_be_eq, limbsVal_take_succ d t ht']
    have hM : limbsVal (d.take t) < 2 ^ (8 * (BN_BYTES * t)) := by
      have h := limbsVal_lt (l := d.take t)
        (fun x hx => hwf x ((List.take_sublist t d).mem hx))
      have hlen : (d.take t).length = t := by
        rw [List.length_take]
        omega
      rw [hlen] at h
      have he : (8 : Nat) * (BN_BYTES * t) = BN_BITS2 * t := by
        show 8 * (4 * t) = 32 * t
        ring
      rw [he]
      exact h
    rw [show BN_BYTES * (t + 1) = BN_BYTES * t + BN_BYTES from by ring,
      beBytes_append_div]
    have hexp : (2 : Nat) ^ (BN_BITS2 * t) = 2 ^ (8 * (BN_BYTES * t)) := by
      have he : BN_BITS2 * t = 8 * (BN_BYTES * t) := by
        show 32 * t = 8 * (4 * t)
        ring
      rw [he]
    have hdiv : (limbsVal (d.take t) + 2 ^ (BN_BITS2 * t) * d.getD t 0) /
        2 ^ (8 * (BN_BYTES * t)) = d.getD t 0 := by
      rw [hexp, Nat.mul_comm (2 ^ (8 * (BN_BYTES * t))) (d.getD t 0),
        Nat.add_mul_div_right _ _ (Nat.pos_pow_of_pos _ (by norm_num)),
        Nat.div_eq_of_lt hM, Nat.zero_add]
    have hlow : beBytes (limbsVal (d.take t) + 2 ^ (BN_BITS2 * t) * d.getD t 0)
        (BN_BYTES * t) = beBytes (limbsVal (d.take t)) (BN_BYTES * t) := by
      rw [beBytes, beBytes, hexp, Nat.mul_comm (2 ^ (8 * (BN_BYTES * t))) (d.getD t 0),
        leBytes_add_high _ _ _ _ (le_refl _)]
    rw [hdiv, hlow]

theorem hexDigitVal_lt {c v : Nat} (h : hexDigitVal c = some v) : v < 16 := by
  unfold hexDigitVal at h
  split_ifs at h
  all_goals
  · have hv := Option.some.inj h
    omega

theorem getD_set_ne (l : List Nat) (k j v : Nat) (h : k ≠ j) :
    (l.set k v).getD j 0 = l.getD j 0 := by
  rw [List.getD_eq_getElem?_getD, List.getD_eq_getElem?_getD, List.getElem?_set_ne h]

theorem hexDigitVal_isSome_of_isxdigit {c : Nat} (h : isxdigit c = true) :
    (hexDigitVal c).isSome = true := by
  unfold isxdigit isdigit at h
  simp only [Bool.or_eq_true, decide_eq_true_eq] at h
  unfold hexDigitVal
  split_ifs with h1 h2 h3
  · rfl
  · rfl
  · rfl
  · omega

theorem hex_accum_spec :
    ∀ (n : Nat) (cs : List Nat), cs.length = n →
    ∀ (β i w : Nat) (d : List Nat),
    (∀ c ∈ cs, (hexDigitVal c).isSome = true) →
    1 ≤ n → 1 ≤ β → β ≤ 8 → w < 2 ^ (32 - 4 * β) →
    i + (n + 8 - β + 7) / 8 ≤ d.length →
    ∃ e : List Nat,
      hex_accum n cs (4 * β) i w d = some (i + (n + 8 - β + 7) / 8, e) ∧
      e.length = d.length ∧
      (∀ j, j < (n + 8 - β + 7) / 8 →
        e.getD (i + j) 0 =
          (hexVal (cs.map (fun c => (hexDigitVal c).getD 0)) * 2 ^ (32 - 4 * β) + w) /
            2 ^ (32 * j) % 2 ^ 32) ∧
      (∀ j, j < i ∨ i + (n + 8 - β + 7) / 8 ≤ j → e.getD j 0 = d.getD j 0) := by
  intro n
  induction n using Nat.strong_induction_on with
  | _ n ih =>
    intro cs hcs β i w d hdig hn hb1 hb8 hw hcap
    have hne : cs ≠ [] := by
      intro h
      rw [h] at hcs
      simp at hcs
      omega
    obtain ⟨L, F, hLF⟩ : ∃ L F, cs = F ++ [L] :=
      ⟨cs.getLast hne, cs.dropLast, (List.dropLast_append_getLast hne).symm⟩
    subst hLF
    have hF : F.length = n - 1 := by
      simp at hcs
      omega
    have hLd := hdig L (List.mem_append_right _ (List.mem_singleton.mpr rfl))
    obtain ⟨vL, hvL⟩ := Option.isSome_iff_exists.mp hLd
    have hvL16 : vL < 16 := hexDigitVal_lt hvL
    have hdigF : ∀ c ∈ F, (hexDigitVal c).isSome = true :=
      fun c hc => hdig c (List.mem_append_left _ hc)
    obtain ⟨n', rfl⟩ : ∃ n', n = n' + 1 := ⟨n - 1, by omega⟩
    have hstep : hex_accum (n' + 1) (F ++ [L]) (4 * β) i w d =
        (if 4 * β - 4 = 0 ∨ n' = 0 then
          hex_accum n' (F ++ [L]).dropLast BN_BITS2 (i + 1) 0
            (d.set i (w ||| vL <<< (BN_BITS2 - 4 * β)))
        else hex_accum n' (F ++ [L]).dropLast (4 * β - 4) i
          (w ||| vL <<< (BN_BITS2 - 4 * β)) d) := by
      show (match (F ++ [L]).getLast? with
        | none => none
        | some v =>
          match hexDigitVal v with
          | none => none
          | some w' =>
            if 4 * β - 4 = 0 ∨ n' = 0 then
              hex_accum n' (F ++ [L]).dropLast BN_BITS2 (i + 1) 0
                (d.set i (w ||| w' <<< (BN_BITS2 - 4 * β)))
            else hex_accum n' (F ++ [L]).dropLast (4 * β - 4) i
              (w ||| w' <<< (BN_BITS2 - 4 * β)) d) = _
      rw [List.getLast?_concat]
      show (match hexDigitVal L with
        | none => none
        | some w' =>
          if 4 * β - 4 = 0 ∨ n' = 0 then
            hex_accum n' (F ++ [L]).dropLast BN_BITS2 (i + 1) 0
              (d.set i (w ||| w' <<< (BN_BITS2 - 4 * β)))
          else hex_accum n' (F ++ [L]).dropLast (4 * β - 4) i
            (w ||| w' <<< (BN_BITS2 - 4 * β)) d) = _
      rw [hvL]
    rw [hstep, List.dropLast_concat]
    have hw' : w ||| vL <<< (BN_BITS2 - 4 * β) = w + vL * 2 ^ (32 - 4 * β) :=
      lor_shiftLeft_eq_add w vL (32 - 4 * β) hw
    have hmapc : (F ++ [L]).map (fun c => (hexDigitVal c).getD 0) =
        F.map (fun c => (hexDigitVal c).getD 0) ++ [vL] := by
      rw [List.map_append]
      simp [hvL]
    have hVsplit : hexVal ((F ++ [L]).map (fun c => (hexDigitVal c).getD 0)) =
        hexVal (F.map (fun c => (hexDigitVal c).getD 0)) * 16 + vL := by
      rw [hmapc, hexVal_concat]
    by_cases hcase : 4 * β - 4 = 0 ∨ n' = 0
    · rw [if_pos hcase]
      by_cases hn0 : n' = 0
      · subst hn0
        have hF0 : F = [] := List.eq_nil_of_length_eq_zero (by omega)
        subst hF0
        have hS : (0 + 1 + 8 - β + 7) / 8 = 1 := by omega
        rw [hS]
        have hiw : i < d.length := by omega
        refine ⟨d.set i (w ||| vL <<< (BN_BITS2 - 4 * β)), rfl, List.length_set d i _, ?_, ?_⟩
        · intro j hj
          have hj0 : j = 0 := by omega
          subst hj0
          rw [Nat.add_zero, getD_set_self d i _ hiw, hw']
          have hV : hexVal (([] ++ [L]).map (fun c => (hexDigitVal c).getD 0)) = vL := by
            rw [hVsplit]
            show hexVal [] * 16 + vL = vL
            simp [hexVal]
          rw [hV]
          have hbound : vL * 2 ^ (32 - 4 * β) + w < 2 ^ 32 := by
            have hp : (2 : Nat) ^ (32 - 4 * β) ≤ 2 ^ 28 :=
              Nat.pow_le_pow_right (by norm_num) (by omega)
            have h1 : vL * 2 ^ (32 - 4 * β) + w < 16 * 2 ^ (32 - 4 * β) := by
              have h2 : vL * 2 ^ (32 - 4 * β) ≤ 15 * 2 ^ (32 - 4 * β) :=
                Nat.mul_le_mul_right _ (by omega)
              omega
            calc vL * 2 ^ (32 - 4 * β) + w < 16 * 2 ^ (32 - 4 * β) := h1
              _ ≤ 16 * 2 ^ 28 := by omega
              _ ≤ 2 ^ 32 := by norm_num
          rw [Nat.mul_zero, pow_zero, Nat.div_one, Nat.mod_eq_of_lt (by omega)]
          omega
        · intro j hj
          have hij : i ≠ j := by omega
          exact getD_set_ne d i j _ hij
      · have hβ1 : β = 1 := by omega
        subst hβ1
        have hn'1 : 1 ≤ n' := by omega
        have hcap' : i + 1 + (n' + 8 - 8 + 7) / 8 ≤ (d.set i (w ||| vL <<< (BN_BITS2 - 4 * 1))).length := by
          rw [List.length_set]
          have : (n' + 1 + 8 - 1 + 7) / 8 = (n' + 8 - 8 + 7) / 8 + 1 := by omega
          omega
        obtain ⟨e, he, hlen, hslots, hout⟩ := ih n' (by omega) F (by omega) 8 (i + 1) 0
          (d.set i (w ||| vL <<< (BN_BITS2 - 4 * 1))) hdigF hn'1 (by norm_num) (le_refl _)
          (by norm_num) hcap'
        have he' : hex_accum n' F BN_BITS2 (i + 1) 0
            (d.set i (w ||| vL <<< (BN_BITS2 - 4 * 1))) =
            some (i + 1 + (n' + 8 - 8 + 7) / 8, e) := he
        rw [he']
        have hnum : i + 1 + (n' + 8 - 8 + 7) / 8 = i + (n' + 1 + 8 - 1 + 7) / 8 := by omega
        rw [hnum]
        have hiw : i < d.length := by
          have : 1 ≤ (n' + 1 + 8 - 1 + 7) / 8 := by omega
          omega
        have hw32 : w + vL * 2 ^ (32 - 4 * 1) < 2 ^ 32 := by
          have h2 : vL * 2 ^ 28 ≤ 15 * 2 ^ 28 := Nat.mul_le_mul_right _ (by omega)
          have h3 : w < 2 ^ 28 := hw
          norm_num at h2 ⊢
          omega
        refine ⟨e, rfl, by rw [hlen, List.length_set], ?_, ?_⟩
        · intro j hj
          match j with
          | 0 =>
            rw [Nat.add_zero]
            have h1 : e.getD i 0 = (d.set i (w ||| vL <<< (BN_BITS2 - 4 * 1))).getD i 0 :=
              hout i (Or.inl (by omega))
            rw [h1, getD_set_self d i _ hiw, hw']
            rw [hVsplit, Nat.mul_zero, pow_zero, Nat.div_one]
            have hsplit2 : (hexVal (F.map (fun c => (hexDigitVal c).getD 0)) * 16 + vL) *
                2 ^ (32 - 4 * 1) + w =
                hexVal (F.map (fun c => (hexDigitVal c).getD 0)) * 2 ^ 32 +
                  (w + vL * 2 ^ (32 - 4 * 1)) := by
              have : (16 : Nat) * 2 ^ (32 - 4 * 1) = 2 ^ 32 := by norm_num
              rw [← this]
              ring
            rw [hsplit2, Nat.mul_comm (hexVal (F.map (fun c => (hexDigitVal c).getD 0))) (2 ^ 32),
              Nat.mul_add_mod, Nat.mod_eq_of_lt hw32]
          | j' + 1 =>
            have hj' : j' < (n' + 8 - 8 + 7) / 8 := by omega
            have h1 : e.getD (i + (j' + 1)) 0 = e.getD (i + 1 + j') 0 := by
              rw [show i + (j' + 1) = i + 1 + j' from by omega]
            rw [h1, hslots j' hj']
            rw [hVsplit]
            have hval : (hexVal (F.map (fun c => (hexDigitVal c).getD 0)) * 2 ^ (32 - 4 * 8) + 0) =
                hexVal (F.map (fun c => (hexDigitVal c).getD 0)) := by
              norm_num
            rw [hval]
            have hdiv : ((hexVal (F.map (fun c => (hexDigitVal c).getD 0)) * 16 + vL) *
                2 ^ (32 - 4 * 1) + w) / 2 ^ (32 * (j' + 1)) =
                hexVal (F.map (fun c => (hexDigitVal c).getD 0)) / 2 ^ (32 * j') := by
              have hsplit2 : (hexVal (F.map (fun c => (hexDigitVal c).getD 0)) * 16 + vL) *
                  2 ^ (32 - 4 * 1) + w =
                  (w + vL * 2 ^ (32 - 4 * 1)) +
                    hexVal (F.map (fun c => (hexDigitVal c).getD 0)) * 2 ^ 32 := by
                have : (16 : Nat) * 2 ^ (32 - 4 * 1) = 2 ^ 32 := by norm_num
                rw [← this]
                ring
              rw [hsplit2, show 32 * (j' + 1) = 32 + 32 * j' from by ring, pow_add,
                ← Nat.div_div_eq_div_mul,
                Nat.add_mul_div_right _ _ (by norm_num : (0 : Nat) < 2 ^ 32),
                Nat.div_eq_of_lt hw32, Nat.zero_add]
            rw [hdiv]
        · intro j hj
          have h1 : e.getD j 0 = (d.set i (w ||| vL <<< (BN_BITS2 - 4 * 1))).getD j 0 := by
            apply hout
            rcases hj with h | h
            · exact Or.inl (by omega)
            · refine Or.inr ?_
              have : i + (n' + 1 + 8 - 1 + 7) / 8 = i + 1 + (n' + 8 - 8 + 7) / 8 := by omega
              omega
          rw [h1]
          apply getD_set_ne
          rcases hj with h | h
          · omega
          · have : 1 ≤ (n' + 1 + 8 - 1 + 7) / 8 := by omega
            omega
    · rw [if_neg hcase]
      push_neg at hcase
      obtain ⟨hb4, hn'⟩ := hcase
      have hb2 : 2 ≤ β := by omega
      have h4 : 4 * β - 4 = 4 * (β - 1) := by omega
      rw [h4, hw']
      have hwb : w + vL * 2 ^ (32 - 4 * β) < 2 ^ (32 - 4 * (β - 1)) := by
        have h2 : vL * 2 ^ (32 - 4 * β) ≤ 15 * 2 ^ (32 - 4 * β) :=
          Nat.mul_le_mul_right _ (by omega)
        have hpow : 16 * 2 ^ (32 - 4 * β) = 2 ^ (32 - 4 * (β - 1)) := by
          rw [show 32 - 4 * (β - 1) = (32 - 4 * β) + 4 from by omega, pow_add]
          ring
        have h3 : w + vL * 2 ^ (32 - 4 * β) < 16 * 2 ^ (32 - 4 * β) := by omega
        omega
      have hcap' : i + (n' + 8 - (β - 1) + 7) / 8 ≤ d.length := by
        have : (n' + 8 - (β - 1) + 7) / 8 = (n' + 1 + 8 - β + 7) / 8 := by omega
        omega
      obtain ⟨e, he, hlen, hslots, hout⟩ := ih n' (by omega) F (by omega) (β - 1) i
        (w + vL * 2 ^ (32 - 4 * β)) d hdigF (by omega) (by omega) (by omega) hwb hcap'
      rw [he]
      have hnum : i + (n' + 8 - (β - 1) + 7) / 8 = i + (n' + 1 + 8 - β + 7) / 8 := by omega
      rw [hnum]
      have hVeq : hexVal (F.map (fun c => (hexDigitVal c).getD 0)) * 2 ^ (32 - 4 * (β - 1)) +
          (w + vL * 2 ^ (32 - 4 * β)) =
          hexVal ((F ++ [L]).map (fun c => (hexDigitVal c).getD 0)) * 2 ^ (32 - 4 * β) + w := by
        rw [hVsplit, show 32 - 4 * (β - 1) = (32 - 4 * β) + 4 from by omega, pow_add]
        ring
      refine ⟨e, rfl, hlen, ?_, ?_⟩
      · intro j hj
        have hj' : j < (n' + 8 - (β - 1) + 7) / 8 := by omega
        rw [hslots j hj', hVeq]
      · intro j hj
        apply hout
        rcases hj with h | h
        · exact Or.inl h
        · exact Or.inr (by omega)

theorem hexVal_lt {l : List Nat} (h : ∀ v ∈ l, v < 16) : hexVal l < 16 ^ l.length := by
  induction l with
  | nil => simp [hexVal]
  | cons v vs ih =>
    rw [hexVal_cons]
    have h1 := ih (fun x hx => h x (List.mem_cons_of_mem _ hx))
    have hv := h v (List.mem_cons_self _ _)
    have h2 : v * 16 ^ vs.length ≤ 15 * 16 ^ vs.length :=
      Nat.mul_le_mul_right _ (by omega)
    have h3 : (16 : Nat) ^ (v :: vs).length = 16 * 16 ^ vs.length := by
      rw [List.length_cons, pow_succ]
      ring
    rw [h3]
    omega

theorem limbsVal_take_of_getD (l : List Nat) (V : Nat) :
    ∀ S, S ≤ l.length → (∀ j, j < S → l.getD j 0 = V / 2 ^ (32 * j) % 2 ^ 32) →
    limbsVal (l.take S) = V % 2 ^ (32 * S) := by
  intro S
  induction S with
  | zero =>
    intro _ _
    simp [limbsVal, Nat.mod_one]
  | succ S ih =>
    intro hS hslots
    rw [limbsVal_take_succ l S (by omega), ih (by omega) (fun j hj => hslots j (by omega)),
      hslots S (by omega)]
    have hB : (2 : Nat) ^ (BN_BITS2 * S) = 2 ^ (32 * S) := rfl
    rw [hB, show 32 * (S + 1) = 32 * S + 32 from by ring, pow_add, Nat.mod_mul]

theorem hexDigitVal_getD_lt {c : Nat} (h : (hexDigitVal c).isSome = true) :
    (hexDigitVal c).getD 0 < 16 := by
  obtain ⟨v, hv⟩ := Option.isSome_iff_exists.mp h
  rw [hv]
  exact hexDigitVal_lt hv

theorem bn_hex2bn_cbs_success (bn0 : Option BIGNUM) (T : List Nat) (neg : Bool)
    (hT : ∀ c ∈ T, isxdigit c = true) (hne : T ≠ [])
    (hlen : T.length ≤ INT_MAX / 4)
    (hlimbs : ∀ x ∈ (bn0.getD BN_new).d, x < 2 ^ BN_BITS2) :
    ∃ r : BIGNUM,
      bn_hex2bn_cbs (some bn0) ((if neg then [45] else []) ++ T) =
        (T.length + (if neg then 1 else 0), some (some r)) ∧
      bnMag r = hexVal (T.map (fun c => (hexDigitVal c).getD 0)) ∧
      Wellformed r ∧ Normalized r ∧
      (bnMag r ≠ 0 → r.neg = neg) ∧ (bnMag r = 0 → r.neg = false) := by
  cases T with
  | nil => exact absurd rfl hne
  | cons t0 T' =>
    have ht0' : 48 ≤ t0 ∧ t0 ≤ 57 ∨ 97 ≤ t0 ∧ t0 ≤ 102 ∨ 65 ≤ t0 ∧ t0 ≤ 70 := by
      have h := hT t0 (List.mem_cons_self _ _)
      unfold isxdigit isdigit at h
      simp only [Bool.or_eq_true, decide_eq_true_eq] at h
      tauto
    have hneq : (t0 == 45) = false := by
      simp
      omega
    have htw : (t0 :: T').takeWhile isxdigit = t0 :: T' := by
      rw [List.takeWhile_eq_self_iff]
      exact hT
    have hmax : ¬ (INT_MAX / 4 < (t0 :: T').length) := by
      have h1 : (t0 :: T').length ≤ 536870911 := hlen
      omega
    have hdig : ∀ c ∈ t0 :: T', (hexDigitVal c).isSome = true :=
      fun c hc => hexDigitVal_isSome_of_isxdigit (hT c hc)
    have hwords : ((t0 :: T').length * 4 + 31) / 32 ≤
        (bn_expand (bn0.getD BN_new) ((t0 :: T').length * 4)).d.length :=
      bn_wexpand_len_ge (bn0.getD BN_new) _
    have hcap : 0 + ((t0 :: T').length + 8 - 8 + 7) / 8 ≤
        (bn_expand (bn0.getD BN_new) ((t0 :: T').length * 4)).d.length := by
      have h1 : ((t0 :: T').length + 8 - 8 + 7) / 8 ≤ ((t0 :: T').length * 4 + 31) / 32 := by
        omega
      omega
    obtain ⟨e, he, helen, hslots, hout⟩ := hex_accum_spec (t0 :: T').length (t0 :: T') rfl
      8 0 0 (bn_expand (bn0.getD BN_new) ((t0 :: T').length * 4)).d hdig (by simp)
      (by norm_num) (le_refl _) (by norm_num) hcap
    have he' : hex_accum (t0 :: T').length (t0 :: T') BN_BITS2 0 0
        (bn_expand (bn0.getD BN_new) ((t0 :: T').length * 4)).d =
        some (0 + ((t0 :: T').length + 8 - 8 + 7) / 8, e) := he
    have hVlt : hexVal ((t0 :: T').map (fun c => (hexDigitVal c).getD 0)) <
        2 ^ (32 * (((t0 :: T').length + 8 - 8 + 7) / 8)) := by
      have h1 := hexVal_lt (l := (t0 :: T').map (fun c => (hexDigitVal c).getD 0))
        (by
          intro v hv
          obtain ⟨c, hc, hcv⟩ := List.mem_map.mp hv
          rw [← hcv]
          exact hexDigitVal_getD_lt (hdig c hc))
      rw [List.length_map] at h1
      have h2 : (16 : Nat) ^ (t0 :: T').length = 2 ^ (4 * (t0 :: T').length) := by
        rw [show (16 : Nat) = 2 ^ 4 from by norm_num, ← pow_mul]
      have h3 : 4 * (t0 :: T').length ≤ 32 * (((t0 :: T').length + 8 - 8 + 7) / 8) := by
        omega
      calc hexVal ((t0 :: T').map (fun c => (hexDigitVal c).getD 0)) < 16 ^ (t0 :: T').length := h1
        _ = 2 ^ (4 * (t0 :: T').length) := h2
        _ ≤ 2 ^ (32 * (((t0 :: T').length + 8 - 8 + 7) / 8)) :=
            Nat.pow_le_pow_right (by norm_num) h3
    have hslots' : ∀ j, j < ((t0 :: T').length + 8 - 8 + 7) / 8 →
        e.getD j 0 = hexVal ((t0 :: T').map (fun c => (hexDigitVal c).getD 0)) /
          2 ^ (32 * j) % 2 ^ 32 := by
      intro j hj
      have h1 := hslots j hj
      rw [Nat.zero_add] at h1
      rw [h1]
      have h2 : hexVal ((t0 :: T').map (fun c => (hexDigitVal c).getD 0)) * 2 ^ (32 - 4 * 8) + 0 =
          hexVal ((t0 :: T').map (fun c => (hexDigitVal c).getD 0)) := by
        norm_num
      rw [h2]
    have hmagY : bnMag { bn_expand (bn0.getD BN_new) ((t0 :: T').length * 4) with d := e, top := 0 + ((t0 :: T').length + 8 - 8 + 7) / 8 } = hexVal ((t0 :: T').map (fun c => (hexDigitVal c).getD 0)) := by
      show limbsVal (e.take (0 + ((t0 :: T').length + 8 - 8 + 7) / 8)) = _
      rw [Nat.zero_add] at hcap ⊢
      rw [limbsVal_take_of_getD e (hexVal ((t0 :: T').map (fun c => (hexDigitVal c).getD 0)))
        (((t0 :: T').length + 8 - 8 + 7) / 8) (by omega) hslots']
      exact Nat.mod_eq_of_lt hVlt
    have hwfY : Wellformed { bn_expand (bn0.getD BN_new) ((t0 :: T').length * 4) with d := e, top := 0 + ((t0 :: T').length + 8 - 8 + 7) / 8 } := by
      constructor
      · show 0 + ((t0 :: T').length + 8 - 8 + 7) / 8 ≤ e.length
        omega
      · show ∀ x ∈ e, x < 2 ^ BN_BITS2
        intro x hx
        obtain ⟨j, hj, hjx⟩ := List.mem_iff_getElem.mp hx
        have hget : e.getD j 0 = x := by
          rw [List.getD_eq_getElem e 0 hj, hjx]
        by_cases hjS : j < ((t0 :: T').length + 8 - 8 + 7) / 8
        · rw [hslots' j hjS] at hget
          rw [← hget]
          show _ < 2 ^ 32
          exact Nat.mod_lt _ (by norm_num)
        · have h1 := hout j (Or.inr (by omega))
          rw [hget] at h1
          have hjd : j < (bn_expand (bn0.getD BN_new) ((t0 :: T').length * 4)).d.length := by
            omega
          have h2 : (bn_expand (bn0.getD BN_new) ((t0 :: T').length * 4)).d.getD j 0 ∈
              (bn_expand (bn0.getD BN_new) ((t0 :: T').length * 4)).d := by
            rw [List.getD_eq_getElem _ 0 hjd]
            exact List.getElem_mem hjd
          have h3 := bn_wexpand_bytes_lt hlimbs
            (((t0 :: T').length * 4 + BN_BITS2 - 1) / BN_BITS2) _ h2
          rw [h1]
          exact h3
    have hnormX := bn_correct_top_normalized { bn_expand (bn0.getD BN_new) ((t0 :: T').length * 4) with d := e, top := 0 + ((t0 :: T').length + 8 - 8 + 7) / 8 }
    have hwfX := bn_correct_top_wf hwfY
    have hmagX : bnMag (bn_correct_top { bn_expand (bn0.getD BN_new) ((t0 :: T').length * 4) with d := e, top := 0 + ((t0 :: T').length + 8 - 8 + 7) / 8 }) = hexVal ((t0 :: T').map (fun c => (hexDigitVal c).getD 0)) := by
      rw [bn_correct_top_mag, hmagY]
    have hzero := mag_zero_iff hwfX.1 hnormX.2
    set X := bn_correct_top { bn_expand (bn0.getD BN_new) ((t0 :: T').length * 4) with d := e, top := 0 + ((t0 :: T').length + 8 - 8 + 7) / 8 } with hX
    have hprops := fun ng => BN_set_negative_props hwfX hnormX ng
    cases neg with
    | false =>
      simp only [Bool.false_eq_true, if_false, List.nil_append, Nat.add_zero]
      simp only [bn_hex2bn_cbs, List.head?_cons, hneq, htw]
      simp only [Bool.false_eq_true, if_false, htw]
      rw [if_neg hmax, List.take_length, he']
      refine ⟨BN_set_negative X false, rfl, ?_, (hprops false).1, (hprops false).2, ?_, ?_⟩
      · rw [BN_set_negative_mag, hmagX]
      · intro _
        rfl
      · intro _
        rfl
    | true =>
      simp only [bn_hex2bn_cbs, List.cons_append, List.nil_append, List.head?_cons,
        show ((45 : Nat) == 45) = true from rfl, eq_self_iff_true, if_true, List.drop_one,
        List.tail_cons, htw]
      rw [if_neg hmax, List.take_length, he']
      refine ⟨BN_set_negative X true, rfl, ?_, (hprops true).1, (hprops true).2, ?_, ?_⟩
      · rw [BN_set_negative_mag, hmagX]
      · intro hm
        rw [BN_set_negative_mag] at hm
        have htop : ¬ X.top = 0 := fun h => hm (hzero.mpr h)
        show (true && !(X.top == 0)) = true
        rw [beq_eq_false_iff_ne.mpr htop]
        rfl
      · intro hm
        rw [BN_set_negative_mag] at hm
        have htop : X.top = 0 := hzero.mp hm
        show (true && !(X.top == 0)) = false
        rw [htop]
        rfl

theorem dropWhile_zero_replicate (n : Nat) (l : List Nat) :
    (List.replicate n 0 ++ l).dropWhile (fun v => v == 0) = l.dropWhile (fun v => v == 0) := by
  induction n with
  | zero => rfl
  | succ n ih =>
    rw [List.replicate_succ, List.cons_append, List.dropWhile_cons]
    simp only [beq_self_eq_true, if_true]
    exact ih

theorem hexDigit_table_inv : ∀ n, n < 16 → hexDigitVal (hex_digits.getD n 0) = some n := by
  decide

theorem hexDigit_table_xdigit : ∀ n, n < 16 →
    isxdigit (hex_digits.getD n 0) = true ∧ hex_digits.getD n 0 ≠ 0 ∧
    48 ≤ hex_digits.getD n 0 ∧ hex_digits.getD n 0 ≤ 70 := by
  decide

theorem shiftRight4_lt {v : Nat} (h : v < 256) : v >>> 4 < 16 := by
  rw [Nat.shiftRight_eq_div_pow]
  omega

theorem and15_lt (v : Nat) : v &&& 15 < 16 := by
  have := Nat.and_pow_two_sub_one_eq_mod v 4
  norm_num at this
  omega

theorem nibble_recompose {v : Nat} (h : v < 256) : (v >>> 4) * 16 + (v &&& 15) = v := by
  rw [Nat.shiftRight_eq_div_pow]
  have h2 := Nat.and_pow_two_sub_one_eq_mod v 4
  norm_num at h2
  omega

theorem pairs_flatten_length (f g : Nat → Nat) (bs : List Nat) :
    ((bs.map (fun v => [f v, g v])).flatten).length = 2 * bs.length := by
  induction bs with
  | nil => rfl
  | cons v vs ih =>
    rw [List.map_cons, List.flatten_cons, List.length_append, ih]
    simp
    omega

theorem hexVal_nibbles (bs : List Nat) (h : ∀ v ∈ bs, v < 256) :
    hexVal ((bs.map (fun v => [v >>> 4, v &&& 15])).flatten) = beVal bs := by
  induction bs with
  | nil => rfl
  | cons v vs ih =>
    rw [List.map_cons, List.flatten_cons]
    show hexVal (v >>> 4 :: (v &&& 15) :: (vs.map (fun v => [v >>> 4, v &&& 15])).flatten) = _
    rw [hexVal_cons, hexVal_cons, ih (fun x hx => h x (List.mem_cons_of_mem _ hx)),
      beVal_cons]
    have hv := h v (List.mem_cons_self _ _)
    rw [List.length_cons, pairs_flatten_length]
    have h16 : (16 : Nat) ^ (2 * vs.length) = 2 ^ (8 * vs.length) := by
      rw [show (16 : Nat) = 2 ^ 4 from by norm_num, ← pow_mul]
      congr 1
      ring
    rw [pow_succ, h16]
    have hrec := nibble_recompose hv
    have key : v >>> 4 * (2 ^ (8 * vs.length) * 16) +
        ((v &&& 15) * 2 ^ (8 * vs.length) + beVal vs) =
        (v >>> 4 * 16 + (v &&& 15)) * 2 ^ (8 * vs.length) + beVal vs := by
      ring
    rw [key, hrec]

theorem hex_pairs_map_decode (bs : List Nat) (h : ∀ v ∈ bs, v < 256) :
    ((bs.map (fun v => [hex_digits.getD (v >>> 4) 0, hex_digits.getD (v &&& 15) 0])).flatten).map
      (fun c => (hexDigitVal c).getD 0) =
    (bs.map (fun v => [v >>> 4, v &&& 15])).flatten := by
  induction bs with
  | nil => rfl
  | cons v vs ih =>
    rw [List.map_cons, List.flatten_cons, List.map_cons, List.flatten_cons, List.map_append,
      ih (fun x hx => h x (List.mem_cons_of_mem _ hx))]
    congr 1
    have hv := h v (List.mem_cons_self _ _)
    show [(hexDigitVal (hex_digits.getD (v >>> 4) 0)).getD 0,
        (hexDigitVal (hex_digits.getD (v &&& 15) 0)).getD 0] = [v >>> 4, v &&& 15]
    rw [hexDigit_table_inv _ (shiftRight4_lt hv), hexDigit_table_inv _ (and15_lt v)]
    rfl

theorem BN_bn2hex_structure {a : BIGNUM} (hwf : Wellformed a) (hn : Normalized a) :
    ∃ T : List Nat,
      BN_bn2hex a = ((if a.neg then [45] else []) ++ T) ++ 0 :: [] ∧
      (∀ c ∈ T, isxdigit c = true ∧ c ≠ 0) ∧ T ≠ [] ∧
      hexVal (T.map (fun c => (hexDigitVal c).getD 0)) = bnMag a ∧
      T.length ≤ 8 * a.top + 1 := by
  by_cases htop : a.top = 0
  · refine ⟨[48], ?_, by decide, by simp, ?_, by simp⟩
    · unfold BN_bn2hex
      rw [if_pos htop, htop]
      show (if a.neg = true then [45] else []) ++ [48] ++
        (((mag_bytes_be a.d 0).dropWhile (fun v => v == 0)).map
          (fun v => [hex_digits.getD (v >>> 4) 0, hex_digits.getD (v &&& 15) 0])).flatten ++ [0] =
        ((if a.neg = true then [45] else []) ++ [48]) ++ 0 :: []
      show (if a.neg = true then [45] else []) ++ [48] ++ [] ++ [0] = _
      rw [List.append_nil]
    · have hm : bnMag a = 0 := by
        unfold bnMag
        rw [htop]
        rfl
      rw [hm]
      rfl
  · have hzero := mag_zero_iff hwf.1 hn.2
    have hmagne : bnMag a ≠ 0 := fun h => htop (hzero.mp h)
    have hmaglt : bnMag a < 2 ^ (8 * (BN_BYTES * a.top)) := by
      have h1 := bnMag_lt hwf
      have he : 8 * (BN_BYTES * a.top) = BN_BITS2 * a.top := by
        show 8 * (4 * a.top) = 32 * a.top
        ring
      rw [he]
      exact h1
    have hmb : minBytes (bnMag a) ≤ BN_BYTES * a.top := minBytes_le_of_lt hmaglt
    have hmb1 : 1 ≤ minBytes (bnMag a) := by
      rcases Nat.eq_zero_or_pos (minBytes (bnMag a)) with h | h
      · exact absurd (minBytes_eq_zero_iff.mp h) hmagne
      · exact h
    have hbytes : mag_bytes_be a.d a.top = beBytes (bnMag a) (BN_BYTES * a.top) :=
      mag_bytes_be_eq hwf.2 a.top hwf.1
    have hsplit : beBytes (bnMag a) (BN_BYTES * a.top) =
        List.replicate (BN_BYTES * a.top - minBytes (bnMag a)) 0 ++
          beBytes (bnMag a) (minBytes (bnMag a)) :=
      beBytes_split (le_refl _) hmb
    have hhead := beBytes_head_ne hmagne
    have hheadne := top_byte_ne_zero hmagne
    have hdrop : (mag_bytes_be a.d a.top).dropWhile (fun v => v == 0) =
        beBytes (bnMag a) (minBytes (bnMag a)) := by
      rw [hbytes, hsplit, dropWhile_zero_replicate, hhead, List.dropWhile_cons]
      have hc : ((bnMag a / 2 ^ (8 * (minBytes (bnMag a) - 1)) % 256 == 0) : Bool) = false := by
        simp
        exact hheadne
      rw [hc]
      simp
    have hblt : ∀ v ∈ beBytes (bnMag a) (minBytes (bnMag a)), v < 256 :=
      beBytes_bytes_lt _ _
    refine ⟨((beBytes (bnMag a) (minBytes (bnMag a))).map
      (fun v => [hex_digits.getD (v >>> 4) 0, hex_digits.getD (v &&& 15) 0])).flatten,
      ?_, ?_, ?_, ?_, ?_⟩
    · unfold BN_bn2hex
      rw [if_neg htop, hdrop, List.append_nil]
    · intro c hc
      obtain ⟨l, hl, hcl⟩ := List.mem_flatten.mp hc
      obtain ⟨v, hv, hvl⟩ := List.mem_map.mp hl
      have hv256 := hblt v hv
      rw [← hvl, List.mem_cons, List.mem_singleton] at hcl
      rcases hcl with rfl | rfl
      · have h1 := hexDigit_table_xdigit (v >>> 4) (shiftRight4_lt hv256)
        exact ⟨h1.1, h1.2.1⟩
      · have h1 := hexDigit_table_xdigit (v &&& 15) (and15_lt v)
        exact ⟨h1.1, h1.2.1⟩
    · intro h
      have hl := congrArg List.length h
      rw [pairs_flatten_length] at hl
      rw [beBytes, List.length_reverse, leBytes_length] at hl
      simp at hl
      omega
    · rw [hex_pairs_map_decode _ hblt, hexVal_nibbles _ hblt]
      exact beVal_beBytes_of_lt (lt_two_pow_mul_minBytes _)
    · have hl : ((((beBytes (bnMag a) (minBytes (bnMag a))).map
          (fun v => [hex_digits.getD (v >>> 4) 0, hex_digits.getD (v &&& 15) 0])).flatten)).length =
          2 * minBytes (bnMag a) := by
        rw [pairs_flatten_length]
        congr 1
        rw [beBytes, List.length_reverse, leBytes_length]
      rw [hl]
      have h4 : BN_BYTES * a.top = 4 * a.top := rfl
      omega

theorem BN_hex2bn_bn2hex (a b : BIGNUM) (hwf : Wellformed a) (hn : Normalized a)
    (hsize : a.d.length ≤ 2 ^ 25) (hb : ∀ x ∈ b.d, x < 2 ^ BN_BITS2) :
    ∃ n r, BN_hex2bn (some (some b)) (some (BN_bn2hex a)) = (n, some (some r)) ∧
      0 < n ∧ bnMag r = bnMag a ∧ r.neg = a.neg ∧ Wellformed r ∧ Normalized r := by
  obtain ⟨T, hstr0, hTprops, hTne, hTval, hTlen⟩ := BN_bn2hex_structure hwf hn
  have hTdig : ∀ c ∈ T, isxdigit c = true := fun c hc => (hTprops c hc).1
  have hTlen' : T.length ≤ INT_MAX / 4 := by
    have h1 : a.top ≤ 2 ^ 25 := le_trans hwf.1 hsize
    have h2 : (2 : Nat) ^ 25 = 33554432 := by norm_num
    have h3 : T.length ≤ 536870911 := by omega
    exact h3
  have hTz : ∀ c ∈ (if a.neg then [45] else []) ++ T, c ≠ 0 := by
    intro c hc
    rcases List.mem_append.mp hc with h | h
    · cases ha : a.neg
      · rw [ha] at h
        simp at h
      · rw [ha] at h
        simp at h
        omega
    · exact (hTprops c h).2
  have hstr : strlen (BN_bn2hex a) = ((if a.neg then [45] else []) ++ T).length := by
    rw [hstr0]
    exact strlen_append_nul _ [] hTz
  have htake : (BN_bn2hex a).take (strlen (BN_bn2hex a)) =
      (if a.neg then [45] else []) ++ T := by
    rw [hstr, hstr0, List.take_left]
  obtain ⟨r, hr, hmag, hrwf, hrn, hneg1, hneg0⟩ :=
    bn_hex2bn_cbs_success (some (BN_zero b)) T a.neg hTdig hTne hTlen' hb
  have h4 : 0 < T.length := List.length_pos.mpr hTne
  refine ⟨T.length + (if a.neg then 1 else 0), r, ?_,
    Nat.lt_of_lt_of_le h4 (Nat.le_add_right _ _), ?_, ?_, hrwf, hrn⟩
  · show (if strlen (BN_bn2hex a) = 0 then ((0 : Nat), some (some (BN_zero b)))
      else bn_hex2bn_cbs (some (some (BN_zero b)))
        ((BN_bn2hex a).take (strlen (BN_bn2hex a)))) = _
    have h5 : strlen (BN_bn2hex a) = (if a.neg then [45] else []).length + T.length := by
      rw [hstr, List.length_append]
    rw [if_neg (by omega), htake, hr]
  · rw [hmag, hTval]
  · by_cases hz : bnMag a = 0
    · have hr0 : bnMag r = 0 := by
        rw [hmag, hTval]
        exact hz
      rw [hneg0 hr0]
      exact (hn.1 ((mag_zero_iff hwf.1 hn.2).mp hz)).symm
    · exact hneg1 (by rw [hmag, hTval]; exact hz)
theorem drop_set_le (l : List Nat) (i j v : Nat) (h : j ≤ i) :
    (l.set i v).drop j = (l.drop j).set (i - j) v := by
  apply List.ext_getElem?
  intro m
  simp only [List.getElem?_drop, List.getElem?_set, List.length_drop]
  by_cases h1 : i = j + m
  · rw [if_pos h1, if_pos (show i - j = m by omega)]
    by_cases h2 : i < l.length
    · rw [if_pos h2, if_pos (show i - j < l.length - j by omega)]
    · rw [if_neg h2, if_neg (show ¬ i - j < l.length - j by omega)]
  · rw [if_neg h1, if_neg (show ¬ i - j = m by omega)]

theorem testBit7_false {x : Nat} (h : x < 128) : x.testBit 7 = false := by
  rw [Nat.testBit_to_div_mod]
  simp
  omega

theorem getD_append_idx (l₁ l₂ : List Nat) (n : Nat) :
    (l₁ ++ l₂).getD (l₁.length + n) 0 = l₂.getD n 0 := by
  rw [List.getD_eq_getElem?_getD, List.getD_eq_getElem?_getD,
    List.getElem?_append_right (by omega : l₁.length ≤ l₁.length + n)]
  congr 2
  omega

theorem clearBitWord_add (x j : Nat) :
    clearBitWord x j + x / 2 ^ j % 2 * 2 ^ j = x := by
  unfold clearBitWord
  have h1 : x % (2 ^ j * 2) = x % 2 ^ j + 2 ^ j * (x / 2 ^ j % 2) := Nat.mod_mul
  have h2 : 2 ^ j * 2 * (x / (2 ^ j * 2)) + x % (2 ^ j * 2) = x := Nat.div_add_mod x (2 ^ j * 2)
  have h3 : (2 : Nat) ^ (j + 1) = 2 ^ j * 2 := pow_succ 2 j
  rw [h3]
  linarith [h1, h2]

theorem take_set_of_le (l : List Nat) (i v t : Nat) (h : t ≤ i) :
    (l.set i v).take t = l.take t := by
  apply List.ext_getElem?
  intro m
  simp only [List.getElem?_take]
  by_cases hm : m < t
  · rw [if_pos hm, if_pos hm, List.getElem?_set_ne (by omega)]
  · rw [if_neg hm, if_neg hm]

theorem be4_roundtrip {l : Nat} (h : l < 2 ^ 32) :
    l >>> 24 % 256 * 2 ^ 24 + l >>> 16 % 256 * 2 ^ 16 + l >>> 8 % 256 * 2 ^ 8 + l % 256 = l := by
  rw [Nat.shiftRight_eq_div_pow, Nat.shiftRight_eq_div_pow, Nat.shiftRight_eq_div_pow]
  have e1 : (2 : Nat) ^ 24 = 16777216 := by norm_num
  have e2 : (2 : Nat) ^ 16 = 65536 := by norm_num
  have e3 : (2 : Nat) ^ 8 = 256 := by norm_num
  have e4 : (2 : Nat) ^ 32 = 4294967296 := by norm_num
  rw [e1, e2, e3] at *
  rw [e4] at h
  omega

theorem limbsVal_take_set (d : List Nat) (v : Nat) :
    ∀ t, t ≤ d.length → ∀ i, i < t →
      limbsVal ((d.set i v).take t) + 2 ^ (BN_BITS2 * i) * d.getD i 0 =
      limbsVal (d.take t) + 2 ^ (BN_BITS2 * i) * v := by
  intro t
  induction t with
  | zero =>
    intro _ i hi
    omega
  | succ t ih =>
    intro ht i hi
    have hlen : t < (d.set i v).length := by
      rw [List.length_set]
      omega
    rw [limbsVal_take_succ _ t hlen, limbsVal_take_succ d t (by omega)]
    by_cases hit : i < t
    · have h1 := ih (by omega) i hit
      have h2 : (d.set i v).getD t 0 = d.getD t 0 := getD_set_ne d i t v (by omega)
      rw [h2]
      linarith [h1]
    · have hit' : i = t := by omega
      subst hit'
      rw [take_set_of_le d i v i (le_refl _), getD_set_self d i v (by omega)]
      ring

theorem and128_of_lt {x : Nat} (h : x < 128) : x &&& 128 = 0 := by
  have h1 := Nat.and_two_pow x 7
  norm_num at h1
  rw [h1, testBit7_false h]
  rfl

theorem and128_of_setbit {x : Nat} (h : x < 128) : (x + 128) &&& 128 = 128 := by
  have h1 := Nat.and_two_pow (x + 128) 7
  norm_num at h1
  rw [h1]
  have h2 : (x + 128).testBit 7 = true := by
    rw [Nat.testBit_to_div_mod]
    simp only [decide_eq_true_eq]
    omega
  rw [h2]
  rfl

theorem BN_clear_bit_top {r : BIGNUM} (hwf : Wellformed r) (hn : Normalized r)
    {M n : Nat} (hM : M < 2 ^ n) (hM0 : M ≠ 0) (hmag : bnMag r = M + 2 ^ n) :
    bnMag (BN_clear_bit r n) = M ∧ Wellformed (BN_clear_bit r n) ∧
    Normalized (BN_clear_bit r n) ∧ (BN_clear_bit r n).neg = r.neg := by
  have hpow1 : 1 ≤ 2 ^ n := Nat.one_le_two_pow
  have hlt : bnMag r < 2 ^ (BN_BITS2 * r.top) := bnMag_lt hwf
  have h2n : 2 ^ n ≤ bnMag r := by omega
  have hntop : n < BN_BITS2 * r.top := by
    by_contra hcon
    push_neg at hcon
    have h3 : (2 : Nat) ^ (BN_BITS2 * r.top) ≤ 2 ^ n := Nat.pow_le_pow_right (by norm_num) hcon
    omega
  have hntop' : n < 32 * r.top := hntop
  have hi : n / BN_BITS2 < r.top := by
    show n / 32 < r.top
    omega
  have hguard : ¬ (r.top ≤ n / BN_BITS2) := by omega
  have hjlt : n % BN_BITS2 < 32 := by
    show n % 32 < 32
    omega
  have hx : r.d.getD (n / BN_BITS2) 0 =
      bnMag r / 2 ^ (BN_BITS2 * (n / BN_BITS2)) % 2 ^ BN_BITS2 := by
    have h1 := limbsVal_extract (wf_take_lt hwf) (n / BN_BITS2)
    rw [getD_take_of_lt r.d hi] at h1
    exact h1.symm
  have hbit : r.d.getD (n / BN_BITS2) 0 / 2 ^ (n % BN_BITS2) % 2 = 1 := by
    rw [hx]
    have hsplit : (2 : Nat) ^ BN_BITS2 = 2 ^ (n % BN_BITS2) * 2 ^ (32 - n % BN_BITS2) := by
      rw [← pow_add]
      congr 1
      show (32 : Nat) = n % 32 + (32 - n % 32)
      omega
    rw [hsplit, Nat.mod_mul_right_div_self, Nat.mod_mod_of_dvd _
      (dvd_pow_self 2 (by omega : 32 - n % BN_BITS2 ≠ 0)), Nat.div_div_eq_div_mul, ← pow_add]
    have hn32 : BN_BITS2 * (n / BN_BITS2) + n % BN_BITS2 = n := by
      show 32 * (n / 32) + n % 32 = n
      omega
    rw [hn32, hmag, Nat.add_div_right _ (by omega), Nat.div_eq_of_lt hM]
  set W := clearBitWord (r.d.getD (n / BN_BITS2) 0) (n % BN_BITS2) with hW
  have hw' : W + 2 ^ (n % BN_BITS2) = r.d.getD (n / BN_BITS2) 0 := by
    have h1 := clearBitWord_add (r.d.getD (n / BN_BITS2) 0) (n % BN_BITS2)
    rw [hbit, one_mul] at h1
    exact h1
  have hstep : BN_clear_bit r n = bn_correct_top { r with d := r.d.set (n / BN_BITS2) W } := by
    show (if r.top ≤ n / BN_BITS2 then r
      else bn_correct_top { r with d := r.d.set (n / BN_BITS2) W }) = _
    rw [if_neg hguard]
  have hE := limbsVal_take_set r.d W r.top hwf.1 (n / BN_BITS2) hi
  have hPj : 2 ^ (BN_BITS2 * (n / BN_BITS2)) * 2 ^ (n % BN_BITS2) = 2 ^ n := by
    rw [← pow_add]
    congr 1
    show 32 * (n / 32) + n % 32 = n
    omega
  have hPx : 2 ^ (BN_BITS2 * (n / BN_BITS2)) * r.d.getD (n / BN_BITS2) 0 =
      2 ^ (BN_BITS2 * (n / BN_BITS2)) * W + 2 ^ n := by
    rw [← hw', Nat.mul_add, hPj]
  have hmagY : bnMag { r with d := r.d.set (n / BN_BITS2) W } = M := by
    show limbsVal ((r.d.set (n / BN_BITS2) W).take r.top) = M
    have hmagr : limbsVal (r.d.take r.top) = M + 2 ^ n := hmag
    linarith [hE, hPx, hmagr]
  have hxlt : r.d.getD (n / BN_BITS2) 0 < 2 ^ BN_BITS2 := getD_lt_of_wf hwf _
  have hwfY : Wellformed { r with d := r.d.set (n / BN_BITS2) W } := by
    constructor
    · show r.top ≤ (r.d.set (n / BN_BITS2) W).length
      rw [List.length_set]
      exact hwf.1
    · intro x hx2
      rcases List.mem_or_eq_of_mem_set hx2 with h | h
      · exact hwf.2 x h
      · subst h
        have h2 : (1 : Nat) ≤ 2 ^ (n % BN_BITS2) := Nat.one_le_two_pow
        omega
  have hne0 : ¬ correctTopAux (r.d.set (n / BN_BITS2) W) r.top = 0 := by
    intro h
    have h1 : bnMag (bn_correct_top { r with d := r.d.set (n / BN_BITS2) W }) = 0 := by
      show limbsVal ((r.d.set (n / BN_BITS2) W).take
        (correctTopAux (r.d.set (n / BN_BITS2) W) r.top)) = 0
      rw [h]
      rfl
    rw [bn_correct_top_mag, hmagY] at h1
    exact hM0 h1
  refine ⟨?_, ?_, ?_, ?_⟩
  · rw [hstep, bn_correct_top_mag, hmagY]
  · rw [hstep]
    exact bn_correct_top_wf hwfY
  · rw [hstep]
    exact bn_correct_top_normalized _
  · rw [hstep]
    show (if correctTopAux (r.d.set (n / BN_BITS2) W) r.top = 0 then false else r.neg) = r.neg
    rw [if_neg hne0]

theorem mpi_decode_aux (out : List Nat) (L : Nat) (P : List Nat) (M : Nat) (ng : Bool)
    (hout : out = [L >>> 24 % 256, L >>> 16 % 256, L >>> 8 % 256, L % 256] ++ P)
    (hL32 : L < 2 ^ 32) (hLP : P.length = L) (hPne : P ≠ []) (hPb : ∀ x ∈ P, x < 256)
    (hM0 : M ≠ 0)
    (hval : beVal P = if ng then M + 2 ^ (8 * L - 1) else M)
    (hsign : ((P.getD 0 0 &&& 128) != 0) = ng)
    (hMlt : M < 2 ^ (8 * L - 1)) :
    ∃ r, BN_mpi2bn out ((L : Int) + 4) none = some r ∧ bnMag r = M ∧ r.neg = ng ∧
      Wellformed r ∧ Normalized r := by
  subst hout
  have hL1 : 1 ≤ L := by
    rw [← hLP]
    cases P with
    | nil => exact absurd rfl hPne
    | cons p ps => simp
  have hstep1 : BN_mpi2bn ([L >>> 24 % 256, L >>> 16 % 256, L >>> 8 % 256, L % 256] ++ P)
      ((L : Int) + 4) none =
      (if ((L >>> 24 % 256 * 2 ^ 24 + L >>> 16 % 256 * 2 ^ 16 + L >>> 8 % 256 * 2 ^ 8 +
          L % 256 : Nat) : Int) + 4 ≠ (L : Int) + 4 then none
       else if L >>> 24 % 256 * 2 ^ 24 + L >>> 16 % 256 * 2 ^ 16 + L >>> 8 % 256 * 2 ^ 8 +
          L % 256 = 0 then some { BN_new with neg := false, top := 0 }
       else
        match BN_bin2bn P ((L >>> 24 % 256 * 2 ^ 24 + L >>> 16 % 256 * 2 ^ 16 +
            L >>> 8 % 256 * 2 ^ 8 + L % 256 : Nat) : Int) (some BN_new) with
        | none => none
        | some b =>
          let b := BN_set_negative b ((P.getD 0 0 &&& 128) != 0)
          if ((P.getD 0 0 &&& 128) != 0) = true then
            some (BN_clear_bit b (BN_num_bits b - 1))
          else some b) := by
    show (if (L : Int) + 4 < 4 then none else _) = _
    rw [if_neg (by omega)]
    rfl
  rw [hstep1, be4_roundtrip hL32]
  rw [if_neg (by
    push_neg
    rfl)]
  rw [if_neg (by omega)]
  have hbin : BN_bin2bn P ((L : Nat) : Int) (some BN_new) =
      some (bin2bn_result P BN_new) := by
    rw [← hLP]
    exact BN_bin2bn_eq_result P (some BN_new) hPne
  rw [hbin]
  have hr0 := bin2bn_result_spec (B := P) BN_new hPb hPne (by intro x hx; cases hx)
  obtain ⟨hr0wf, hr0n, hr0neg, hr0mag⟩ := hr0
  rw [hsign]
  cases ng with
  | false =>
    refine ⟨BN_set_negative (bin2bn_result P BN_new) false, ?_, ?_, ?_, ?_, ?_⟩
    · rfl
    · rw [BN_set_negative_mag, hr0mag, hval]
      rfl
    · rfl
    · exact (BN_set_negative_props hr0wf hr0n false).1
    · exact (BN_set_negative_props hr0wf hr0n false).2
  | true =>
    have hmag1 : bnMag (BN_set_negative (bin2bn_result P BN_new) true) = M + 2 ^ (8 * L - 1) := by
      rw [BN_set_negative_mag, hr0mag, hval]
      rfl
    have hprops := BN_set_negative_props hr0wf hr0n true
    have hzero := mag_zero_iff hprops.1.1 hprops.2.2
    have hmagne : bnMag (BN_set_negative (bin2bn_result P BN_new) true) ≠ 0 := by
      rw [hmag1]
      have : (1 : Nat) ≤ 2 ^ (8 * L - 1) := Nat.one_le_two_pow
      omega
    have htopne : (BN_set_negative (bin2bn_result P BN_new) true).top ≠ 0 :=
      fun h => hmagne (hzero.mpr h)
    have hneg1 : (BN_set_negative (bin2bn_result P BN_new) true).neg = true := by
      show (true && !((bin2bn_result P BN_new).top == 0)) = true
      have : ((bin2bn_result P BN_new).top == 0) = false := beq_eq_false_iff_ne.mpr htopne
      rw [this]
      rfl
    have hnb : BN_num_bits (BN_set_negative (bin2bn_result P BN_new) true) = 8 * L := by
      rw [num_bits_normalized hprops.1 hprops.2.2, hmag1]
      refine nat_size_eq ?_ (Or.inr ?_)
      · have h1 : (2 : Nat) ^ (8 * L - 1) + 2 ^ (8 * L - 1) = 2 ^ (8 * L) := by
          rw [← two_mul, ← pow_succ']
          congr 1
          omega
        omega
      · have : (2 : Nat) ^ (8 * L - 1) ≤ M + 2 ^ (8 * L - 1) := Nat.le_add_left _ _
        omega
    have hclear := BN_clear_bit_top hprops.1 hprops.2 (n := 8 * L - 1) hMlt hM0 hmag1
    refine ⟨BN_clear_bit (BN_set_negative (bin2bn_result P BN_new) true) (8 * L - 1),
      ?_, ?_, ?_, ?_, ?_⟩
    · show some (BN_clear_bit (BN_set_negative (bin2bn_result P BN_new) true)
        (BN_num_bits (BN_set_negative (bin2bn_result P BN_new) true) - 1)) =
        some (BN_clear_bit (BN_set_negative (bin2bn_result P BN_new) true) (8 * L - 1))
      rw [hnb]
    · exact hclear.1
    · rw [hclear.2.2.2, hneg1]
    · exact hclear.2.1
    · exact hclear.2.2.1

theorem BN_bn2mpi_ext {a : BIGNUM} (hwf : Wellformed a) (hn : Normalized a)
    (hcap : a.d.length * BN_BYTES ≤ 2 ^ 62) (hmagne : bnMag a ≠ 0)
    (hbit : 2 ^ (8 * minBytes (bnMag a) - 1) ≤ bnMag a) :
    BN_bn2mpi a true = (minBytes (bnMag a) + 4 + 1,
      some ([(minBytes (bnMag a) + 1) >>> 24 % 256, (minBytes (bnMag a) + 1) >>> 16 % 256,
        (minBytes (bnMag a) + 1) >>> 8 % 256, (minBytes (bnMag a) + 1) % 256] ++
        ((if a.neg then 128 else 0) :: beBytes (bnMag a) (minBytes (bnMag a))))) := by
  have hb := BN_bn2bin_eq hwf hn hcap
  have hbits := num_bits_normalized hwf hn.2
  have hnum : (BN_num_bits a + 7) / 8 = minBytes (bnMag a) := by
    rw [hbits]
    rfl
  have hmb1 : 1 ≤ minBytes (bnMag a) := by
    rcases Nat.eq_zero_or_pos (minBytes (bnMag a)) with h | h
    · exact absurd (minBytes_eq_zero_iff.mp h) hmagne
    · exact h
  have hsz : Nat.size (bnMag a) = 8 * minBytes (bnMag a) :=
    nat_size_eq (lt_two_pow_mul_minBytes _) (Or.inr hbit)
  have hext : (if 0 < BN_num_bits a ∧ BN_num_bits a % 8 = 0 then 1 else 0) = 1 := by
    rw [hbits, hsz]
    rw [if_pos (by omega)]
  simp only [BN_bn2mpi, Bool.not_true, Bool.false_eq_true, if_false, hext, hnum, hb]
  cases han : a.neg with
  | false =>
    simp only [Bool.false_eq_true, if_false]
    show (minBytes (bnMag a) + 4 + 1, some ([(minBytes (bnMag a) + 1) >>> 24 % 256,
      (minBytes (bnMag a) + 1) >>> 16 % 256, (minBytes (bnMag a) + 1) >>> 8 % 256,
      (minBytes (bnMag a) + 1) % 256] ++ [0] ++ beBytes (bnMag a) (minBytes (bnMag a)))) = _
    rfl
  | true =>
    simp only [if_true]
    show (minBytes (bnMag a) + 4 + 1, some (([(minBytes (bnMag a) + 1) >>> 24 % 256,
      (minBytes (bnMag a) + 1) >>> 16 % 256, (minBytes (bnMag a) + 1) >>> 8 % 256,
      (minBytes (bnMag a) + 1) % 256] ++ [0] ++ beBytes (bnMag a) (minBytes (bnMag a))).set 4
        (([(minBytes (bnMag a) + 1) >>> 24 % 256, (minBytes (bnMag a) + 1) >>> 16 % 256,
          (minBytes (bnMag a) + 1) >>> 8 % 256, (minBytes (bnMag a) + 1) % 256] ++ [0] ++
          beBytes (bnMag a) (minBytes (bnMag a))).getD 4 0 ||| 128))) = _
    have h1 : ([(minBytes (bnMag a) + 1) >>> 24 % 256, (minBytes (bnMag a) + 1) >>> 16 % 256,
        (minBytes (bnMag a) + 1) >>> 8 % 256, (minBytes (bnMag a) + 1) % 256] ++ [0] ++
        beBytes (bnMag a) (minBytes (bnMag a))).getD 4 0 = 0 := rfl
    rw [h1]
    have h2 : (0 : Nat) ||| 128 = 128 := rfl
    rw [h2]
    rfl

theorem BN_bn2mpi_noext {a : BIGNUM} (hwf : Wellformed a) (hn : Normalized a)
    (hcap : a.d.length * BN_BYTES ≤ 2 ^ 62) (hmagne : bnMag a ≠ 0)
    (hnob : ¬ 2 ^ (8 * minBytes (bnMag a) - 1) ≤ bnMag a) :
    BN_bn2mpi a true = (minBytes (bnMag a) + 4 + 0,
      some ([minBytes (bnMag a) >>> 24 % 256, minBytes (bnMag a) >>> 16 % 256,
        minBytes (bnMag a) >>> 8 % 256, minBytes (bnMag a) % 256] ++
        ((bnMag a / 2 ^ (8 * (minBytes (bnMag a) - 1)) % 256 + (if a.neg then 128 else 0)) ::
          beBytes (bnMag a) (minBytes (bnMag a) - 1)))) := by
  have hb := BN_bn2bin_eq hwf hn hcap
  have hbits := num_bits_normalized hwf hn.2
  have hnum : (BN_num_bits a + 7) / 8 = minBytes (bnMag a) := by
    rw [hbits]
    rfl
  have hmb1 : 1 ≤ minBytes (bnMag a) := by
    rcases Nat.eq_zero_or_pos (minBytes (bnMag a)) with h | h
    · exact absurd (minBytes_eq_zero_iff.mp h) hmagne
    · exact h
  have hmaglt : bnMag a < 2 ^ (8 * minBytes (bnMag a) - 1) := by omega
  have hszle : Nat.size (bnMag a) ≤ 8 * minBytes (bnMag a) - 1 := Nat.size_le.mpr hmaglt
  have hext0 : (if 0 < BN_num_bits a ∧ BN_num_bits a % 8 = 0 then 1 else 0) = 0 := by
    rw [hbits]
    rw [if_neg ?_]
    rintro ⟨hpos, hmod⟩
    have hnum' : (Nat.size (bnMag a) + 7) / 8 = minBytes (bnMag a) := rfl
    omega
  have hdivlt : bnMag a / 2 ^ (8 * (minBytes (bnMag a) - 1)) < 128 := by
    have heq : (2 : Nat) ^ (8 * minBytes (bnMag a) - 1) =
        2 ^ (8 * (minBytes (bnMag a) - 1)) * 2 ^ 7 := by
      rw [← pow_add]
      congr 1
      omega
    rw [heq] at hmaglt
    have h2 := Nat.div_lt_of_lt_mul hmaglt
    norm_num at h2 ⊢
    exact h2
  have hb0 : bnMag a / 2 ^ (8 * (minBytes (bnMag a) - 1)) % 256 =
      bnMag a / 2 ^ (8 * (minBytes (bnMag a) - 1)) :=
    Nat.mod_eq_of_lt (lt_trans hdivlt (by norm_num))
  have hb0lt : bnMag a / 2 ^ (8 * (minBytes (bnMag a) - 1)) % 256 < 2 ^ 7 := by
    rw [hb0]
    exact hdivlt
  simp only [BN_bn2mpi, Bool.not_true, Bool.false_eq_true, if_false, hext0, hnum, hb]
  rw [beBytes_head_ne hmagne]
  cases han : a.neg with
  | false =>
    simp only [Bool.false_eq_true, if_false]
    show (minBytes (bnMag a) + 4 + 0, some ([minBytes (bnMag a) >>> 24 % 256,
      minBytes (bnMag a) >>> 16 % 256, minBytes (bnMag a) >>> 8 % 256,
      minBytes (bnMag a) % 256] ++ [] ++
      (bnMag a / 2 ^ (8 * (minBytes (bnMag a) - 1)) % 256 ::
        beBytes (bnMag a) (minBytes (bnMag a) - 1)))) = _
    rfl
  | true =>
    simp only [if_true]
    show (minBytes (bnMag a) + 4 + 0, some (([minBytes (bnMag a) >>> 24 % 256,
      minBytes (bnMag a) >>> 16 % 256, minBytes (bnMag a) >>> 8 % 256,
      minBytes (bnMag a) % 256] ++ [] ++
      (bnMag a / 2 ^ (8 * (minBytes (bnMag a) - 1)) % 256 ::
        beBytes (bnMag a) (minBytes (bnMag a) - 1))).set 4
        (([minBytes (bnMag a) >>> 24 % 256, minBytes (bnMag a) >>> 16 % 256,
          minBytes (bnMag a) >>> 8 % 256, minBytes (bnMag a) % 256] ++ [] ++
          (bnMag a / 2 ^ (8 * (minBytes (bnMag a) - 1)) % 256 ::
            beBytes (bnMag a) (minBytes (bnMag a) - 1))).getD 4 0 ||| 128))) = _
    have h1 : ([minBytes (bnMag a) >>> 24 % 256, minBytes (bnMag a) >>> 16 % 256,
        minBytes (bnMag a) >>> 8 % 256, minBytes (bnMag a) % 256] ++ [] ++
        (bnMag a / 2 ^ (8 * (minBytes (bnMag a) - 1)) % 256 ::
          beBytes (bnMag a) (minBytes (bnMag a) - 1))).getD 4 0 =
        bnMag a / 2 ^ (8 * (minBytes (bnMag a) - 1)) % 256 := rfl
    rw [h1]
    have h2 : bnMag a / 2 ^ (8 * (minBytes (bnMag a) - 1)) % 256 ||| 128 =
        bnMag a / 2 ^ (8 * (minBytes (bnMag a) - 1)) % 256 + 128 :=
      lor_shiftLeft_eq_add _ 1 7 hb0lt
    rw [h2]
    rfl

theorem BN_mpi2bn_bn2mpi (a : BIGNUM) (hwf : Wellformed a) (hn : Normalized a)
    (hcap : a.d.length * BN_BYTES ≤ 2 ^ 62) (hsize : a.d.length ≤ 2 ^ 25) :
    ∃ r, BN_mpi2bn ((BN_bn2mpi a true).2.getD []) (((BN_bn2mpi a true).1 : Nat) : Int) none =
      some r ∧ bnMag r = bnMag a ∧ r.neg = a.neg ∧ Wellformed r ∧ Normalized r := by
  by_cases hz : bnMag a = 0
  · have htop := (mag_zero_iff hwf.1 hn.2).mp hz
    have hnegf := hn.1 htop
    have hb0 : BN_num_bits a = 0 := by
      rw [num_bits_normalized hwf hn.2, hz]
      exact Nat.size_zero
    have hbz : BN_bn2bin a = some [] := by
      rw [BN_bn2bin_eq hwf hn hcap, hz, minBytes_eq_zero_iff.mpr rfl]
      rfl
    have henc : BN_bn2mpi a true = (4, some [0, 0, 0, 0]) := by
      simp only [BN_bn2mpi, Bool.not_true, Bool.false_eq_true, if_false, hb0, hnegf, hbz]
      norm_num
    rw [henc]
    refine ⟨⟨[], 0, false⟩, by decide, ?_, ?_, by decide, by decide⟩
    · rw [hz]
      rfl
    · rw [hnegf]
  · have hmb1 : 1 ≤ minBytes (bnMag a) := by
      rcases Nat.eq_zero_or_pos (minBytes (bnMag a)) with h | h
      · exact absurd (minBytes_eq_zero_iff.mp h) hz
      · exact h
    have hmb25 : minBytes (bnMag a) ≤ 4 * 2 ^ 25 := by
      apply minBytes_le_of_lt
      refine lt_of_lt_of_le (bnMag_lt hwf) (Nat.pow_le_pow_right (by norm_num) ?_)
      have h1 : a.top ≤ 2 ^ 25 := le_trans hwf.1 hsize
      show BN_BITS2 * a.top ≤ 8 * (4 * 2 ^ 25)
      have h2 : BN_BITS2 * a.top ≤ 32 * 2 ^ 25 := by
        show 32 * a.top ≤ 32 * 2 ^ 25
        omega
      omega
    have hmaglt8 : bnMag a < 2 ^ (8 * minBytes (bnMag a)) := lt_two_pow_mul_minBytes _
    by_cases hbit : 2 ^ (8 * minBytes (bnMag a) - 1) ≤ bnMag a
    · have henc := BN_bn2mpi_ext hwf hn hcap hz hbit
      rw [henc]
      have hcast : (((minBytes (bnMag a) + 4 + 1 : Nat) : Nat) : Int) =
          ((minBytes (bnMag a) + 1 : Nat) : Int) + 4 := by
        push_cast
        ring
      show ∃ r, BN_mpi2bn ((some _).getD []) _ none = some r ∧ _
      rw [Option.getD_some, hcast]
      apply mpi_decode_aux _ (minBytes (bnMag a) + 1)
        ((if a.neg then 128 else 0) :: beBytes (bnMag a) (minBytes (bnMag a))) (bnMag a) a.neg
        rfl
      · have h32 : (4 : Nat) * 2 ^ 25 = 134217728 := by norm_num
        have h32' : (2 : Nat) ^ 32 = 4294967296 := by norm_num
        omega
      · show (beBytes (bnMag a) (minBytes (bnMag a))).length + 1 = minBytes (bnMag a) + 1
        rw [beBytes, List.length_reverse, leBytes_length]
      · intro h
        cases h
      · intro x hx
        rcases List.mem_cons.mp hx with h | h
        · cases han : a.neg
          · rw [han] at h
            simp at h
            omega
          · rw [han] at h
            simp at h
            omega
        · exact beBytes_bytes_lt _ _ x h
      · exact hz
      · cases han : a.neg with
        | false =>
          show beVal (0 :: beBytes (bnMag a) (minBytes (bnMag a))) = _
          rw [beVal_cons, beVal_beBytes_of_lt hmaglt8]
          simp
        | true =>
          show beVal (128 :: beBytes (bnMag a) (minBytes (bnMag a))) = _
          rw [beVal_cons, beVal_beBytes_of_lt hmaglt8, if_pos rfl]
          rw [beBytes, List.length_reverse, leBytes_length]
          have h1 : (128 : Nat) * 2 ^ (8 * minBytes (bnMag a)) =
              2 ^ (8 * (minBytes (bnMag a) + 1) - 1) := by
            rw [show (128 : Nat) = 2 ^ 7 from by norm_num, ← pow_add]
            congr 1
            omega
          rw [h1]
          ring
      · cases han : a.neg with
        | false =>
          show ((0 &&& 128 : Nat) != 0) = false
          decide
        | true =>
          show ((128 &&& 128 : Nat) != 0) = true
          decide
      · have h1 : (2 : Nat) ^ (8 * minBytes (bnMag a)) ≤
            2 ^ (8 * (minBytes (bnMag a) + 1) - 1) := by
          apply Nat.pow_le_pow_right (by norm_num)
          omega
        omega
    · have henc := BN_bn2mpi_noext hwf hn hcap hz hbit
      rw [henc]
      have hcast : (((minBytes (bnMag a) + 4 + 0 : Nat) : Nat) : Int) =
          ((minBytes (bnMag a) : Nat) : Int) + 4 := by
        push_cast
        ring
      show ∃ r, BN_mpi2bn ((some _).getD []) _ none = some r ∧ _
      rw [Option.getD_some, hcast]
      have hmaglt7 : bnMag a < 2 ^ (8 * minBytes (bnMag a) - 1) := by omega
      have hdivlt : bnMag a / 2 ^ (8 * (minBytes (bnMag a) - 1)) < 128 := by
        have heq : (2 : Nat) ^ (8 * minBytes (bnMag a) - 1) =
            2 ^ (8 * (minBytes (bnMag a) - 1)) * 2 ^ 7 := by
          rw [← pow_add]
          congr 1
          omega
        rw [heq] at hmaglt7
        have h2 := Nat.div_lt_of_lt_mul hmaglt7
        norm_num at h2 ⊢
        exact h2
      have hb0 : bnMag a / 2 ^ (8 * (minBytes (bnMag a) - 1)) % 256 =
          bnMag a / 2 ^ (8 * (minBytes (bnMag a) - 1)) :=
        Nat.mod_eq_of_lt (lt_trans hdivlt (by norm_num))
      apply mpi_decode_aux _ (minBytes (bnMag a))
        ((bnMag a / 2 ^ (8 * (minBytes (bnMag a) - 1)) % 256 + (if a.neg then 128 else 0)) ::
          beBytes (bnMag a) (minBytes (bnMag a) - 1)) (bnMag a) a.neg rfl
      · have h32 : (4 : Nat) * 2 ^ 25 = 134217728 := by norm_num
        have h32' : (2 : Nat) ^ 32 = 4294967296 := by norm_num
        omega
      · show (beBytes (bnMag a) (minBytes (bnMag a) - 1)).length + 1 = minBytes (bnMag a)
        rw [beBytes, List.length_reverse, leBytes_length]
        omega
      · intro h
        cases h
      · intro x hx
        rcases List.mem_cons.mp hx with h | h
        · cases han : a.neg
          · rw [han] at h
            simp at h
            omega
          · rw [han] at h
            simp at h
            omega
        · exact beBytes_bytes_lt _ _ x h
      · exact hz
      · have hlenrest : (beBytes (bnMag a) (minBytes (bnMag a) - 1)).length =
            minBytes (bnMag a) - 1 := by
          rw [beBytes, List.length_reverse, leBytes_length]
        have hrest : beVal (beBytes (bnMag a) (minBytes (bnMag a) - 1)) =
            bnMag a % 2 ^ (8 * (minBytes (bnMag a) - 1)) := beVal_beBytes _ _
        cases han : a.neg with
        | false =>
          show beVal ((bnMag a / 2 ^ (8 * (minBytes (bnMag a) - 1)) % 256 + 0) ::
            beBytes (bnMag a) (minBytes (bnMag a) - 1)) = _
          rw [beVal_cons, hlenrest, hrest, hb0, Nat.add_zero]
          show bnMag a / 2 ^ (8 * (minBytes (bnMag a) - 1)) * 2 ^ (8 * (minBytes (bnMag a) - 1)) +
            bnMag a % 2 ^ (8 * (minBytes (bnMag a) - 1)) = bnMag a
          have hdm := Nat.div_add_mod (bnMag a) (2 ^ (8 * (minBytes (bnMag a) - 1)))
          linarith [hdm]
        | true =>
          show beVal ((bnMag a / 2 ^ (8 * (minBytes (bnMag a) - 1)) % 256 + 128) ::
            beBytes (bnMag a) (minBytes (bnMag a) - 1)) = _
          rw [beVal_cons, hlenrest, hrest, hb0, if_pos rfl]
          have hsum : (bnMag a / 2 ^ (8 * (minBytes (bnMag a) - 1)) + 128) *
              2 ^ (8 * (minBytes (bnMag a) - 1)) +
              bnMag a % 2 ^ (8 * (minBytes (bnMag a) - 1)) =
              bnMag a + 2 ^ 7 * 2 ^ (8 * (minBytes (bnMag a) - 1)) := by
            have hdm := Nat.div_add_mod (bnMag a) (2 ^ (8 * (minBytes (bnMag a) - 1)))
            have hexp : (128 : Nat) = 2 ^ 7 := by norm_num
            rw [Nat.add_mul, hexp]
            linarith [hdm]
          rw [hsum, ← pow_add, show 7 + 8 * (minBytes (bnMag a) - 1) =
            8 * minBytes (bnMag a) - 1 from by omega]
      · cases han : a.neg with
        | false =>
          show ((bnMag a / 2 ^ (8 * (minBytes (bnMag a) - 1)) % 256 + 0 &&& 128) != 0) = false
          rw [Nat.add_zero, and128_of_lt (by omega)]
          decide
        | true =>
          show ((bnMag a / 2 ^ (8 * (minBytes (bnMag a) - 1)) % 256 + 128 &&& 128) != 0) = true
          rw [and128_of_setbit (by omega)]
          decide
      · exact hmaglt7

theorem beBytes_ne_nil {m : Nat} (hm : m ≠ 0) : beBytes m (minBytes m) ≠ [] := by
  intro h
  have hl := congrArg List.length h
  rw [beBytes, List.length_reverse, leBytes_length] at hl
  simp at hl
  exact hm (minBytes_eq_zero_iff.mp hl)

theorem BN_bin2bn_bn2bin (a : BIGNUM) (hwf : Wellformed a) (hn : Normalized a)
    (hcap : a.d.length * BN_BYTES ≤ 2 ^ 62) :
    ∃ r, BN_bin2bn ((BN_bn2bin a).getD []) ((((BN_bn2bin a).getD []).length : Nat) : Int) none =
      some r ∧ bnMag r = bnMag a ∧ Wellformed r ∧ Normalized r := by
  rw [BN_bn2bin_eq hwf hn hcap, Option.getD_some]
  by_cases hz : bnMag a = 0
  · rw [hz, minBytes_eq_zero_iff.mpr rfl]
    have hB : beBytes 0 0 = [] := rfl
    rw [hB]
    rw [show ((([] : List Nat).length : Nat) : Int) = ((0 : Nat) : Int) from rfl,
      show ((0 : Nat) : Int) = (0 : Int) from rfl, BN_bin2bn_zero_len]
    exact ⟨_, rfl, rfl, by decide, by decide⟩
  · have hBne := beBytes_ne_nil hz
    rw [BN_bin2bn_eq_result _ none hBne]
    have hspec := bin2bn_result_spec (B := beBytes (bnMag a) (minBytes (bnMag a))) BN_new
      (beBytes_bytes_lt _ _) hBne (by intro x hx; cases hx)
    have hmagr : bnMag (bin2bn_result (beBytes (bnMag a) (minBytes (bnMag a))) BN_new) =
        bnMag a := by
      rw [hspec.2.2.2]
      exact beVal_beBytes_of_lt (lt_two_pow_mul_minBytes _)
    exact ⟨_, rfl, hmagr, hspec.1, hspec.2.1⟩

theorem BN_lebin2bn_bn2lebinpad (a : BIGNUM) (hwf : Wellformed a) (hn : Normalized a)
    (hcap : a.d.length * BN_BYTES ≤ 2 ^ 62) {tolen : Int}
    (hlo : (minBytes (bnMag a) : Int) ≤ tolen) (hhi : tolen ≤ 2 ^ 62) :
    ∃ r, BN_lebin2bn ((BN_bn2lebinpad a tolen).getD [])
        ((((BN_bn2lebinpad a tolen).getD []).length : Nat) : Int) none = some r ∧
      bnMag r = bnMag a ∧ Wellformed r ∧ Normalized r := by
  have h0 : (0 : Int) ≤ tolen := le_trans (Int.natCast_nonneg _) hlo
  rw [BN_bn2lebinpad_eq hwf hcap h0 hhi, if_neg (not_lt.mpr hlo), Option.getD_some]
  have hdt : dropTrailingZeros (leBytes (bnMag a) tolen.toNat) =
      leBytes (bnMag a) (minBytes (bnMag a)) :=
    dropTrailingZeros_leBytes (by
      have := Int.toNat_le_toNat hlo
      rw [Int.toNat_natCast] at this
      exact this)
  by_cases hz : bnMag a = 0
  · have hz' : dropTrailingZeros (leBytes (bnMag a) tolen.toNat) = [] := by
      rw [hdt, hz, minBytes_eq_zero_iff.mpr rfl]
      rfl
    rw [show (((leBytes (bnMag a) tolen.toNat).length : Nat) : Int) =
      ((leBytes (bnMag a) tolen.toNat).length : Int) from rfl]
    rw [BN_lebin2bn_zero_trim _ none hz']
    exact ⟨_, rfl, by rw [hz]; rfl, by decide, by decide⟩
  · have hne : dropTrailingZeros (leBytes (bnMag a) tolen.toNat) ≠ [] := by
      rw [hdt]
      intro h
      have hl := congrArg List.length h
      rw [leBytes_length] at hl
      simp at hl
      exact hz (minBytes_eq_zero_iff.mp hl)
    rw [BN_lebin2bn_eq_result _ none hne]
    have hrev : (dropTrailingZeros (leBytes (bnMag a) tolen.toNat)).reverse =
        beBytes (bnMag a) (minBytes (bnMag a)) := by
      rw [hdt]
      rfl
    rw [hrev]
    have hBne := beBytes_ne_nil hz
    have hspec := bin2bn_result_spec (B := beBytes (bnMag a) (minBytes (bnMag a))) BN_new
      (beBytes_bytes_lt _ _) hBne (by intro x hx; cases hx)
    have hmagr : bnMag (bin2bn_result (beBytes (bnMag a) (minBytes (bnMag a))) BN_new) =
        bnMag a := by
      rw [hspec.2.2.2]
      exact beVal_beBytes_of_lt (lt_two_pow_mul_minBytes _)
    exact ⟨_, rfl, hmagr, hspec.1, hspec.2.1⟩

/-- Claim C1: decoding the encoding recovers the value for all five codecs —
big-endian bytes (`BN_bin2bn` after `BN_bn2bin`), little-endian bytes
(`BN_lebin2bn` after `BN_bn2lebinpad`, any sufficient requested length),
decimal (`BN_dec2bn` after `BN_bn2dec`), hexadecimal (`BN_hex2bn` after
`BN_bn2hex`) and MPI (`BN_mpi2bn` after `BN_bn2mpi`); the magnitude is
recovered exactly, and the sign as well for the sign-carrying decimal,
hexadecimal and MPI codecs. -/
theorem claim_C1_roundtrip (a b : BIGNUM) (tolen : Int) (hwf : Wellformed a)
    (hn : Normalized a) (hsize : a.d.length ≤ 2 ^ 25)
    (hb : ∀ x ∈ b.d, x < 2 ^ BN_BITS2)
    (hlo : (minBytes (bnMag a) : Int) ≤ tolen) (hhi : tolen ≤ 2 ^ 62) :
    (∃ r, BN_bin2bn ((BN_bn2bin a).getD []) ((((BN_bn2bin a).getD []).length : Nat) : Int) none =
        some r ∧ bnMag r = bnMag a) ∧
    (∃ r, BN_lebin2bn ((BN_bn2lebinpad a tolen).getD [])
        ((((BN_bn2lebinpad a tolen).getD []).length : Nat) : Int) none = some r ∧
      bnMag r = bnMag a) ∧
    (∃ n r, BN_dec2bn (some (some b)) (some (BN_bn2dec a)) = (n, some (some r)) ∧
      bnMag r = bnMag a ∧ r.neg = a.neg) ∧
    (∃ n r, BN_hex2bn (some (some b)) (some (BN_bn2hex a)) = (n, some (some r)) ∧
      bnMag r = bnMag a ∧ r.neg = a.neg) ∧
    (∃ r, BN_mpi2bn ((BN_bn2mpi a true).2.getD []) (((BN_bn2mpi a true).1 : Nat) : Int) none =
        some r ∧ bnMag r = bnMag a ∧ r.neg = a.neg) := by
  have hcap : a.d.length * BN_BYTES ≤ 2 ^ 62 := by
    have h4 : BN_BYTES = 4 := rfl
    rw [h4]
    have e1 : (2 : Nat) ^ 25 = 33554432 := by norm_num
    have e2 : (2 : Nat) ^ 62 = 4611686018427387904 := by norm_num
    omega
  refine ⟨?_, ?_, ?_, ?_, ?_⟩
  · obtain ⟨r, h1, h2, _, _⟩ := BN_bin2bn_bn2bin a hwf hn hcap
    exact ⟨r, h1, h2⟩
  · obtain ⟨r, h1, h2, _, _⟩ := BN_lebin2bn_bn2lebinpad a hwf hn hcap hlo hhi
    exact ⟨r, h1, h2⟩
  · obtain ⟨n, r, h1, _, h2, h3, _, _⟩ := BN_dec2bn_bn2dec a b hwf hn hsize
    exact ⟨n, r, h1, h2, h3⟩
  · obtain ⟨n, r, h1, _, h2, h3, _, _⟩ := BN_hex2bn_bn2hex a b hwf hn hsize hb
    exact ⟨n, r, h1, h2, h3⟩
  · obtain ⟨r, h1, h2, h3, _, _⟩ := BN_mpi2bn_bn2mpi a hwf hn hcap hsize
    exact ⟨r, h1, h2, h3⟩

theorem claim_C1_roundtrip_witness :
    ((minBytes (bnMag ⟨[5], 1, true⟩) : Int) ≤ 1 ∧ Wellformed ⟨[5], 1, true⟩ ∧
      Normalized ⟨[5], 1, true⟩) ∧
    ((∃ r, BN_bin2bn ((BN_bn2bin ⟨[5], 1, true⟩).getD [])
        ((((BN_bn2bin ⟨[5], 1, true⟩).getD []).length : Nat) : Int) none =
        some r ∧ bnMag r = bnMag ⟨[5], 1, true⟩) ∧
    (∃ r, BN_lebin2bn ((BN_bn2lebinpad ⟨[5], 1, true⟩ 1).getD [])
        ((((BN_bn2lebinpad ⟨[5], 1, true⟩ 1).getD []).length : Nat) : Int) none = some r ∧
      bnMag r = bnMag ⟨[5], 1, true⟩) ∧
    (∃ n r, BN_dec2bn (some (some ⟨[7], 1, false⟩)) (some (BN_bn2dec ⟨[5], 1, true⟩)) =
        (n, some (some r)) ∧
      bnMag r = bnMag ⟨[5], 1, true⟩ ∧ r.neg = BIGNUM.neg ⟨[5], 1, true⟩) ∧
    (∃ n r, BN_hex2bn (some (some ⟨[7], 1, false⟩)) (some (BN_bn2hex ⟨[5], 1, true⟩)) =
        (n, some (some r)) ∧
      bnMag r = bnMag ⟨[5], 1, true⟩ ∧ r.neg = BIGNUM.neg ⟨[5], 1, true⟩) ∧
    (∃ r, BN_mpi2bn ((BN_bn2mpi ⟨[5], 1, true⟩ true).2.getD [])
        (((BN_bn2mpi ⟨[5], 1, true⟩ true).1 : Nat) : Int) none =
        some r ∧ bnMag r = bnMag ⟨[5], 1, true⟩ ∧ r.neg = BIGNUM.neg ⟨[5], 1, true⟩)) := by
  have hm : bnMag ⟨[5], 1, true⟩ = 5 := by decide
  have hmin : minBytes 5 = 1 := minBytes_eq_of (by norm_num) (Or.inr (by norm_num))
  refine ⟨⟨?_, by decide, by decide⟩, ?_⟩
  · rw [hm, hmin]
    norm_num
  · exact claim_C1_roundtrip ⟨[5], 1, true⟩ ⟨[7], 1, false⟩ 1 (by decide) (by decide)
      (by norm_num) (by decide) (by rw [hm, hmin]; norm_num) (by norm_num)

/-- Claim C6: for a value whose top magnitude byte has bit 7 set, `BN_bn2mpi`
emits exactly one extra leading zero payload byte, a 4-byte big-endian length
field equal to the magnitude byte count plus one, and stores the sign by
setting bit 7 of the first payload byte; `BN_mpi2bn` on that buffer recovers
the exact original magnitude and sign (in particular 128 encodes to length
field 2 with payload bytes 0x00 0x80, which decodes back to 128). -/
theorem claim_C6_mpi_highbit (a : BIGNUM) (hwf : Wellformed a) (hn : Normalized a)
    (hsize : a.d.length ≤ 2 ^ 25) (hmagne : bnMag a ≠ 0)
    (hbit : 128 ≤ bnMag a / 2 ^ (8 * (minBytes (bnMag a) - 1)) % 256) :
    BN_bn2mpi a true = (minBytes (bnMag a) + 4 + 1,
      some ([(minBytes (bnMag a) + 1) >>> 24 % 256, (minBytes (bnMag a) + 1) >>> 16 % 256,
        (minBytes (bnMag a) + 1) >>> 8 % 256, (minBytes (bnMag a) + 1) % 256] ++
        ((if a.neg then 128 else 0) :: beBytes (bnMag a) (minBytes (bnMag a))))) ∧
    (∃ r, BN_mpi2bn ((BN_bn2mpi a true).2.getD []) (((BN_bn2mpi a true).1 : Nat) : Int) none =
        some r ∧ bnMag r = bnMag a ∧ r.neg = a.neg) := by
  have hcap : a.d.length * BN_BYTES ≤ 2 ^ 62 := by
    have h4 : BN_BYTES = 4 := rfl
    rw [h4]
    have e1 : (2 : Nat) ^ 25 = 33554432 := by norm_num
    have e2 : (2 : Nat) ^ 62 = 4611686018427387904 := by norm_num
    omega
  have hmb1 : 1 ≤ minBytes (bnMag a) := by
    rcases Nat.eq_zero_or_pos (minBytes (bnMag a)) with h | h
    · exact absurd (minBytes_eq_zero_iff.mp h) hmagne
    · exact h
  have hbit' : 2 ^ (8 * minBytes (bnMag a) - 1) ≤ bnMag a := by
    by_contra hno
    push_neg at hno
    have hdivlt : bnMag a / 2 ^ (8 * (minBytes (bnMag a) - 1)) < 128 := by
      have heq : (2 : Nat) ^ (8 * minBytes (bnMag a) - 1) =
          2 ^ (8 * (minBytes (bnMag a) - 1)) * 2 ^ 7 := by
        rw [← pow_add]
        congr 1
        omega
      rw [heq] at hno
      have h2 := Nat.div_lt_of_lt_mul hno
      norm_num at h2 ⊢
      exact h2
    have hb0 : bnMag a / 2 ^ (8 * (minBytes (bnMag a) - 1)) % 256 < 128 := by
      have := Nat.mod_eq_of_lt (lt_trans hdivlt (by norm_num :
        (128 : Nat) < 256))
      omega
    omega
  obtain ⟨r, h1, h2, h3, _, _⟩ := BN_mpi2bn_bn2mpi a hwf hn hcap hsize
  exact ⟨BN_bn2mpi_ext hwf hn hcap hmagne hbit', r, h1, h2, h3⟩

theorem claim_C6_mpi_highbit_witness :
    (bnMag ⟨[128], 1, false⟩ ≠ 0 ∧
      128 ≤ bnMag ⟨[128], 1, false⟩ / 2 ^ (8 * (minBytes (bnMag ⟨[128], 1, false⟩) - 1)) % 256) ∧
    BN_bn2mpi ⟨[128], 1, false⟩ true = (6, some [0, 0, 0, 2, 0, 128]) ∧
    (∃ r, BN_mpi2bn [0, 0, 0, 2, 0, 128] ((6 : Nat) : Int) none = some r ∧
      bnMag r = 128 ∧ r.neg = false) := by
  have hm : bnMag ⟨[128], 1, false⟩ = 128 := by decide
  have hmin : minBytes 128 = 1 := minBytes_eq_of (by norm_num) (Or.inr (by norm_num))
  have h := claim_C6_mpi_highbit ⟨[128], 1, false⟩ (by decide) (by decide) (by norm_num)
    (by decide) (by rw [hm, hmin]; norm_num)
  have henc : BN_bn2mpi ⟨[128], 1, false⟩ true = (6, some [0, 0, 0, 2, 0, 128]) := by
    rw [h.1, hm, hmin]
    decide
  obtain ⟨r, hr1, hr2, hr3⟩ := h.2
  rw [henc] at hr1
  refine ⟨⟨by decide, by rw [hm, hmin]; norm_num⟩, henc, r, hr1, ?_, hr3⟩
  rw [hr2, hm]
